import Mathlib

/-!
# Verification of the word_online document-conversion core

This file gives a shallow embedding, in Lean 4, of the parts of the
`word_online` backend that the specification's testable properties talk
about, together with proofs (or refutations) of those properties.

Conventions of the embedding:
* Python `str` values are modelled as `List Char` (`PyStr`); Python string
  slicing `t[a:b]` with non-negative indices is `pySlice`.
* Mark ranges are pairs of natural numbers (the JSON layer only ever
  produces non-negative offsets for them).
* HTML documents are modelled at the tree level (`HNode`), the interface at
  which BeautifulSoup hands documents to the parser and at which the
  renderer's output string is re-read; `html.escape`/unescaping is the
  identity at this level, so text nodes store raw text.
* Fallible code is modelled with `Except`.
-/

set_option maxHeartbeats 1000000

namespace WordOnline

/-- Python strings, modelled as lists of characters. -/
abbrev PyStr := List Char

/-- Python slicing `t[a:b]` for natural indices. -/
def pySlice (t : PyStr) (a b : Nat) : PyStr := (t.drop a).take (b - a)

/-- A formatting mark over a half-open character range, mirroring the
`Mark = Union[SimpleMark, LinkMark, ValueMark, CompositeMark]` model of
`app/models/content_models.py`. -/
inductive Mark : Type
  | simple (name : String) (rng : Nat × Nat)
  | link (href : PyStr) (rng : Nat × Nat)
  | value (name : String) (val : PyStr) (rng : Nat × Nat)
  | composite (names : List String) (rng : Nat × Nat)
deriving DecidableEq, Repr

/-- The `range` field shared by all mark variants. -/
def Mark.rng : Mark → Nat × Nat
  | .simple _ r => r
  | .link _ r => r
  | .value _ _ r => r
  | .composite _ r => r

/-! ## Renderer resegmentation (`WangEditorRenderer._apply_marks`, steps 1-2)

The renderer collects the clipped boundary points of all marks together
with `0` and `len(text)` into a sorted set, and each adjacent pair of
boundary points that cuts a non-empty slice of the text becomes a segment.
-/

/-- Insert into a sorted, duplicate-free list (the effect of adding one
element to the Python `set` and reading the result back via `sorted`). -/
def insertSortedDedup (x : Nat) : List Nat → List Nat
  | [] => [x]
  | y :: ys =>
    if x < y then x :: y :: ys
    else if x = y then y :: ys
    else y :: insertSortedDedup x ys

/-- `sorted(boundaries)` where `boundaries = {0, len(text)} ∪
{max(0, start), min(len(text), end) | mark}` (`_apply_marks`, step 1;
`max(0, start)` is just `start` over `Nat`). -/
def boundaryPoints (len : Nat) (marks : List Mark) : List Nat :=
  marks.foldl
    (fun acc m => insertSortedDedup (min len m.rng.2) (insertSortedDedup m.rng.1 acc))
    (insertSortedDedup len [0])

/-- All adjacent pairs of a list (`sorted_boundaries[i], sorted_boundaries[i+1]`). -/
def adjPairs : List Nat → List (Nat × Nat)
  | a :: b :: rest => (a, b) :: adjPairs (b :: rest)
  | _ => []

/-- The segments the renderer's `_apply_marks` actually emits: adjacent
boundary pairs whose slice of the text is non-empty (the
`if not segment_text: continue` test). -/
def rendererSegments (text : PyStr) (marks : List Mark) : List (Nat × Nat) :=
  (adjPairs (boundaryPoints text.length marks)).filter
    fun s => decide (pySlice text s.1 s.2 ≠ [])

/-! ### Sorted-list infrastructure -/

theorem mem_insertSortedDedup {a x : Nat} {l : List Nat} :
    a ∈ insertSortedDedup x l ↔ a = x ∨ a ∈ l := by
  induction l with
  | nil => simp [insertSortedDedup]
  | cons y ys ih =>
    by_cases h1 : x < y
    · simp [insertSortedDedup, h1]
    · by_cases h2 : x = y
      · subst h2
        simp only [insertSortedDedup, h1, if_false, if_true]
        simp only [List.mem_cons]
        tauto
      · simp only [insertSortedDedup, h1, h2, if_false, List.mem_cons, ih]
        tauto

theorem pairwise_insertSortedDedup {x : Nat} {l : List Nat}
    (h : l.Pairwise (· < ·)) : (insertSortedDedup x l).Pairwise (· < ·) := by
  induction l with
  | nil => simp [insertSortedDedup]
  | cons y ys ih =>
    rcases List.pairwise_cons.mp h with ⟨hy, hys⟩
    by_cases h1 : x < y
    · simp only [insertSortedDedup, h1, if_true]
      refine List.pairwise_cons.mpr ⟨?_, h⟩
      intro a ha
      rcases List.mem_cons.mp ha with rfl | ha
      · exact h1
      · exact lt_trans h1 (hy a ha)
    · by_cases h2 : x = y
      · subst h2
        simpa [insertSortedDedup, h1] using h
      · have hyx : y < x := by omega
        simp only [insertSortedDedup, h1, h2, if_false]
        refine List.pairwise_cons.mpr ⟨?_, ih hys⟩
        intro a ha
        rcases mem_insertSortedDedup.mp ha with rfl | ha
        · exact hyx
        · exact hy a ha

theorem foldl_boundary_pairwise (len : Nat) (marks : List Mark) (acc : List Nat)
    (h : acc.Pairwise (· < ·)) :
    (marks.foldl
      (fun acc m => insertSortedDedup (min len m.rng.2) (insertSortedDedup m.rng.1 acc))
      acc).Pairwise (· < ·) := by
  induction marks generalizing acc with
  | nil => simpa using h
  | cons m ms ih =>
    exact ih _ (pairwise_insertSortedDedup (pairwise_insertSortedDedup h))

theorem mem_foldl_boundary (len : Nat) (marks : List Mark) (acc : List Nat) (a : Nat) :
    a ∈ marks.foldl
      (fun acc m => insertSortedDedup (min len m.rng.2) (insertSortedDedup m.rng.1 acc))
      acc ↔
      a ∈ acc ∨ ∃ m ∈ marks, a = m.rng.1 ∨ a = min len m.rng.2 := by
  induction marks generalizing acc with
  | nil => simp
  | cons m ms ih =>
    simp only [List.foldl_cons, ih, mem_insertSortedDedup, List.mem_cons]
    constructor
    · rintro ((h | (h | h)) | ⟨m', hm', h⟩)
      · exact Or.inr ⟨m, Or.inl rfl, Or.inr h⟩
      · exact Or.inr ⟨m, Or.inl rfl, Or.inl h⟩
      · exact Or.inl h
      · exact Or.inr ⟨m', Or.inr hm', h⟩
    · rintro (h | ⟨m', hm' | hm', h⟩)
      · exact Or.inl (Or.inr (Or.inr h))
      · subst hm'
        rcases h with h | h
        · exact Or.inl (Or.inr (Or.inl h))
        · exact Or.inl (Or.inl h)
      · exact Or.inr ⟨m', hm', h⟩

theorem boundaryPoints_pairwise (len : Nat) (marks : List Mark) :
    (boundaryPoints len marks).Pairwise (· < ·) := by
  apply foldl_boundary_pairwise
  by_cases h : len = 0
  · simp [insertSortedDedup, h]
  · simp only [insertSortedDedup, if_neg (by omega : ¬ len < 0), if_neg h]
    simp
    omega

theorem mem_boundaryPoints (len : Nat) (marks : List Mark) (a : Nat) :
    a ∈ boundaryPoints len marks ↔
      a = 0 ∨ a = len ∨ ∃ m ∈ marks, a = m.rng.1 ∨ a = min len m.rng.2 := by
  unfold boundaryPoints
  rw [mem_foldl_boundary]
  have h0 : a ∈ insertSortedDedup len [0] ↔ a = len ∨ a = 0 := by
    rw [mem_insertSortedDedup]; simp
  rw [h0]
  constructor
  · rintro ((h | h) | h)
    · exact Or.inr (Or.inl h)
    · exact Or.inl h
    · exact Or.inr (Or.inr h)
  · rintro (h | h | h)
    · exact Or.inl (Or.inr h)
    · exact Or.inl (Or.inl h)
    · exact Or.inr h

theorem mem_boundaryPoints_zero (len : Nat) (marks : List Mark) :
    0 ∈ boundaryPoints len marks := by
  rw [mem_boundaryPoints]; left; rfl

theorem mem_boundaryPoints_len (len : Nat) (marks : List Mark) :
    len ∈ boundaryPoints len marks := by
  rw [mem_boundaryPoints]; right; left; rfl

/-! ### Slice lemmas -/

theorem pySlice_ne_nil {t : PyStr} {a b : Nat} :
    pySlice t a b ≠ [] ↔ a < t.length ∧ a < b := by
  unfold pySlice
  rw [← List.length_pos_iff_ne_nil]
  simp only [List.length_take, List.length_drop]
  omega

theorem pySlice_append {t : PyStr} {a b c : Nat} (hab : a ≤ b) (hbc : b ≤ c) :
    pySlice t a b ++ pySlice t b c = pySlice t a c := by
  unfold pySlice
  have hdrop : t.drop b = (t.drop a).drop (b - a) := by
    rw [List.drop_drop]; congr 1; omega
  rw [hdrop, show c - a = (b - a) + (c - b) by omega, List.take_add]

theorem pySlice_zero_len (t : PyStr) {b : Nat} (hb : t.length ≤ b) :
    pySlice t 0 b = t := by
  unfold pySlice
  simp only [List.drop_zero, Nat.sub_zero]
  exact List.take_of_length_le hb

theorem pySlice_self (t : PyStr) (a : Nat) : pySlice t a a = [] := by
  simp [pySlice]

/-! ### Chains of segments -/

/-- Two segments are consecutive when the second starts where the first ends. -/
def segAbuts (s t : Nat × Nat) : Prop := s.2 = t.1

theorem adjPairs_chain' (l : List Nat) :
    List.Chain' segAbuts (adjPairs l) := by
  match l with
  | [] => simp [adjPairs]
  | [a] => simp [adjPairs]
  | a :: b :: rest =>
    have ih := adjPairs_chain' (b :: rest)
    match rest with
    | [] => simp [adjPairs, segAbuts]
    | c :: rest' =>
      exact List.Chain'.cons rfl ih

theorem adjPairs_fst_mem {l : List Nat} {s : Nat × Nat} (h : s ∈ adjPairs l) :
    s.1 ∈ l := by
  match l with
  | [] => simp [adjPairs] at h
  | [a] => simp [adjPairs] at h
  | a :: b :: rest =>
    rcases List.mem_cons.mp h with rfl | h
    · exact List.mem_cons_self _ _
    · exact List.mem_cons_of_mem _ (adjPairs_fst_mem h)

theorem adjPairs_lt {l : List Nat} (hl : l.Pairwise (· < ·)) :
    ∀ s ∈ adjPairs l, s.1 < s.2 := by
  match l with
  | [] => simp [adjPairs]
  | [a] => simp [adjPairs]
  | a :: b :: rest =>
    intro s hs
    rcases List.mem_cons.mp hs with rfl | hs
    · exact (List.pairwise_cons.mp hl).1 b (List.mem_cons_self _ _)
    · exact adjPairs_lt (List.pairwise_cons.mp hl).2 s hs

/-- A chain of abutting segments, each non-decreasing, is pairwise ordered. -/
theorem chain'_abuts_pairwise {L : List (Nat × Nat)}
    (hc : List.Chain' segAbuts L) (hle : ∀ s ∈ L, s.1 ≤ s.2) :
    L.Pairwise (fun s t => s.2 ≤ t.1) := by
  induction L with
  | nil => exact List.Pairwise.nil
  | cons s L ih =>
    have hc' := (List.chain'_cons'.mp hc).2
    have ihL := ih hc' (fun t ht => hle t (List.mem_cons_of_mem _ ht))
    refine List.pairwise_cons.mpr ⟨?_, ihL⟩
    intro t ht
    -- s.2 equals the head of L's start; starts are monotone along L
    match L, ht with
    | u :: L', ht =>
      have hsu : s.2 = u.1 := (List.chain'_cons'.mp hc).1 u rfl
      rcases List.mem_cons.mp ht with rfl | ht
      · exact le_of_eq hsu
      · have := (List.pairwise_cons.mp ihL).1 t ht
        have hu : u.1 ≤ u.2 := hle u (List.mem_cons_of_mem _ (List.mem_cons_self _ _))
        omega

/-- Concatenating the slices of a chain of abutting segments gives the slice
from the first start to the last end. -/
theorem chain_join_slices (text : PyStr) (L : List (Nat × Nat)) :
    ∀ (a b : Nat),
      List.Chain' segAbuts L → (∀ s ∈ L, s.1 ≤ s.2) →
      L.head?.map Prod.fst = some a → L.getLast?.map Prod.snd = some b →
      a ≤ b ∧ (L.map fun s => pySlice text s.1 s.2).flatten = pySlice text a b := by
  match L with
  | [] => intro a b _ _ h _; simp at h
  | [s] =>
    intro a b _ hle hhead hlast
    simp only [List.head?_cons, Option.map_some', Option.some.injEq] at hhead
    simp only [List.getLast?_singleton, Option.map_some', Option.some.injEq] at hlast
    subst hhead hlast
    exact ⟨hle s (List.mem_cons_self _ _), by simp⟩
  | s :: u :: L' =>
    intro a b hc hle hhead hlast
    simp only [List.head?_cons, Option.map_some', Option.some.injEq] at hhead
    subst hhead
    have hc' := (List.chain'_cons'.mp hc).2
    have hsu : s.2 = u.1 := (List.chain'_cons'.mp hc).1 u rfl
    have hlast' : (u :: L').getLast?.map Prod.snd = some b := by
      rwa [List.getLast?_cons_cons] at hlast
    have ih := chain_join_slices text (u :: L') u.1 b hc'
      (fun t ht => hle t (List.mem_cons_of_mem _ ht)) (by simp) hlast'
    have hs : s.1 ≤ s.2 := hle s (List.mem_cons_self _ _)
    refine ⟨by omega, ?_⟩
    have hsplit : (List.map (fun s => pySlice text s.1 s.2) (s :: u :: L')).flatten
        = pySlice text s.1 s.2 ++ (List.map (fun s => pySlice text s.1 s.2) (u :: L')).flatten := by
      simp
    rw [hsplit, ih.2, hsu, pySlice_append (by omega) ih.1]

/-- A strictly sorted list bounds its tail strictly below its head. -/
theorem pairwise_lt_head {a : Nat} {l : List Nat} (h : (a :: l).Pairwise (· < ·)) :
    ∀ x ∈ a :: l, a ≤ x := by
  intro x hx
  rcases List.mem_cons.mp hx with rfl | hx
  · exact le_refl _
  · exact le_of_lt ((List.pairwise_cons.mp h).1 x hx)

/-- Core induction for `rendererSegments`: over a strictly sorted boundary
list containing `len`, the adjacent pairs whose start lies below `len` form
an abutting chain running from the list's head to `len`. -/
theorem cappedPairs_props (len : Nat) (l : List Nat)
    (hs : l.Pairwise (· < ·)) (hmem : len ∈ l) :
    List.Chain' segAbuts ((adjPairs l).filter fun s => decide (s.1 < len))
    ∧ (∀ s ∈ (adjPairs l).filter fun s => decide (s.1 < len), s.1 < s.2 ∧ s.2 ≤ len)
    ∧ (∀ s, ((adjPairs l).filter fun s => decide (s.1 < len)).head? = some s →
        s.1 = l.headD 0)
    ∧ (∀ s, ((adjPairs l).filter fun s => decide (s.1 < len)).getLast? = some s →
        s.2 = len)
    ∧ (l.headD 0 < len → ((adjPairs l).filter fun s => decide (s.1 < len)) ≠ []) := by
  match l with
  | [] => simp at hmem
  | [a] =>
    have ha : a = len := by have := hmem; simp at this; omega
    subst ha
    refine ⟨by simp [adjPairs], by simp [adjPairs], by simp [adjPairs],
      by simp [adjPairs], ?_⟩
    intro h
    simp at h
  | a :: b :: rest =>
    by_cases ha : a < len
    · -- the first pair is kept
      have hlen' : len ∈ b :: rest := by
        rcases List.mem_cons.mp hmem with rfl | h
        · omega
        · exact h
      have hs' : (b :: rest).Pairwise (· < ·) := (List.pairwise_cons.mp hs).2
      have hab : a < b := (List.pairwise_cons.mp hs).1 b (List.mem_cons_self _ _)
      have hblen : b ≤ len := pairwise_lt_head hs' len hlen'
      obtain ⟨ihc, ihlt, ihhead, ihlast, ihne⟩ := cappedPairs_props len (b :: rest) hs' hlen'
      have hfilter : ((adjPairs (a :: b :: rest)).filter fun s => decide (s.1 < len))
          = (a, b) :: ((adjPairs (b :: rest)).filter fun s => decide (s.1 < len)) := by
        show ((a, b) :: adjPairs (b :: rest)).filter _ = _
        rw [List.filter_cons]
        simp [ha]
      rw [hfilter]
      refine ⟨?_, ?_, ?_, ?_, ?_⟩
      · refine List.chain'_cons'.mpr ⟨?_, ihc⟩
        intro t ht
        have := ihhead t ht
        simp only [List.headD_cons] at this
        exact this.symm
      · intro s hs'
        rcases List.mem_cons.mp hs' with rfl | hs'
        · exact ⟨hab, hblen⟩
        · exact ihlt s hs'
      · intro s hhead
        simp only [List.head?_cons, Option.some.injEq] at hhead
        subst hhead
        simp
      · intro s hlast
        rcases heq : (adjPairs (b :: rest)).filter fun s => decide (s.1 < len) with _ | ⟨t, ts⟩
        · -- the kept pairs stop right after (a, b); then b = len
          rw [heq] at hlast
          simp only [List.getLast?_singleton, Option.some.injEq] at hlast
          subst hlast
          by_cases hb : b < len
          · exact absurd heq (by simpa using ihne hb)
          · simp only
            omega
        · rw [heq, List.getLast?_cons_cons] at hlast
          exact ihlast s (by rw [heq]; exact hlast)
      · intro _
        simp
    · -- a = len, and every later boundary is above len: nothing is kept
      have ha' : a = len := by
        rcases List.mem_cons.mp hmem with rfl | h
        · rfl
        · have := (List.pairwise_cons.mp hs).1 len h
          omega
      have hnone : ((adjPairs (a :: b :: rest)).filter fun s => decide (s.1 < len)) = [] := by
        apply List.filter_eq_nil_iff.mpr
        intro s hsmem
        have h1 : s.1 ∈ a :: b :: rest := adjPairs_fst_mem hsmem
        have h2 : a ≤ s.1 := pairwise_lt_head hs s.1 h1
        simp
        omega
      rw [hnone]
      refine ⟨by simp, by simp, by simp, by simp, ?_⟩
      intro h
      simp only [List.headD_cons] at h
      omega

/-- A sorted list of naturals containing `0` starts with `0`. -/
theorem headD_eq_zero {l : List Nat} (hs : l.Pairwise (· < ·)) (h0 : 0 ∈ l) :
    l.headD 0 = 0 := by
  match l with
  | [] => simp at h0
  | x :: xs =>
    rcases List.mem_cons.mp h0 with rfl | h
    · rfl
    · have := (List.pairwise_cons.mp hs).1 0 h
      omega

/-- `rendererSegments` is the sorted adjacent-pair list capped at `len(text)`. -/
theorem rendererSegments_eq (text : PyStr) (marks : List Mark) :
    rendererSegments text marks
      = (adjPairs (boundaryPoints text.length marks)).filter
          fun s => decide (s.1 < text.length) := by
  unfold rendererSegments
  apply List.filter_congr
  intro s hsmem
  have hlt := adjPairs_lt (boundaryPoints_pairwise text.length marks) s hsmem
  rw [decide_eq_decide]
  rw [pySlice_ne_nil]
  omega

/-- All the C2 facts for the renderer's resegmentation. -/
theorem rendererSegments_props (text : PyStr) (marks : List Mark) :
    List.Chain' segAbuts (rendererSegments text marks)
    ∧ (∀ s ∈ rendererSegments text marks, s.1 < s.2 ∧ s.2 ≤ text.length)
    ∧ ((rendererSegments text marks).map fun s => pySlice text s.1 s.2).flatten = text
    ∧ (text ≠ [] →
        (rendererSegments text marks).head?.map Prod.fst = some 0
        ∧ (rendererSegments text marks).getLast?.map Prod.snd = some text.length) := by
  have hpw := boundaryPoints_pairwise text.length marks
  have hmem := mem_boundaryPoints_len text.length marks
  obtain ⟨hc, hlt, hhead, hlast, hne⟩ := cappedPairs_props text.length _ hpw hmem
  rw [← rendererSegments_eq] at hc hlt hhead hlast hne
  have hhd0 : (boundaryPoints text.length marks).headD 0 = 0 :=
    headD_eq_zero hpw (mem_boundaryPoints_zero text.length marks)
  refine ⟨hc, hlt, ?_, ?_⟩
  · -- concatenation of the slices gives back the text
    by_cases htext : text = []
    · subst htext
      have : rendererSegments [] marks = [] := by
        rw [rendererSegments_eq]
        apply List.filter_eq_nil_iff.mpr
        intro s _
        simp
      simp [this]
    · have hlen : 0 < text.length := List.length_pos_of_ne_nil htext
      have hne' := hne (by omega)
      rcases hh : (rendererSegments text marks).head? with _ | s0
      · exact absurd (List.head?_eq_none_iff.mp hh) hne'
      rcases hl : (rendererSegments text marks).getLast? with _ | s1
      · exact absurd (List.getLast?_eq_none_iff.mp hl) hne'
      have h0 : s0.1 = 0 := by rw [hhead s0 hh]; exact hhd0
      have h1 : s1.2 = text.length := hlast s1 hl
      have := chain_join_slices text (rendererSegments text marks) 0 text.length hc
        (fun s hsm => le_of_lt (hlt s hsm).1)
        (by rw [hh, Option.map_some', h0]) (by rw [hl, Option.map_some', h1])
      rw [this.2]
      exact pySlice_zero_len text (le_refl _)
  · intro htext
    have hlen : 0 < text.length := List.length_pos_of_ne_nil htext
    have hne' := hne (by omega)
    rcases hh : (rendererSegments text marks).head? with _ | s0
    · exact absurd (List.head?_eq_none_iff.mp hh) hne'
    rcases hl : (rendererSegments text marks).getLast? with _ | s1
    · exact absurd (List.getLast?_eq_none_iff.mp hl) hne'
    refine ⟨?_, ?_⟩
    · have h0 : s0.1 = 0 := by rw [hhead s0 hh]; exact hhd0
      simp [h0]
    · have h1 : s1.2 = text.length := hlast s1 hl
      simp [h1]

/-! ## Exporter resegmentation (`add_text_with_marks`,
`app/services/docx_exporter/block_processors/paragraph.py`) -/

/-- `char_marks[i]`: the marks reaching character `i`, in mark order (built
by `for mark in marks: for i in range(start, min(end, len(text))):
char_marks[i].append(mark)`). -/
def charMarksAt (marks : List Mark) (len i : Nat) : List Mark :=
  marks.filter fun m => decide (m.rng.1 ≤ i ∧ i < min m.rng.2 len)

/-- The scan that merges consecutive characters carrying identical mark
lists into runs (`for i in range(1, len(text)): if char_marks[i] !=
current_marks: ...`); `cs` is `current_start`, `i` the scan index, `cur`
`current_marks`. -/
def runScan (cs i : Nat) (cur : List Mark) :
    List (List Mark) → List (Nat × Nat × List Mark)
  | [] => [(cs, i, cur)]
  | c :: rest =>
    if c = cur then runScan cs (i + 1) cur rest
    else (cs, i, cur) :: runScan i (i + 1) c rest

/-- The `(start, end, segment_marks)` runs produced by
`add_text_with_marks`: empty text yields no runs, an empty mark list yields
a single whole-text run, and otherwise the char-mark scan starting from
`char_marks[0]`. -/
def exporterSegments (text : PyStr) (marks : List Mark) :
    List (Nat × Nat × List Mark) :=
  if text = [] then []
  else if marks = [] then [(0, text.length, [])]
  else
    match (List.range text.length).map (charMarksAt marks text.length) with
    | [] => []
    | c0 :: rest => runScan 0 1 c0 rest

/-- Structural facts about the run scan. -/
theorem runScan_props (l : List (List Mark)) :
    ∀ (cs i : Nat) (cur : List Mark), cs < i →
      List.Chain' (fun s t => s.2.1 = t.1) (runScan cs i cur l)
      ∧ (∀ s ∈ runScan cs i cur l, s.1 < s.2.1)
      ∧ (runScan cs i cur l).head?.map Prod.fst = some cs
      ∧ (runScan cs i cur l).getLast?.map (fun s => s.2.1) = some (i + l.length) := by
  induction l with
  | nil =>
    intro cs i cur h
    refine ⟨by simp [runScan], by simp [runScan]; omega, by simp [runScan], by simp [runScan]⟩
  | cons c rest ih =>
    intro cs i cur h
    by_cases hc : c = cur
    · have := ih cs (i + 1) cur (by omega)
      simp only [runScan, if_pos hc]
      refine ⟨this.1, this.2.1, this.2.2.1, ?_⟩
      rw [this.2.2.2]
      simp only [List.length_cons]
      congr 1
      omega
    · have ihr := ih i (i + 1) c (by omega)
      simp only [runScan, if_neg hc]
      refine ⟨?_, ?_, ?_, ?_⟩
      · refine List.chain'_cons'.mpr ⟨?_, ihr.1⟩
        intro t ht
        have := ihr.2.2.1
        rw [ht] at this
        simp only [Option.map_some', Option.some.injEq] at this
        simp [this]
      · intro s hsm
        rcases List.mem_cons.mp hsm with rfl | hsm
        · exact h
        · exact ihr.2.1 s hsm
      · simp
      · rcases hscan : runScan i (i + 1) c rest with _ | ⟨t, ts⟩
        · have := ihr.2.2.2
          rw [hscan] at this
          simp at this
        · rw [List.getLast?_cons_cons]
          have := ihr.2.2.2
          rw [hscan] at this
          rw [this]
          simp only [List.length_cons]
          congr 1
          omega

/-- The marks recorded on a run are exactly the char-marks of every
character position inside the run. -/
theorem runScan_marks (f : Nat → List Mark) :
    ∀ (n cs i : Nat) (cur : List Mark),
      (∀ j, cs ≤ j → j < i → f j = cur) →
      ∀ s ∈ runScan cs i cur ((List.range' i n).map f),
        ∀ j, s.1 ≤ j → j < s.2.1 → f j = s.2.2 := by
  intro n
  induction n with
  | zero =>
    intro cs i cur hinv s hsm j hj1 hj2
    simp only [List.range', List.map_nil, runScan, List.mem_singleton] at hsm
    subst hsm
    exact hinv j hj1 hj2
  | succ n ih =>
    intro cs i cur hinv s hsm j hj1 hj2
    rw [List.range'_succ] at hsm
    simp only [List.map_cons] at hsm
    by_cases hc : f i = cur
    · rw [runScan, if_pos hc] at hsm
      exact ih cs (i + 1) cur
        (fun j h1 h2 => by
          rcases Nat.lt_succ_iff_lt_or_eq.mp h2 with h | h
          · exact hinv j h1 h
          · subst h; exact hc)
        s hsm j hj1 hj2
    · rw [runScan, if_neg hc] at hsm
      rcases List.mem_cons.mp hsm with rfl | hsm
      · exact hinv j hj1 hj2
      · exact ih i (i + 1) (f i)
          (fun j h1 h2 => by have : j = i := by omega
                             subst this; rfl)
          s hsm j hj1 hj2

/-- `List.range len` viewed as its head and tail, for positive `len`. -/
theorem range_map_cons (f : Nat → List Mark) {len : Nat} (h : 0 < len) :
    (List.range len).map f = f 0 :: (List.range' 1 (len - 1)).map f := by
  rw [List.range_eq_range']
  have : len = (len - 1) + 1 := by omega
  rw [this, List.range'_succ]
  simp

/-- All the C2 facts for the exporter's run segmentation. -/
theorem exporterSegments_props (text : PyStr) (marks : List Mark) :
    List.Chain' (fun s t => s.2.1 = t.1) (exporterSegments text marks)
    ∧ (∀ s ∈ exporterSegments text marks, s.1 < s.2.1)
    ∧ ((exporterSegments text marks).map fun s => pySlice text s.1 s.2.1).flatten = text
    ∧ (text ≠ [] →
        (exporterSegments text marks).head?.map Prod.fst = some 0
        ∧ (exporterSegments text marks).getLast?.map (fun s => s.2.1) = some text.length)
    ∧ (∀ s ∈ exporterSegments text marks, ∀ j, s.1 ≤ j → j < s.2.1 →
        charMarksAt marks text.length j = s.2.2) := by
  by_cases htext : text = []
  · subst htext
    refine ⟨by simp [exporterSegments], by simp [exporterSegments],
      by simp [exporterSegments], by simp, by simp [exporterSegments]⟩
  by_cases hmarks : marks = []
  · subst hmarks
    have hlen : 0 < text.length := List.length_pos_of_ne_nil htext
    have hsegs : exporterSegments text [] = [(0, text.length, [])] := by
      simp [exporterSegments, htext]
    rw [hsegs]
    refine ⟨by simp, by simp; omega, ?_, by simp, ?_⟩
    · simp [pySlice_zero_len text (le_refl _)]
    · intro s hsm j _ _
      simp only [List.mem_singleton] at hsm
      subst hsm
      simp [charMarksAt]
  · have hlen : 0 < text.length := List.length_pos_of_ne_nil htext
    set f := charMarksAt marks text.length with hf
    have hcons := range_map_cons f hlen
    have hsegs : exporterSegments text marks
        = runScan 0 1 (f 0) ((List.range' 1 (text.length - 1)).map f) := by
      unfold exporterSegments
      rw [if_neg htext, if_neg hmarks, hcons]
    have hprops := runScan_props ((List.range' 1 (text.length - 1)).map f) 0 1 (f 0)
      (by omega)
    have hlastlen : (1 : Nat) + ((List.range' 1 (text.length - 1)).map f).length
        = text.length := by
      simp
      omega
    refine ⟨?_, ?_, ?_, ?_, ?_⟩
    · rw [hsegs]; exact hprops.1
    · rw [hsegs]; exact hprops.2.1
    · -- концатенация
      have hchain : List.Chain' segAbuts
          ((exporterSegments text marks).map fun s => (s.1, s.2.1)) := by
        rw [List.chain'_map]
        rw [hsegs]
        exact hprops.1
      have hle : ∀ s ∈ (exporterSegments text marks).map fun s => (s.1, s.2.1),
          s.1 ≤ s.2 := by
        intro s hsm
        rcases List.mem_map.mp hsm with ⟨t, htm, rfl⟩
        have := hprops.2.1 t (by rwa [hsegs] at htm)
        exact le_of_lt this
      have hne : exporterSegments text marks ≠ [] := by
        rw [hsegs]
        intro hcontra
        have := hprops.2.2.1
        rw [hcontra] at this
        simp at this
      rcases hh : (exporterSegments text marks).head? with _ | s0
      · exact absurd (List.head?_eq_none_iff.mp hh) hne
      rcases hl : (exporterSegments text marks).getLast? with _ | s1
      · exact absurd (List.getLast?_eq_none_iff.mp hl) hne
      have h0 : s0.1 = 0 := by
        have := hprops.2.2.1
        rw [← hsegs, hh] at this
        simpa using this
      have h1 : s1.2.1 = text.length := by
        have := hprops.2.2.2
        rw [← hsegs, hl] at this
        simp only [Option.map_some', Option.some.injEq] at this
        rw [this, hlastlen]
      have hjoin := chain_join_slices text
        ((exporterSegments text marks).map fun s => (s.1, s.2.1)) 0 text.length
        hchain hle
        (by rw [List.head?_map, hh]; simp [h0])
        (by rw [List.getLast?_map, hl]; simp [h1])
      have : (((exporterSegments text marks).map fun s => (s.1, s.2.1)).map
          fun s => pySlice text s.1 s.2).flatten
          = ((exporterSegments text marks).map fun s => pySlice text s.1 s.2.1).flatten := by
        rw [List.map_map]
        rfl
      rw [← this, hjoin.2]
      exact pySlice_zero_len text (le_refl _)
    · intro _
      have hne : exporterSegments text marks ≠ [] := by
        rw [hsegs]
        intro hcontra
        have := hprops.2.2.1
        rw [hcontra] at this
        simp at this
      rcases hh : (exporterSegments text marks).head? with _ | s0
      · exact absurd (List.head?_eq_none_iff.mp hh) hne
      rcases hl : (exporterSegments text marks).getLast? with _ | s1
      · exact absurd (List.getLast?_eq_none_iff.mp hl) hne
      constructor
      · have := hprops.2.2.1
        rw [← hsegs, hh] at this
        simpa using this
      · have := hprops.2.2.2
        rw [← hsegs, hl] at this
        simp only [Option.map_some', Option.some.injEq] at this
        simp only [Option.map_some', Option.some.injEq, this]
        rw [← hlastlen]
        simp
    · rw [hsegs]
      exact runScan_marks f (text.length - 1) 0 1 (f 0)
        (fun j h1 h2 => by have : j = 0 := by omega
                           subst this; rfl)

/-- **C2.** For every block text and every mark list, the resegmentation
used by the renderer (`WangEditorRenderer._apply_marks`) and by the
exporter (`add_text_with_marks`) produces segments that are pairwise
non-overlapping, contiguous — each segment begins where the previous one
ends, the first begins at offset 0 and the last ends at `len(text)` — and
whose concatenated slices rebuild the original text exactly. -/
theorem c2_segment_coverage (text : PyStr) (marks : List Mark) :
    ((rendererSegments text marks).Pairwise (fun s t => s.2 ≤ t.1)
      ∧ List.Chain' (fun s t => s.2 = t.1) (rendererSegments text marks)
      ∧ (∀ s ∈ rendererSegments text marks, s.1 < s.2)
      ∧ ((rendererSegments text marks).map fun s => pySlice text s.1 s.2).flatten = text
      ∧ (text ≠ [] →
          (rendererSegments text marks).head?.map Prod.fst = some 0
          ∧ (rendererSegments text marks).getLast?.map Prod.snd = some text.length))
    ∧ ((exporterSegments text marks).Pairwise (fun s t => s.2.1 ≤ t.1)
      ∧ List.Chain' (fun s t => s.2.1 = t.1) (exporterSegments text marks)
      ∧ (∀ s ∈ exporterSegments text marks, s.1 < s.2.1)
      ∧ ((exporterSegments text marks).map fun s => pySlice text s.1 s.2.1).flatten = text
      ∧ (text ≠ [] →
          (exporterSegments text marks).head?.map Prod.fst = some 0
          ∧ (exporterSegments text marks).getLast?.map (fun s => s.2.1)
              = some text.length)) := by
  obtain ⟨rc, rlt, rjoin, rends⟩ := rendererSegments_props text marks
  obtain ⟨ec, elt, ejoin, eends, _⟩ := exporterSegments_props text marks
  refine ⟨⟨?_, rc, fun s hs => (rlt s hs).1, rjoin, rends⟩,
          ⟨?_, ec, elt, ejoin, eends⟩⟩
  · exact chain'_abuts_pairwise rc (fun s hs => le_of_lt (rlt s hs).1)
  · -- transfer pairwise disjointness through the (start, end) projection
    have hchain : List.Chain' segAbuts
        ((exporterSegments text marks).map fun s => (s.1, s.2.1)) := by
      rw [List.chain'_map]
      exact ec
    have hle : ∀ s ∈ (exporterSegments text marks).map fun s => (s.1, s.2.1),
        s.1 ≤ s.2 := by
      intro s hsm
      rcases List.mem_map.mp hsm with ⟨t, htm, rfl⟩
      exact le_of_lt (elt t htm)
    have := chain'_abuts_pairwise hchain hle
    rw [List.pairwise_map] at this
    exact this

/-- Witness for C2: concrete evaluation on the text `"abcd"` with an
overlapping bold/italic pair of marks, with the non-emptiness hypotheses
discharged. -/
theorem c2_segment_coverage_witness :
    ("abcd".toList ≠ [])
    ∧ ((rendererSegments "abcd".toList
          [Mark.simple "bold" (0, 3), Mark.simple "italic" (2, 4)]).head?.map Prod.fst
        = some 0)
    ∧ ((exporterSegments "abcd".toList
          [Mark.simple "bold" (0, 3), Mark.simple "italic" (2, 4)]).getLast?.map
            (fun s => s.2.1)
        = some ("abcd".toList).length) := by
  have h := c2_segment_coverage "abcd".toList
    [Mark.simple "bold" (0, 3), Mark.simple "italic" (2, 4)]
  refine ⟨by decide, (h.1.2.2.2.2 (by decide)).1, (h.2.2.2.2.2 (by decide)).2⟩

/-! ## Mark merging (`merge_adjacent_marks`,
`app/services/html_parser/extractors/text_marks.py`)

Marks are grouped by a key — name for `SimpleMark`, name+value for
`ValueMark`, href for `LinkMark`, and object identity for anything else
(`CompositeMark` falls into the `('unknown', id(mark))` branch, modelled by
the mark's index in the list).  Each group is sorted by range start
(Python's stable sort, modelled by a stable insertion sort), adjacent or
overlapping ranges inside a group are fused, and the concatenated group
outputs are stably re-sorted by start. -/

inductive MarkKey : Type
  | simpleK (name : String)
  | valueK (name : String) (v : PyStr)
  | linkK (href : PyStr)
  | unknownK (idx : Nat)
deriving DecidableEq, Repr

/-- The grouping key of the mark at list index `i`. -/
def markKeyAt (i : Nat) : Mark → MarkKey
  | .simple n _ => .simpleK n
  | .value n v _ => .valueK n v
  | .link h _ => .linkK h
  | .composite _ _ => .unknownK i

/-- First-occurrence-ordered key list (Python `dict` iteration order). -/
def dedupKeys : List MarkKey → List MarkKey
  | [] => []
  | k :: ks => k :: (dedupKeys ks).filter (· ≠ k)

/-- Stable insertion into a start-sorted list. -/
def insertByStart (m : Mark) : List Mark → List Mark
  | [] => [m]
  | x :: xs => if m.rng.1 ≤ x.rng.1 then m :: x :: xs else x :: insertByStart m xs

/-- Stable sort by range start (the model of `group.sort(key=lambda m:
m.range[0])` and the final `merged_marks.sort(...)`; any stable sort
computes the same list). -/
def sortByStart : List Mark → List Mark
  | [] => []
  | m :: ms => insertByStart m (sortByStart ms)

/-- Rebuild the merged mark with the original payload and the widened
range; `CompositeMark` (the `else` branch) is appended unchanged. -/
def rebuildMark (m : Mark) (r : Nat × Nat) : Mark :=
  match m with
  | .simple n _ => .simple n r
  | .value n v _ => .value n v r
  | .link h _ => .link h r
  | .composite ns r0 => .composite ns r0

/-- The merging loop over one start-sorted group, with the outer
`while i < len(group)` and inner `while ... group[j].range[0] <= end` loops
fused into one scan: `cur` is `group[i]`, `(s, e)` the running
`(start, end)`; a mark touching `e` widens the run, otherwise the run is
emitted and a new one opens. -/
def mergeRun (cur : Mark) (s e : Nat) : List Mark → List Mark
  | [] => [rebuildMark cur (s, e)]
  | m :: rest =>
    if m.rng.1 ≤ e then mergeRun cur s (max e m.rng.2) rest
    else rebuildMark cur (s, e) :: mergeRun m m.rng.1 m.rng.2 rest

/-- Merge one start-sorted group of same-key marks. -/
def mergeGroup : List Mark → List Mark
  | [] => []
  | m :: rest => mergeRun m m.rng.1 m.rng.2 rest

/-- The key/mark pairs, keyed by position (`for mark in marks: ... key`). -/
def keyedOf (marks : List Mark) : List (MarkKey × Mark) :=
  marks.enum.map fun p => (markKeyAt p.1 p.2, p.2)

/-- `mark_groups[key]`: the marks filed under one key, in insertion order. -/
def groupOf (marks : List Mark) (k : MarkKey) : List Mark :=
  ((keyedOf marks).filter (fun q => q.1 = k)).map (·.2)

/-- `merge_adjacent_marks`: group by key (first-occurrence key order),
sort each group by start, fuse touching ranges, and re-sort by start. -/
def mergeAdjacentMarks (marks : List Mark) : List Mark :=
  if marks = [] then marks
  else
    sortByStart ((dedupKeys ((keyedOf marks).map (·.1))).flatMap fun k =>
      mergeGroup (sortByStart (groupOf marks k)))

/-- Position `p` lies inside mark `m`'s half-open range. -/
def Mark.covers (m : Mark) (p : Nat) : Prop := m.rng.1 ≤ p ∧ p < m.rng.2

instance (m : Mark) (p : Nat) : Decidable (m.covers p) := by
  unfold Mark.covers; infer_instance

def Mark.isComposite : Mark → Bool
  | .composite _ _ => true
  | _ => false

/-- The payload key (`markKeyAt` is index-independent off composites). -/
def shapeKey (m : Mark) : MarkKey := markKeyAt 0 m

/-- Two marks fall into the same merge group: same name for simple marks,
same name and value for value marks, same href for links; composites never
merge with anything. -/
def sameMergeKey : Mark → Mark → Prop
  | .simple n _, .simple n' _ => n = n'
  | .value n v _, .value n' v' _ => n = n' ∧ v = v'
  | .link h _, .link h' _ => h = h'
  | _, _ => False

instance (a b : Mark) : Decidable (sameMergeKey a b) := by
  cases a <;> cases b <;> simp only [sameMergeKey] <;> infer_instance

theorem sameMergeKey_symm {a b : Mark} (h : sameMergeKey a b) : sameMergeKey b a := by
  cases a <;> cases b <;> simp_all [sameMergeKey]

theorem sameMergeKey_shape {a b : Mark} (h : sameMergeKey a b) :
    shapeKey a = shapeKey b ∧ a.isComposite = false ∧ b.isComposite = false := by
  cases a <;> cases b <;>
    simp_all [sameMergeKey, shapeKey, markKeyAt, Mark.isComposite]

theorem sameMergeKey_of_shape {a b : Mark} (ha : a.isComposite = false)
    (hb : b.isComposite = false) (h : shapeKey a = shapeKey b) :
    sameMergeKey a b := by
  cases a <;> cases b <;>
    simp_all [sameMergeKey, shapeKey, markKeyAt, Mark.isComposite]

/-! ### Sorting lemmas -/

theorem insertByStart_perm (m : Mark) (l : List Mark) :
    List.Perm (insertByStart m l) (m :: l) := by
  induction l with
  | nil => exact List.Perm.refl _
  | cons x xs ih =>
    by_cases h : m.rng.1 ≤ x.rng.1
    · simp [insertByStart, h]
    · simp only [insertByStart, if_neg h]
      exact (ih.cons x).trans (List.Perm.swap _ _ _)

theorem sortByStart_perm (l : List Mark) : List.Perm (sortByStart l) l := by
  induction l with
  | nil => exact List.Perm.refl _
  | cons m ms ih =>
    exact (insertByStart_perm m _).trans (ih.cons m)

theorem insertByStart_sorted {m : Mark} {l : List Mark}
    (h : l.Pairwise (fun a b => a.rng.1 ≤ b.rng.1)) :
    (insertByStart m l).Pairwise (fun a b => a.rng.1 ≤ b.rng.1) := by
  induction l with
  | nil => simp [insertByStart]
  | cons x xs ih =>
    rcases List.pairwise_cons.mp h with ⟨hx, hxs⟩
    by_cases hle : m.rng.1 ≤ x.rng.1
    · simp only [insertByStart, if_pos hle]
      refine List.pairwise_cons.mpr ⟨?_, h⟩
      intro b hb
      rcases List.mem_cons.mp hb with rfl | hb
      · exact hle
      · exact le_trans hle (hx b hb)
    · simp only [insertByStart, if_neg hle]
      refine List.pairwise_cons.mpr ⟨?_, ih hxs⟩
      intro b hb
      have := (insertByStart_perm m xs).mem_iff.mp hb
      rcases List.mem_cons.mp this with rfl | hb'
      · omega
      · exact hx b hb'

theorem sortByStart_sorted (l : List Mark) :
    (sortByStart l).Pairwise (fun a b => a.rng.1 ≤ b.rng.1) := by
  induction l with
  | nil => simp [sortByStart]
  | cons m ms ih => exact insertByStart_sorted ih

/-! ### Merging lemmas -/

theorem rebuildMark_rng {m : Mark} (h : m.isComposite = false) (r : Nat × Nat) :
    (rebuildMark m r).rng = r := by
  cases m <;> simp_all [rebuildMark, Mark.rng, Mark.isComposite]

theorem rebuildMark_shape (m : Mark) (r : Nat × Nat) :
    shapeKey (rebuildMark m r) = shapeKey m
      ∧ (rebuildMark m r).isComposite = m.isComposite := by
  cases m <;> simp [rebuildMark, shapeKey, markKeyAt, Mark.isComposite]

/-- Every merged output shares its payload (shape key, compositeness) with
the current run's mark or with some input mark. -/
theorem mergeRun_shapes (l : List Mark) :
    ∀ (cur : Mark) (s e : Nat), ∀ x ∈ mergeRun cur s e l,
      (shapeKey x = shapeKey cur ∧ x.isComposite = cur.isComposite)
      ∨ ∃ y ∈ l, shapeKey x = shapeKey y ∧ x.isComposite = y.isComposite := by
  induction l with
  | nil =>
    intro cur s e x hx
    simp only [mergeRun, List.mem_singleton] at hx
    subst hx
    exact Or.inl ⟨(rebuildMark_shape cur _).1, (rebuildMark_shape cur _).2⟩
  | cons m rest ih =>
    intro cur s e x hx
    by_cases h : m.rng.1 ≤ e
    · rw [mergeRun, if_pos h] at hx
      rcases ih cur s (max e m.rng.2) x hx with h' | ⟨y, hy, h'⟩
      · exact Or.inl h'
      · exact Or.inr ⟨y, List.mem_cons_of_mem _ hy, h'⟩
    · rw [mergeRun, if_neg h] at hx
      rcases List.mem_cons.mp hx with rfl | hx
      · exact Or.inl ⟨(rebuildMark_shape cur _).1, (rebuildMark_shape cur _).2⟩
      · rcases ih m m.rng.1 m.rng.2 x hx with h' | ⟨y, hy, h'⟩
        · exact Or.inr ⟨m, List.mem_cons_self _ _, h'⟩
        · exact Or.inr ⟨y, List.mem_cons_of_mem _ hy, h'⟩

/-- Starts of merged outputs come from the run start or from input starts. -/
theorem mergeRun_starts (l : List Mark) :
    ∀ (cur : Mark) (s e : Nat), cur.isComposite = false →
      (∀ x ∈ l, x.isComposite = false) →
      ∀ x ∈ mergeRun cur s e l, x.rng.1 = s ∨ ∃ y ∈ l, x.rng.1 = y.rng.1 := by
  induction l with
  | nil =>
    intro cur s e hcur _ x hx
    simp only [mergeRun, List.mem_singleton] at hx
    subst hx
    rw [rebuildMark_rng hcur]
    exact Or.inl rfl
  | cons m rest ih =>
    intro cur s e hcur hl x hx
    by_cases h : m.rng.1 ≤ e
    · rw [mergeRun, if_pos h] at hx
      rcases ih cur s (max e m.rng.2) hcur
        (fun y hy => hl y (List.mem_cons_of_mem _ hy)) x hx with h' | ⟨y, hy, h'⟩
      · exact Or.inl h'
      · exact Or.inr ⟨y, List.mem_cons_of_mem _ hy, h'⟩
    · rw [mergeRun, if_neg h] at hx
      rcases List.mem_cons.mp hx with rfl | hx
      · left
        rw [rebuildMark_rng hcur]
      · rcases ih m m.rng.1 m.rng.2 (hl m (List.mem_cons_self _ _))
          (fun y hy => hl y (List.mem_cons_of_mem _ hy)) x hx with h' | ⟨y, hy, h'⟩
        · exact Or.inr ⟨m, List.mem_cons_self _ _, h'⟩
        · exact Or.inr ⟨y, List.mem_cons_of_mem _ hy, h'⟩

/-- Merged outputs of a start-sorted, composite-free group are strictly
separated: each ends strictly before the next begins. -/
theorem mergeRun_sep (l : List Mark) :
    ∀ (cur : Mark) (s e : Nat), cur.isComposite = false →
      (∀ x ∈ l, x.isComposite = false) →
      l.Pairwise (fun a b => a.rng.1 ≤ b.rng.1) →
      (mergeRun cur s e l).Pairwise (fun a b => a.rng.2 < b.rng.1) := by
  induction l with
  | nil =>
    intro cur s e _ _ _
    simp [mergeRun]
  | cons m rest ih =>
    intro cur s e hcur hl hsort
    by_cases h : m.rng.1 ≤ e
    · rw [mergeRun, if_pos h]
      exact ih cur s (max e m.rng.2) hcur
        (fun y hy => hl y (List.mem_cons_of_mem _ hy))
        (List.pairwise_cons.mp hsort).2
    · rw [mergeRun, if_neg h]
      have hm : m.isComposite = false := hl m (List.mem_cons_self _ _)
      have hrest : ∀ y ∈ rest, y.isComposite = false :=
        fun y hy => hl y (List.mem_cons_of_mem _ hy)
      have hsort' := (List.pairwise_cons.mp hsort).2
      refine List.pairwise_cons.mpr ⟨?_, ih m m.rng.1 m.rng.2 hm hrest hsort'⟩
      intro b hb
      rw [rebuildMark_rng hcur]
      rcases mergeRun_starts rest m m.rng.1 m.rng.2 hm hrest b hb with h' | ⟨y, hy, h'⟩
      · simp only
        omega
      · have := (List.pairwise_cons.mp hsort).1 y hy
        simp only
        omega

/-- Coverage of the merged outputs: a position is covered iff it lies in
the open run `[s, e)` or is covered by a remaining input mark. -/
theorem mergeRun_covers (l : List Mark) :
    ∀ (cur : Mark) (s e : Nat), cur.isComposite = false →
      (∀ x ∈ l, x.isComposite = false) →
      (∀ x ∈ l, s ≤ x.rng.1) →
      l.Pairwise (fun a b => a.rng.1 ≤ b.rng.1) →
      ∀ p, (∃ x ∈ mergeRun cur s e l, x.covers p) ↔
        ((s ≤ p ∧ p < e) ∨ ∃ x ∈ l, x.covers p) := by
  induction l with
  | nil =>
    intro cur s e hcur _ _ _ p
    simp only [mergeRun, List.mem_singleton, exists_eq_left]
    unfold Mark.covers
    rw [rebuildMark_rng hcur]
    simp
  | cons m rest ih =>
    intro cur s e hcur hl hs hsort p
    have hm : m.isComposite = false := hl m (List.mem_cons_self _ _)
    have hrest : ∀ y ∈ rest, y.isComposite = false :=
      fun y hy => hl y (List.mem_cons_of_mem _ hy)
    have hsort' := (List.pairwise_cons.mp hsort).2
    have hsm : s ≤ m.rng.1 := hs m (List.mem_cons_self _ _)
    by_cases h : m.rng.1 ≤ e
    · rw [mergeRun, if_pos h]
      rw [ih cur s (max e m.rng.2) hcur hrest
        (fun y hy => hs y (List.mem_cons_of_mem _ hy)) hsort' p]
      constructor
      · rintro (⟨h1, h2⟩ | ⟨x, hx, hcov⟩)
        · rcases Nat.lt_or_ge p e with h3 | h3
          · exact Or.inl ⟨h1, h3⟩
          · -- p in [e, max e m.2): then m covers p
            refine Or.inr ⟨m, List.mem_cons_self _ _, ?_, ?_⟩
            · omega
            · omega
        · exact Or.inr ⟨x, List.mem_cons_of_mem _ hx, hcov⟩
      · rintro (⟨h1, h2⟩ | ⟨x, hx, hcov⟩)
        · exact Or.inl ⟨h1, by omega⟩
        · rcases List.mem_cons.mp hx with rfl | hx
          · rcases hcov with ⟨h1, h2⟩
            exact Or.inl ⟨by omega, by omega⟩
          · exact Or.inr ⟨x, hx, hcov⟩
    · rw [mergeRun, if_neg h]
      have hinner := ih m m.rng.1 m.rng.2 hm hrest
        (fun y hy => (List.pairwise_cons.mp hsort).1 y hy) hsort' p
      constructor
      · rintro ⟨x, hx, hcov⟩
        rcases List.mem_cons.mp hx with rfl | hx
        · unfold Mark.covers at hcov
          rw [rebuildMark_rng hcur] at hcov
          exact Or.inl hcov
        · rcases hinner.mp ⟨x, hx, hcov⟩ with ⟨h1, h2⟩ | ⟨y, hy, hcov'⟩
          · exact Or.inr ⟨m, List.mem_cons_self _ _, h1, h2⟩
          · exact Or.inr ⟨y, List.mem_cons_of_mem _ hy, hcov'⟩
      · rintro (⟨h1, h2⟩ | ⟨x, hx, hcov⟩)
        · refine ⟨rebuildMark cur (s, e), List.mem_cons_self _ _, ?_⟩
          unfold Mark.covers
          rw [rebuildMark_rng hcur]
          exact ⟨h1, h2⟩
        · rcases List.mem_cons.mp hx with rfl | hx
          · obtain ⟨y, hy, hcov'⟩ := hinner.mpr (Or.inl hcov)
            exact ⟨y, List.mem_cons_of_mem _ hy, hcov'⟩
          · obtain ⟨y, hy, hcov'⟩ := hinner.mpr (Or.inr ⟨x, hx, hcov⟩)
            exact ⟨y, List.mem_cons_of_mem _ hy, hcov'⟩

/-- `mergeGroup` on a start-sorted composite-free group: separation. -/
theorem mergeGroup_sep {l : List Mark} (hnc : ∀ x ∈ l, x.isComposite = false)
    (hsort : l.Pairwise (fun a b => a.rng.1 ≤ b.rng.1)) :
    (mergeGroup l).Pairwise (fun a b => a.rng.2 < b.rng.1) := by
  match l with
  | [] => simp [mergeGroup]
  | m :: rest =>
    exact mergeRun_sep rest m m.rng.1 m.rng.2 (hnc m (List.mem_cons_self _ _))
      (fun y hy => hnc y (List.mem_cons_of_mem _ hy))
      (List.pairwise_cons.mp hsort).2

/-- `mergeGroup` on a start-sorted composite-free group: coverage. -/
theorem mergeGroup_covers {l : List Mark} (hnc : ∀ x ∈ l, x.isComposite = false)
    (hsort : l.Pairwise (fun a b => a.rng.1 ≤ b.rng.1)) (p : Nat) :
    (∃ x ∈ mergeGroup l, x.covers p) ↔ ∃ x ∈ l, x.covers p := by
  match l with
  | [] => simp [mergeGroup]
  | m :: rest =>
    rw [show mergeGroup (m :: rest) = mergeRun m m.rng.1 m.rng.2 rest from rfl]
    rw [mergeRun_covers rest m m.rng.1 m.rng.2 (hnc m (List.mem_cons_self _ _))
      (fun y hy => hnc y (List.mem_cons_of_mem _ hy))
      (fun y hy => (List.pairwise_cons.mp hsort).1 y hy)
      (List.pairwise_cons.mp hsort).2 p]
    constructor
    · rintro (⟨h1, h2⟩ | ⟨x, hx, hcov⟩)
      · exact ⟨m, List.mem_cons_self _ _, h1, h2⟩
      · exact ⟨x, List.mem_cons_of_mem _ hx, hcov⟩
    · rintro ⟨x, hx, hcov⟩
      rcases List.mem_cons.mp hx with rfl | hx
      · exact Or.inl hcov
      · exact Or.inr ⟨x, hx, hcov⟩

/-- `mergeGroup` payload provenance. -/
theorem mergeGroup_shapes {l : List Mark} :
    ∀ x ∈ mergeGroup l, ∃ y ∈ l,
      shapeKey x = shapeKey y ∧ x.isComposite = y.isComposite := by
  match l with
  | [] => simp [mergeGroup]
  | m :: rest =>
    intro x hx
    rcases mergeRun_shapes rest m m.rng.1 m.rng.2 x hx with h | ⟨y, hy, h⟩
    · exact ⟨m, List.mem_cons_self _ _, h⟩
    · exact ⟨y, List.mem_cons_of_mem _ hy, h⟩

/-! ### Group membership through the enumerated keys -/

theorem markKeyAt_noncomposite {x : Mark} (h : x.isComposite = false) (i : Nat) :
    markKeyAt i x = shapeKey x := by
  cases x <;> simp_all [markKeyAt, shapeKey, Mark.isComposite]

theorem markKeyAt_composite {x : Mark} (h : x.isComposite = true) (i : Nat) :
    markKeyAt i x = .unknownK i := by
  cases x <;> simp_all [markKeyAt, Mark.isComposite]

theorem shapeKey_ne_unknown {x : Mark} (h : x.isComposite = false) (i : Nat) :
    shapeKey x ≠ .unknownK i := by
  cases x <;> simp_all [shapeKey, markKeyAt, Mark.isComposite]

theorem mem_keyedFrom {marks : List Mark} :
    ∀ (n : Nat) (k : MarkKey) (x : Mark),
      (k, x) ∈ (List.enumFrom n marks).map (fun p => (markKeyAt p.1 p.2, p.2)) →
      x ∈ marks ∧ (x.isComposite = false → k = shapeKey x)
        ∧ (x.isComposite = true → ∃ i, n ≤ i ∧ k = .unknownK i) := by
  induction marks with
  | nil => intro n k x h; simp at h
  | cons m rest ih =>
    intro n k x h
    rw [List.enumFrom_cons, List.map_cons] at h
    rcases List.mem_cons.mp h with h | h
    · have hk : k = markKeyAt n m ∧ x = m := by
        have := Prod.mk.injEq k x (markKeyAt n m) m ▸ h
        exact ⟨this.1, this.2⟩
      obtain ⟨hk, rfl⟩ := hk
      refine ⟨List.mem_cons_self _ _, ?_, ?_⟩
      · intro hnc
        rw [hk, markKeyAt_noncomposite hnc]
      · intro hc
        exact ⟨n, le_refl _, by rw [hk, markKeyAt_composite hc]⟩
    · obtain ⟨hx, hnc, hc⟩ := ih (n + 1) k x h
      refine ⟨List.mem_cons_of_mem _ hx, hnc, ?_⟩
      intro h'
      obtain ⟨i, hi, hk⟩ := hc h'
      exact ⟨i, by omega, hk⟩

theorem keyedFrom_of_mem {marks : List Mark} :
    ∀ (n : Nat) (x : Mark), x ∈ marks → x.isComposite = false →
      (shapeKey x, x) ∈ (List.enumFrom n marks).map
        (fun p => (markKeyAt p.1 p.2, p.2)) := by
  induction marks with
  | nil => intro n x h; simp at h
  | cons m rest ih =>
    intro n x hx hnc
    rw [List.enumFrom_cons, List.map_cons]
    rcases List.mem_cons.mp hx with rfl | hx
    · rw [markKeyAt_noncomposite hnc]
      exact List.mem_cons_self _ _
    · exact List.mem_cons_of_mem _ (ih (n + 1) x hx hnc)

theorem unknown_key_bound {marks : List Mark} :
    ∀ (n i : Nat) (x : Mark),
      (MarkKey.unknownK i, x) ∈ (List.enumFrom n marks).map
        (fun p => (markKeyAt p.1 p.2, p.2)) →
      n ≤ i ∧ x.isComposite = true := by
  intro n i x h
  obtain ⟨_, hnc, hc⟩ := mem_keyedFrom n _ x h
  rcases hcomp : x.isComposite with hfalse | htrue
  · exact absurd (hnc hcomp).symm (shapeKey_ne_unknown hcomp i)
  · obtain ⟨j, hj, hk⟩ := hc hcomp
    have : i = j := by
      injection hk
    exact ⟨by omega, rfl⟩

/-- An `unknownK` group contains at most one pair. -/
theorem unknown_group_subsingleton {marks : List Mark} :
    ∀ (n i : Nat),
      (((List.enumFrom n marks).map (fun p => (markKeyAt p.1 p.2, p.2))).filter
        (fun q => decide (q.1 = MarkKey.unknownK i))).length ≤ 1 := by
  induction marks with
  | nil => intro n i; simp
  | cons m rest ih =>
    intro n i
    rw [List.enumFrom_cons, List.map_cons, List.filter_cons]
    by_cases hkeep : markKeyAt n m = MarkKey.unknownK i
    · rw [if_pos (by simpa using hkeep)]
      have htail : ((List.enumFrom (n + 1) rest).map
          (fun p => (markKeyAt p.1 p.2, p.2))).filter
            (fun q => decide (q.1 = MarkKey.unknownK i)) = [] := by
        apply List.filter_eq_nil_iff.mpr
        rintro ⟨k, x⟩ hq
        simp only [decide_eq_true_eq]
        intro hk
        subst hk
        have := unknown_key_bound (n + 1) i x hq
        -- markKeyAt n m = unknownK i forces i ≤ n (composite) or contradiction
        rcases hcomp : m.isComposite with hfalse | htrue
        · rw [markKeyAt_noncomposite hcomp] at hkeep
          exact absurd hkeep (shapeKey_ne_unknown hcomp i)
        · rw [markKeyAt_composite hcomp] at hkeep
          have hni : n = i := by injection hkeep
          omega
      rw [htail]
      simp
    · rw [if_neg (by simpa using hkeep)]
      exact ih (n + 1) i

theorem mem_dedupKeys {k : MarkKey} : ∀ {L : List MarkKey}, k ∈ dedupKeys L ↔ k ∈ L := by
  intro L
  induction L with
  | nil => simp [dedupKeys]
  | cons k' ks ih =>
    simp only [dedupKeys, List.mem_cons, List.mem_filter]
    by_cases h : k = k'
    · subst h; simp
    · constructor
      · rintro (h' | ⟨h1, _⟩)
        · exact Or.inl h'
        · exact Or.inr (ih.mp h1)
      · rintro (h' | h')
        · exact Or.inl h'
        · exact Or.inr ⟨ih.mpr h', by simpa using h⟩

theorem nodup_dedupKeys : ∀ (L : List MarkKey), (dedupKeys L).Nodup := by
  intro L
  induction L with
  | nil => simp [dedupKeys]
  | cons k ks ih =>
    simp only [dedupKeys]
    refine List.Nodup.cons ?_ (List.Nodup.filter _ ih)
    intro hmem
    have := List.mem_filter.mp hmem
    simp at this

/-- Members of a group are members of `marks`. -/
theorem mem_of_mem_groupOf {marks : List Mark} {k : MarkKey} {x : Mark}
    (h : x ∈ groupOf marks k) : x ∈ marks := by
  unfold groupOf at h
  rcases List.mem_map.mp h with ⟨q, hq, rfl⟩
  have hq1 := (List.mem_filter.mp hq).1
  have hk := (List.mem_filter.mp hq).2
  have : (q.1, q.2) ∈ keyedOf marks := by simpa using hq1
  exact (mem_keyedFrom 0 q.1 q.2 this).1

/-- A non-composite group member determines its group's key. -/
theorem groupOf_key_of_noncomposite {marks : List Mark} {k : MarkKey} {x : Mark}
    (h : x ∈ groupOf marks k) (hnc : x.isComposite = false) : k = shapeKey x := by
  unfold groupOf at h
  rcases List.mem_map.mp h with ⟨q, hq, rfl⟩
  have hq1 := (List.mem_filter.mp hq).1
  have hk : q.1 = k := by simpa using (List.mem_filter.mp hq).2
  have : (q.1, q.2) ∈ keyedOf marks := by simpa using hq1
  rw [← hk]
  exact (mem_keyedFrom 0 q.1 q.2 this).2.1 hnc

/-- Membership in a non-`unknownK` group. -/
theorem mem_groupOf_iff {marks : List Mark} {k : MarkKey}
    (hk : ∀ i, k ≠ .unknownK i) (x : Mark) :
    x ∈ groupOf marks k ↔ x ∈ marks ∧ x.isComposite = false ∧ shapeKey x = k := by
  constructor
  · intro h
    have hmem := mem_of_mem_groupOf h
    rcases hcomp : x.isComposite with hfalse | htrue
    · exact ⟨hmem, rfl, (groupOf_key_of_noncomposite h hcomp).symm⟩
    · -- a composite member would force an unknown key
      exfalso
      unfold groupOf at h
      rcases List.mem_map.mp h with ⟨q, hq, rfl⟩
      have hq1 := (List.mem_filter.mp hq).1
      have hkq : q.1 = k := by simpa using (List.mem_filter.mp hq).2
      have : (q.1, q.2) ∈ keyedOf marks := by simpa using hq1
      obtain ⟨i, _, hik⟩ := (mem_keyedFrom 0 q.1 q.2 this).2.2 hcomp
      exact hk i (hkq ▸ hik)
  · rintro ⟨hmem, hnc, rfl⟩
    unfold groupOf
    refine List.mem_map.mpr ⟨(shapeKey x, x), ?_, rfl⟩
    refine List.mem_filter.mpr ⟨?_, by simp⟩
    exact keyedFrom_of_mem 0 x hmem hnc

/-- The groups of `unknownK` keys are subsingletons. -/
theorem groupOf_unknown_subsingleton (marks : List Mark) (i : Nat) :
    (groupOf marks (.unknownK i)).length ≤ 1 := by
  unfold groupOf
  rw [List.length_map]
  exact unknown_group_subsingleton 0 i

/-- A key occurring in the key list has an inhabitant in `marks`. -/
theorem mem_keys_iff {marks : List Mark} {k : MarkKey} :
    k ∈ dedupKeys ((keyedOf marks).map (·.1)) ↔ ∃ x, (k, x) ∈ keyedOf marks := by
  rw [mem_dedupKeys]
  constructor
  · intro h
    rcases List.mem_map.mp h with ⟨q, hq, rfl⟩
    exact ⟨q.2, by simpa using hq⟩
  · rintro ⟨x, hx⟩
    exact List.mem_map.mpr ⟨(k, x), hx, rfl⟩

theorem pairwise_of_subsingleton {α : Type} {R : α → α → Prop} {l : List α}
    (h : l.length ≤ 1) : l.Pairwise R := by
  match l with
  | [] => exact List.Pairwise.nil
  | [x] => simp
  | x :: y :: r => simp at h

/-- Every merged output's payload comes from the group it was built from. -/
theorem merged_output_source {marks : List Mark} {k : MarkKey} {x : Mark}
    (hx : x ∈ mergeGroup (sortByStart (groupOf marks k))) :
    ∃ y ∈ groupOf marks k,
      shapeKey x = shapeKey y ∧ x.isComposite = y.isComposite := by
  obtain ⟨y, hy, h⟩ := mergeGroup_shapes x hx
  exact ⟨y, (sortByStart_perm _).mem_iff.mp hy, h⟩

/-- Pairwise separation of `merge_adjacent_marks`: two output marks of the
same merge key never overlap and never touch. -/
theorem mergeAdjacentMarks_sep (marks : List Mark) :
    (mergeAdjacentMarks marks).Pairwise
      (fun a b => sameMergeKey a b → a.rng.2 < b.rng.1 ∨ b.rng.2 < a.rng.1) := by
  by_cases hnil : marks = []
  · simp [mergeAdjacentMarks, hnil]
  unfold mergeAdjacentMarks
  rw [if_neg hnil]
  have hsymm : ∀ {a b : Mark},
      (sameMergeKey a b → a.rng.2 < b.rng.1 ∨ b.rng.2 < a.rng.1) →
      (sameMergeKey b a → b.rng.2 < a.rng.1 ∨ a.rng.2 < b.rng.1) := by
    intro a b h hs
    rcases h (sameMergeKey_symm hs) with h' | h'
    · exact Or.inr h'
    · exact Or.inl h'
  rw [List.Perm.pairwise_iff hsymm (sortByStart_perm _)]
  -- pairwise over the flatMap of groups
  have hgen : ∀ (keys : List MarkKey), keys.Nodup →
      (keys.flatMap fun k => mergeGroup (sortByStart (groupOf marks k))).Pairwise
        (fun a b => sameMergeKey a b → a.rng.2 < b.rng.1 ∨ b.rng.2 < a.rng.1) := by
    intro keys hnodup
    induction keys with
    | nil => simp
    | cons k ks ih =>
      rw [List.flatMap_cons]
      rw [List.pairwise_append]
      refine ⟨?_, ih (List.nodup_cons.mp hnodup).2, ?_⟩
      · -- within one group
        rcases k with nm | ⟨nm, vv⟩ | hr | i
        · -- simpleK
          have hnc : ∀ x ∈ sortByStart (groupOf marks (.simpleK nm)),
              x.isComposite = false := by
            intro x hx
            have := (sortByStart_perm _).mem_iff.mp hx
            exact ((mem_groupOf_iff (by intro i h; cases h) x).mp this).2.1
          have := mergeGroup_sep hnc (sortByStart_sorted _)
          exact List.Pairwise.imp (fun h _ => Or.inl h) this
        · have hnc : ∀ x ∈ sortByStart (groupOf marks (.valueK nm vv)),
              x.isComposite = false := by
            intro x hx
            have := (sortByStart_perm _).mem_iff.mp hx
            exact ((mem_groupOf_iff (by intro i h; cases h) x).mp this).2.1
          have := mergeGroup_sep hnc (sortByStart_sorted _)
          exact List.Pairwise.imp (fun h _ => Or.inl h) this
        · have hnc : ∀ x ∈ sortByStart (groupOf marks (.linkK hr)),
              x.isComposite = false := by
            intro x hx
            have := (sortByStart_perm _).mem_iff.mp hx
            exact ((mem_groupOf_iff (by intro i h; cases h) x).mp this).2.1
          have := mergeGroup_sep hnc (sortByStart_sorted _)
          exact List.Pairwise.imp (fun h _ => Or.inl h) this
        · -- unknownK: a subsingleton group
          apply pairwise_of_subsingleton
          have h1 : (sortByStart (groupOf marks (.unknownK i))).length ≤ 1 := by
            rw [(sortByStart_perm _).length_eq]
            exact groupOf_unknown_subsingleton marks i
          rcases hl : sortByStart (groupOf marks (.unknownK i)) with _ | ⟨m, rest⟩
          · simp [mergeGroup]
          · rcases rest with _ | ⟨m2, r2⟩
            · simp [mergeGroup, mergeRun]
            · rw [hl] at h1; simp at h1
      · -- across two distinct groups
        intro x hx y hy
        intro hs
        exfalso
        rcases List.mem_flatMap.mp hy with ⟨k', hk', hy'⟩
        have hkne : k ≠ k' := by
          intro h
          subst h
          exact (List.nodup_cons.mp hnodup).1 hk'
        obtain ⟨x', hx'mem, hxs, hxc⟩ := merged_output_source hx
        obtain ⟨y', hy'mem, hys, hyc⟩ := merged_output_source hy'
        obtain ⟨hshape, hxnc, hync⟩ := sameMergeKey_shape hs
        have hx'nc : x'.isComposite = false := by rw [← hxc]; exact hxnc
        have hy'nc : y'.isComposite = false := by rw [← hyc]; exact hync
        have hk1 : k = shapeKey x' := groupOf_key_of_noncomposite hx'mem hx'nc
        have hk2 : k' = shapeKey y' := groupOf_key_of_noncomposite hy'mem hy'nc
        apply hkne
        rw [hk1, hk2, ← hxs, ← hys, hshape]
  exact hgen _ (nodup_dedupKeys _)

/-- Coverage preservation of `merge_adjacent_marks`: for any mark key, the
character positions covered before and after merging are the same. -/
theorem mergeAdjacentMarks_covers (marks : List Mark) (m : Mark) (p : Nat) :
    (∃ x ∈ mergeAdjacentMarks marks, sameMergeKey m x ∧ x.covers p)
      ↔ ∃ x ∈ marks, sameMergeKey m x ∧ x.covers p := by
  by_cases hnil : marks = []
  · simp [mergeAdjacentMarks, hnil]
  unfold mergeAdjacentMarks
  rw [if_neg hnil]
  by_cases hcompT : m.isComposite = true
  case pos =>
    -- composites have no merge key: both sides are empty
    constructor
    · rintro ⟨x, _, hs, _⟩
      exact absurd hs (by cases m <;> cases x <;>
        simp_all [sameMergeKey, Mark.isComposite])
    · rintro ⟨x, _, hs, _⟩
      exact absurd hs (by cases m <;> cases x <;>
        simp_all [sameMergeKey, Mark.isComposite])
  case neg =>
  have hcomp : m.isComposite = false := by simpa using hcompT
  have hkey : ∀ x : Mark, sameMergeKey m x ↔
      (x.isComposite = false ∧ shapeKey x = shapeKey m) := by
    intro x
    constructor
    · intro hs
      obtain ⟨hsh, _, hxnc⟩ := sameMergeKey_shape hs
      exact ⟨hxnc, hsh.symm⟩
    · rintro ⟨hxnc, hsh⟩
      exact sameMergeKey_of_shape hcomp hxnc hsh.symm
  constructor
  · rintro ⟨x, hx, hs, hcov⟩
    have hx' := (sortByStart_perm _).mem_iff.mp hx
    rcases List.mem_flatMap.mp hx' with ⟨k, hk, hxg⟩
    obtain ⟨hxnc, hxsh⟩ := (hkey x).mp hs
    -- the group k is the group of m's shape key
    obtain ⟨x', hx'mem, hxs, hxc⟩ := merged_output_source hxg
    have hx'nc : x'.isComposite = false := by rw [← hxc]; exact hxnc
    have hk0 : k = shapeKey m := by
      rw [groupOf_key_of_noncomposite hx'mem hx'nc, ← hxs, hxsh]
    subst hk0
    -- coverage inside the group transfers back to the group members
    have hnc : ∀ z ∈ sortByStart (groupOf marks (shapeKey m)),
        z.isComposite = false := by
      intro z hz
      have hz' := (sortByStart_perm _).mem_iff.mp hz
      have := groupOf_key_of_noncomposite hz'
      rcases hzc : z.isComposite with hzf | hzt
      · rfl
      · exfalso
        unfold groupOf at hz'
        rcases List.mem_map.mp hz' with ⟨q, hq, rfl⟩
        have hq1 := (List.mem_filter.mp hq).1
        have hkq : q.1 = shapeKey m := by simpa using (List.mem_filter.mp hq).2
        have hmemk : (q.1, q.2) ∈ keyedOf marks := by simpa using hq1
        obtain ⟨i, _, hik⟩ := (mem_keyedFrom 0 q.1 q.2 hmemk).2.2 hzc
        rw [hkq] at hik
        exact shapeKey_ne_unknown hcomp i hik
    obtain ⟨y, hy, hycov⟩ := (mergeGroup_covers hnc (sortByStart_sorted _) p).mp
      ⟨x, hxg, hcov⟩
    have hy' := (sortByStart_perm _).mem_iff.mp hy
    have hymem := mem_of_mem_groupOf hy'
    have hync : y.isComposite = false := by
      have := hnc y hy
      exact this
    have hysh : shapeKey y = shapeKey m :=
      (groupOf_key_of_noncomposite hy' hync).symm
    exact ⟨y, hymem, (hkey y).mpr ⟨hync, hysh⟩, hycov⟩
  · rintro ⟨x, hx, hs, hcov⟩
    obtain ⟨hxnc, hxsh⟩ := (hkey x).mp hs
    -- x sits in the group of m's shape key
    have hxg : x ∈ groupOf marks (shapeKey m) := by
      rw [mem_groupOf_iff (fun i => shapeKey_ne_unknown hcomp i) x]
      exact ⟨hx, hxnc, hxsh⟩
    have hnc : ∀ z ∈ sortByStart (groupOf marks (shapeKey m)),
        z.isComposite = false := by
      intro z hz
      have hz' := (sortByStart_perm _).mem_iff.mp hz
      exact ((mem_groupOf_iff (fun i => shapeKey_ne_unknown hcomp i) z).mp hz').2.1
    obtain ⟨y, hy, hycov⟩ := (mergeGroup_covers hnc (sortByStart_sorted _) p).mpr
      ⟨x, (sortByStart_perm _).mem_iff.mpr hxg, hcov⟩
    -- y is a merged output in the flatMap: its key is in the key list
    have hkeys : shapeKey m ∈ dedupKeys ((keyedOf marks).map (·.1)) := by
      rw [mem_keys_iff]
      refine ⟨x, ?_⟩
      have := keyedFrom_of_mem 0 x hx hxnc
      rw [hxsh] at this
      exact this
    refine ⟨y, ?_, ?_, hycov⟩
    · rw [(sortByStart_perm _).mem_iff]
      exact List.mem_flatMap.mpr ⟨shapeKey m, hkeys, hy⟩
    · obtain ⟨y', hy'mem, hys, hyc⟩ := merged_output_source hy
      have hy'nc : y'.isComposite = false :=
        ((mem_groupOf_iff (fun i => shapeKey_ne_unknown hcomp i) y').mp hy'mem).2.1
      have hync : y.isComposite = false := by rw [hyc]; exact hy'nc
      have hysh : shapeKey y = shapeKey m := by
        rw [hys, ← groupOf_key_of_noncomposite hy'mem hy'nc]
      exact (hkey y).mpr ⟨hync, hysh⟩

/-- `merge_adjacent_marks` never fabricates a `CompositeMark`. -/
theorem mergeAdjacentMarks_no_composite {marks : List Mark}
    (h : ∀ x ∈ marks, x.isComposite = false) :
    ∀ x ∈ mergeAdjacentMarks marks, x.isComposite = false := by
  by_cases hnil : marks = []
  · simp [mergeAdjacentMarks, hnil]
  unfold mergeAdjacentMarks
  rw [if_neg hnil]
  intro x hx
  have hx' := (sortByStart_perm _).mem_iff.mp hx
  rcases List.mem_flatMap.mp hx' with ⟨k, _, hxg⟩
  obtain ⟨y, hymem, _, hyc⟩ := merged_output_source hxg
  rw [hyc]
  exact h y (mem_of_mem_groupOf hymem)

/-! ## HTML trees and mark extraction (`extract_text_and_marks`,
`app/services/html_parser/extractors/text_marks.py`)

HTML documents are modelled at the tree level, the interface at which
BeautifulSoup hands the document to the traversal; attribute values and
text nodes hold unescaped text.  The inline-style regexes of the extractor
are embedded as explicit left-to-right scanners with the same matching
semantics. -/

inductive HNode : Type
  | elem (tag : String) (attrs : List (String × PyStr)) (children : List HNode)
  | text (s : PyStr)

/-- `node.get(name, default)`. -/
def getAttrD (attrs : List (String × PyStr)) (name : String) (d : PyStr) : PyStr :=
  match attrs.find? (fun a => a.1 = name) with
  | some a => a.2
  | none => d

/-- Python's `\s` (and `str.strip`'s default set, over ASCII input). -/
def pyIsSpace (c : Char) : Bool :=
  c = ' ' || c = '\t' || c = '\n' || c = '\x0d' || c = '\x0b' || c = '\x0c'

/-- `str.strip()`. -/
def pyStrip (s : PyStr) : PyStr :=
  ((s.dropWhile pyIsSpace).reverse.dropWhile pyIsSpace).reverse

/-- The `\s*([^;]+)` tail of the style regexes: greedy spaces, then a
greedy non-empty run of non-`;` characters; regex backtracking lets the
capture swallow the last space when nothing else can start it. -/
def captureValue (t : PyStr) : Option PyStr :=
  let w := t.takeWhile pyIsSpace
  let r := t.drop w.length
  match r with
  | [] => if w.isEmpty then none else some [w.getLastD ' ']
  | c :: rest =>
    if c = ';' then (if w.isEmpty then none else some [w.getLastD ' '])
    else some ((c :: rest).takeWhile (· ≠ ';'))

/-- `re.search(r'background(?:-color)?:\s*([^;]+)', s)`: first position
where the (greedy) pattern matches, returning the raw capture. -/
def findBackground : PyStr → Option PyStr
  | [] => none
  | c :: rest =>
    if ("background-color:".toList).isPrefixOf (c :: rest) then
      match captureValue ((c :: rest).drop 17) with
      | some v => some v
      | none => findBackground rest
    else if ("background:".toList).isPrefixOf (c :: rest) then
      match captureValue ((c :: rest).drop 11) with
      | some v => some v
      | none => findBackground rest
    else findBackground rest

/-- `re.search(r'(?<!background-)color:\s*([^;]+)', s)`; `pre` is the
scanned prefix, reversed, giving the negative lookbehind its context. -/
def findColorGo (pre : PyStr) : PyStr → Option PyStr
  | [] => none
  | c :: rest =>
    if (("color:".toList).isPrefixOf (c :: rest)
        && !(("-dnuorgkcab".toList).isPrefixOf pre)) then
      match captureValue ((c :: rest).drop 6) with
      | some v => some v
      | none => findColorGo (c :: pre) rest
    else findColorGo (c :: pre) rest

def findColor (s : PyStr) : Option PyStr := findColorGo [] s

/-- `re.search(prop + r':\s*([^;]+)', s)` for the plain properties
(`font-size`, `font-family`, `text-decoration`). -/
def findProp (prop : List Char) : PyStr → Option PyStr
  | [] => none
  | c :: rest =>
    if (prop ++ [':']).isPrefixOf (c :: rest) then
      match captureValue ((c :: rest).drop (prop.length + 1)) with
      | some v => some v
      | none => findProp prop rest
    else findProp prop rest

/-- Python's `in` on strings (substring containment). -/
def containsSub (needle : PyStr) : PyStr → Bool
  | [] => needle.isEmpty
  | c :: rest => needle.isPrefixOf (c :: rest) || containsSub needle rest

/-- An active mark descriptor carried down the traversal
(`current_marks` entries). -/
inductive Desc : Type
  | simpleD (name : String)
  | linkD (href : PyStr)
  | valueD (name : String) (v : PyStr)
deriving DecidableEq, Repr

def descToMark (r : Nat × Nat) : Desc → Mark
  | .simpleD n => .simple n r
  | .linkD h => .link h r
  | .valueD n v => .value n v r

/-- The descriptors a node contributes: the semantic-tag/link `elif`
chain, then the inline-style scan (background first, then color with the
lookbehind, font-size, font-family, text-decoration). -/
def nodeDescs (tag : String) (attrs : List (String × PyStr)) : List Desc :=
  let sem : List Desc :=
    if tag = "strong" ∨ tag = "b" then [.simpleD "bold"]
    else if tag = "em" ∨ tag = "i" then [.simpleD "italic"]
    else if tag = "u" then [.simpleD "underline"]
    else if tag = "s" ∨ tag = "strike" ∨ tag = "del" then [.simpleD "strike"]
    else if tag = "code" then [.simpleD "code"]
    else if tag = "sup" then [.simpleD "superscript"]
    else if tag = "sub" then [.simpleD "subscript"]
    else if tag = "a" then [.linkD (getAttrD attrs "href" [])]
    else []
  let style := getAttrD attrs "style" []
  let sty : List Desc :=
    if style = [] then []
    else
      (match findBackground style with
       | some v => [.valueD "backgroundColor" (pyStrip v)]
       | none => []) ++
      (match findColor style with
       | some v => [.valueD "color" (pyStrip v)]
       | none => []) ++
      (match findProp "font-size".toList style with
       | some v => [.valueD "fontSize" (pyStrip v)]
       | none => []) ++
      (match findProp "font-family".toList style with
       | some v => [.valueD "fontFamily" (pyStrip v)]
       | none => []) ++
      (match findProp "text-decoration".toList style with
       | some v =>
         let dv := (pyStrip v).map Char.toLower
         (if containsSub "underline".toList dv then [Desc.simpleD "underline"] else [])
         ++ (if containsSub "line-through".toList dv then [Desc.simpleD "strike"] else [])
       | none => [])
  sem ++ sty

mutual
/-- The `traverse(node, current_marks)` closure: accumulate text and emit,
at every non-empty text leaf, one mark per active descriptor over the
leaf's range. -/
def extractGo (n : HNode) (active : List Desc) (st : PyStr × List Mark) :
    PyStr × List Mark :=
  match n with
  | .text s =>
    if s = [] then st
    else
      (st.1 ++ s, st.2 ++ active.map (descToMark (st.1.length, st.1.length + s.length)))
  | .elem tag attrs children =>
    extractChildren children (active ++ nodeDescs tag attrs) st

def extractChildren (l : List HNode) (active : List Desc) (st : PyStr × List Mark) :
    PyStr × List Mark :=
  match l with
  | [] => st
  | c :: rest => extractChildren rest active (extractGo c active st)
end

/-- `extract_text_and_marks`. -/
def extractTextAndMarks (element : HNode) : PyStr × List Mark :=
  let r := extractGo element [] ([], [])
  (r.1, mergeAdjacentMarks r.2)

/-- The C4 scenario input:
`<p><span style="font-size:12pt">AB</span><span style="font-size:12pt">CD</span></p>`. -/
def fontSizeScenario : HNode :=
  .elem "p" []
    [.elem "span" [("style", "font-size:12pt".toList)] [.text "AB".toList],
     .elem "span" [("style", "font-size:12pt".toList)] [.text "CD".toList]]

/-- **C4.** Adjacent or overlapping marks of the same name (same name and
value for value marks, same href for links) are merged into a single mark
with one contiguous range: after `merge_adjacent_marks` no two same-key
marks touch or overlap, and the merged list covers exactly the character
positions the input covered, key by key.  In particular, parsing
`<p><span style="font-size:12pt">AB</span><span
style="font-size:12pt">CD</span></p>` yields exactly one `fontSize` mark
with range `(0, 4)`, not two marks at `(0, 2)` and `(2, 4)`. -/
theorem c4_adjacent_mark_merging (marks : List Mark) :
    ((mergeAdjacentMarks marks).Pairwise
        (fun a b => sameMergeKey a b → a.rng.2 < b.rng.1 ∨ b.rng.2 < a.rng.1))
    ∧ (∀ (m : Mark) (p : Nat),
        (∃ x ∈ mergeAdjacentMarks marks, sameMergeKey m x ∧ x.covers p)
          ↔ ∃ x ∈ marks, sameMergeKey m x ∧ x.covers p)
    ∧ extractTextAndMarks fontSizeScenario
        = ("ABCD".toList, [Mark.value "fontSize" "12pt".toList (0, 4)]) :=
  ⟨mergeAdjacentMarks_sep marks,
   fun m p => mergeAdjacentMarks_covers marks m p,
   by decide⟩

/-- Witness for C4: for the two adjacent `fontSize` marks, position 3 is
covered by a same-key mark before merging, hence (by the covered-position
equivalence) also after merging. -/
theorem c4_adjacent_mark_merging_witness :
    ∃ x ∈ mergeAdjacentMarks
        [Mark.value "fontSize" "12pt".toList (0, 2),
         Mark.value "fontSize" "12pt".toList (2, 4)],
      sameMergeKey (Mark.value "fontSize" "12pt".toList (0, 2)) x ∧ x.covers 3 :=
  ((c4_adjacent_mark_merging
      [Mark.value "fontSize" "12pt".toList (0, 2),
       Mark.value "fontSize" "12pt".toList (2, 4)]).2.1
    (Mark.value "fontSize" "12pt".toList (0, 2)) 3).mpr
    ⟨Mark.value "fontSize" "12pt".toList (2, 4), by decide, by decide, by decide⟩

/-- The C9 counterexample input: `<p><strong><em>ab</em></strong></p>`
produces a bold mark and an italic mark over the identical range `(0, 2)`. -/
def identicalRangeScenario : HNode :=
  .elem "p" [] [.elem "strong" [] [.elem "em" [] [.text "ab".toList]]]

/-- **C9, counterexample.** Mark extraction on
`<p><strong><em>ab</em></strong></p>` produces two marks over the one
identical range `(0, 2)`, yet normalization leaves them as two separate
`SimpleMark`s and produces no `CompositeMark` at all — the normalization
pipeline never constructs a `CompositeMark`. -/
theorem c9_no_composite_counterexample :
    extractTextAndMarks identicalRangeScenario
      = ("ab".toList, [Mark.simple "bold" (0, 2), Mark.simple "italic" (0, 2)])
    ∧ ∀ x ∈ (extractTextAndMarks identicalRangeScenario).2,
        x.isComposite = false := by
  decide

/-- **C9, amended.** Normalization (`merge_adjacent_marks`) merges
identical-range marks of the same name (and value) into a single mark, but
identical-range marks of different names stay separate marks and no
`CompositeMark` is ever produced: a composite-free input yields a
composite-free output, and two output marks of the same merge key can only
share a range if that range is inverted (empty). -/
theorem c9_identical_range_normalization (marks : List Mark) :
    ((∀ x ∈ marks, x.isComposite = false) →
      ∀ x ∈ mergeAdjacentMarks marks, x.isComposite = false)
    ∧ (mergeAdjacentMarks marks).Pairwise
        (fun a b => sameMergeKey a b → a.rng = b.rng → a.rng.2 < a.rng.1) := by
  refine ⟨fun h => mergeAdjacentMarks_no_composite h, ?_⟩
  refine List.Pairwise.imp ?_ (mergeAdjacentMarks_sep marks)
  intro a b h hs heq
  rcases h hs with h' | h'
  · rw [heq] at h' ⊢
    exact h'
  · rw [← heq] at h'
    exact h'

/-- Witness for C9's amended claim: two identical-range bold marks merge
into one, and the output stays composite-free. -/
theorem c9_identical_range_normalization_witness :
    (∀ x ∈ mergeAdjacentMarks [Mark.simple "bold" (0, 2), Mark.simple "bold" (0, 2)],
        x.isComposite = false)
    ∧ mergeAdjacentMarks [Mark.simple "bold" (0, 2), Mark.simple "bold" (0, 2)]
        = [Mark.simple "bold" (0, 2)] :=
  ⟨(c9_identical_range_normalization _).1 (by decide), by decide⟩

/-! ## Heading numbering (`HeadingNumberGenerator`,
`app/services/docx_exporter/heading_numbering.py`)

The counter state `self.counters : Dict[int, List[int]]` is modelled as an
association list from level to counter list. -/

/-- `Dict[int, List[int]]` as an association list. -/
abbrev HeadingCounters := List (Nat × List Nat)

def alookup (l : List (Nat × List Nat)) (k : Nat) : Option (List Nat) :=
  (l.find? (fun p => p.1 = k)).map (·.2)

/-- `d[k] = v`: replace in place, or append a fresh key. -/
def aset : List (Nat × List Nat) → Nat → List Nat → List (Nat × List Nat)
  | [], k, v => [(k, v)]
  | (k', v') :: rest, k, v =>
    if k' = k then (k, v) :: rest else (k', v') :: aset rest k v

/-- `for l in list(d.keys()): if l > level: del d[l]`. -/
def afilterLE (lv : Nat) (l : List (Nat × List Nat)) : List (Nat × List Nat) :=
  l.filter (fun p => decide (p.1 ≤ lv))

/-- `self.counters[1][0] += 1` on a present entry. -/
def incrHead : List Nat → List Nat
  | [] => []
  | c :: rest => (c + 1) :: rest

/-- `self.counters[level][-1] += 1`. -/
def incrLast (l : List Nat) : List Nat :=
  l.dropLast ++ [l.getLastD 0 + 1]

/-- `HeadingNumberGenerator._update_counter`. -/
def updateCounter (counters : HeadingCounters) (level : Nat) : HeadingCounters :=
  if level = 1 then
    let c1 :=
      match alookup counters 1 with
      | none => aset counters 1 [1]
      | some l0 => aset counters 1 (incrHead l0)
    afilterLE 1 c1
  else
    let parent := level - 1
    let counters1 :=
      match alookup counters parent with
      | none => aset counters parent (List.replicate parent 1)
      | some _ => counters
    let parentCounters := (alookup counters1 parent).getD (List.replicate parent 1)
    let counters2 :=
      match alookup counters1 level with
      | none => aset counters1 level (parentCounters ++ [1])
      | some cur =>
        if cur.length < level ∨ cur.take parent ≠ parentCounters then
          aset counters1 level (parentCounters ++ [1])
        else
          aset counters1 level (incrLast cur)
    afilterLE level counters2

/-- `CHINESE_NUMBERS`. -/
def chineseNumbers : List String :=
  ["零", "一", "二", "三", "四", "五", "六", "七", "八", "九", "十"]

/-- `CIRCLED_NUMBERS`. -/
def circledNumbers : List String :=
  ["①", "②", "③", "④", "⑤", "⑥", "⑦", "⑧", "⑨", "⑩"]

/-- `HeadingNumberGenerator._to_chinese_number`. -/
def toChineseNumber (num : Nat) : String :=
  if num = 0 then "零"
  else if num ≤ 10 then (chineseNumbers.getD num "")
  else if num < 20 then "十" ++ chineseNumbers.getD (num - 10) ""
  else
    let tens := num / 10
    let ones := num % 10
    (chineseNumbers.getD tens "") ++ "十"
      ++ (if ones > 0 then chineseNumbers.getD ones "" else "")

/-- `HeadingNumberGenerator._generate_number`. -/
def generateNumber (counters : HeadingCounters) (level : Nat)
    (formatType : String) : String :=
  let cs := (alookup counters level).getD [1]
  let currentNum := cs.getLastD 1
  if formatType = "chinese" then toChineseNumber currentNum ++ "、"
  else if formatType = "number" then toString currentNum ++ "、"
  else if formatType = "number_dot" then toString currentNum ++ ". "
  else if formatType = "hierarchical" then
    String.intercalate "." (cs.map toString) ++ " "
  else if formatType = "parenthesis" then "(" ++ toString currentNum ++ ") "
  else if formatType = "circled" then
    if currentNum ≤ 10 then circledNumbers.getD (currentNum - 1) "" ++ " "
    else "(" ++ toString currentNum ++ ") "
  else if formatType = "chapter" then
    if currentNum ≤ 10 then "第" ++ toChineseNumber currentNum ++ "章 "
    else "第" ++ toString currentNum ++ "章 "
  else if formatType = "none" then ""
  else String.intercalate "." (cs.map toString) ++ " "

/-- The generator state: per-level format configuration, the enabled flag,
and the counter dictionary. -/
structure GenState where
  levelFormats : List (Nat × String)
  enabled : Bool
  counters : HeadingCounters

/-- `HeadingNumberGenerator.get_number`. -/
def getNumber (st : GenState) (level : Nat) : String × GenState :=
  if st.enabled = false then ("", st)
  else
    let lv := max 1 (min 6 level)
    let counters' := updateCounter st.counters lv
    let fmt := ((st.levelFormats.find? (fun p => p.1 = lv)).map (·.2)).getD "hierarchical"
    (generateNumber counters' lv fmt, { st with counters := counters' })

/-- Feed a heading-level sequence to one generator, collecting prefixes. -/
def runNumbers (st : GenState) : List Nat → List String
  | [] => []
  | lv :: rest =>
    let r := getNumber st lv
    r.1 :: runNumbers r.2 rest

/-- A generator under the hierarchical preset: no per-level overrides, so
every level falls back to the default `"hierarchical"` format. -/
def hierarchicalGen : GenState := { levelFormats := [], enabled := true, counters := [] }

theorem alookup_aset_self (l : HeadingCounters) (k : Nat) (v : List Nat) :
    alookup (aset l k v) k = some v := by
  induction l with
  | nil => simp [aset, alookup]
  | cons p rest ih =>
    by_cases h : p.1 = k
    · simp only [aset, if_pos h, alookup]
      rw [List.find?_cons_of_pos _ (by simp)]
      rfl
    · simp only [aset, if_neg h, alookup]
      rw [List.find?_cons_of_neg _ (by simpa using h)]
      exact ih

theorem alookup_aset_ne (l : HeadingCounters) {k k' : Nat} (h : k' ≠ k)
    (v : List Nat) : alookup (aset l k v) k' = alookup l k' := by
  induction l with
  | nil =>
    simp only [aset, alookup]
    rw [List.find?_cons_of_neg _ (by simp; omega)]
  | cons p rest ih =>
    by_cases hp : p.1 = k
    · simp only [aset, if_pos hp, alookup]
      rw [List.find?_cons_of_neg _ (by simp; omega)]
      rw [List.find?_cons_of_neg _ (by simp; omega)]
    · simp only [aset, if_neg hp, alookup] at ih ⊢
      by_cases hq : p.1 = k'
      · rw [List.find?_cons_of_pos _ (by simpa using hq),
          List.find?_cons_of_pos _ (by simpa using hq)]
      · rw [List.find?_cons_of_neg _ (by simpa using hq),
          List.find?_cons_of_neg _ (by simpa using hq)]
        exact ih

theorem alookup_afilterLE_gt (l : HeadingCounters) {lv k : Nat} (h : lv < k) :
    alookup (afilterLE lv l) k = none := by
  induction l with
  | nil => rfl
  | cons p rest ih =>
    simp only [afilterLE, List.filter_cons] at ih ⊢
    by_cases hp : p.1 ≤ lv
    · rw [if_pos (by simpa using hp)]
      simp only [alookup]
      rw [List.find?_cons_of_neg _ (by simp; omega)]
      exact ih
    · rw [if_neg (by simpa using hp)]
      exact ih

theorem alookup_afilterLE_le (l : HeadingCounters) {lv k : Nat} (h : k ≤ lv) :
    alookup (afilterLE lv l) k = alookup l k := by
  induction l with
  | nil => rfl
  | cons p rest ih =>
    simp only [afilterLE, List.filter_cons] at ih ⊢
    by_cases hp : p.1 ≤ lv
    · rw [if_pos (by simpa using hp)]
      simp only [alookup]
      by_cases hq : p.1 = k
      · rw [List.find?_cons_of_pos _ (by simpa using hq),
          List.find?_cons_of_pos _ (by simpa using hq)]
      · rw [List.find?_cons_of_neg _ (by simpa using hq),
          List.find?_cons_of_neg _ (by simpa using hq)]
        exact ih
    · rw [if_neg (by simpa using hp)]
      simp only [alookup]
      rw [List.find?_cons_of_neg _ (by simp; omega)]
      exact ih

/-- **C5.** Feeding the heading-level sequence `[1,2,2,3,3,1]` to one
generator under the hierarchical text-prefix preset yields the prefixes
`1`, `1.1`, `1.2`, `1.2.1`, `1.2.2`, `2` in that order (each emitted with
the preset's trailing-space separator); moreover `_update_counter` at any
level `L ≥ 1` removes every counter at a level greater than `L` (so a
level-1 heading resets all deeper counters), and entering a level `L ≥ 2`
whose counter is absent seeds it from the counters of the level below,
extended by a fresh `1`. -/
theorem c5_hierarchical_numbering :
    (runNumbers hierarchicalGen [1, 2, 2, 3, 3, 1]
        = ["1 ", "1.1 ", "1.2 ", "1.2.1 ", "1.2.2 ", "2 "])
    ∧ (∀ (st : HeadingCounters) (level k : Nat), 1 ≤ level → level < k →
        alookup (updateCounter st level) k = none)
    ∧ (∀ (st : HeadingCounters) (level : Nat), 2 ≤ level →
        alookup st level = none →
        alookup (updateCounter st level) level
          = some ((alookup st (level - 1)).getD (List.replicate (level - 1) 1) ++ [1])) := by
  refine ⟨by decide, ?_, ?_⟩
  · -- resetting: the final key filter drops every deeper level
    intro st level k _ hk
    unfold updateCounter
    by_cases h1 : level = 1
    · rw [if_pos h1]
      exact alookup_afilterLE_gt _ (by omega)
    · rw [if_neg h1]
      exact alookup_afilterLE_gt _ hk
  · -- seeding an absent level from its parent
    intro st level h2 habsent
    unfold updateCounter
    rw [if_neg (by omega)]
    have hne : level - 1 ≠ level := by omega
    rcases hpar : alookup st (level - 1) with _ | v
    · -- parent absent: it is first initialised with `[1] * parent_level`
      simp only [hpar]
      have hl1 : alookup (aset st (level - 1) (List.replicate (level - 1) 1)) level
          = none := by
        rw [alookup_aset_ne st (by omega)]
        exact habsent
      rw [hl1]
      have hp1 : alookup (aset st (level - 1) (List.replicate (level - 1) 1)) (level - 1)
          = some (List.replicate (level - 1) 1) := alookup_aset_self _ _ _
      rw [hp1]
      rw [alookup_afilterLE_le _ (le_refl _)]
      rw [alookup_aset_self]
      simp
    · simp only [hpar, habsent]
      rw [alookup_afilterLE_le _ (le_refl _)]
      rw [alookup_aset_self]

/-- Witness for C5: the reset and seeding conjuncts applied at a concrete
counter state. -/
theorem c5_hierarchical_numbering_witness :
    alookup (updateCounter [(1, [2]), (3, [5])] 2) 3 = none
    ∧ alookup (updateCounter [(1, [2])] 2) 2 = some [2, 1] := by
  constructor
  · exact c5_hierarchical_numbering.2.1 [(1, [2]), (3, [5])] 2 3 (by decide) (by decide)
  · have := c5_hierarchical_numbering.2.2 [(1, [2])] 2 (by decide) (by decide)
    simpa using this

/-! ## The Content model (`app/models/content_models.py`) -/

structure ParagraphAttrs where
  listType : Option String
  listLevel : Option Nat
  listStart : Option Int
deriving DecidableEq, Repr

structure ImageMeta where
  width : Option (Sum Nat PyStr)
  height : Option (Sum Nat PyStr)
  alt : Option PyStr
deriving DecidableEq, Repr

structure TableCellContent where
  text : PyStr
  marks : List Mark
deriving DecidableEq, Repr

structure TableCellData where
  cell : Nat × Nat
  content : TableCellContent
  styleId : Option PyStr
deriving DecidableEq, Repr

/-- A merged-cell region (`MergeRegion`); the Python `end` field is named
`stop` here (`end` is reserved in Lean). -/
structure MergeRegion where
  id : PyStr
  start : Nat × Nat
  stop : Nat × Nat
  masterCell : Nat × Nat
  type : String
deriving DecidableEq, Repr

structure TableData where
  rows : Nat
  cols : Nat
  cells : List TableCellData
  mergeRegions : List MergeRegion
deriving DecidableEq, Repr

/-- The closed Block union. -/
inductive Block : Type
  | paragraph (id : PyStr) (text : PyStr) (marks : List Mark)
      (attrs : Option ParagraphAttrs)
  | heading (id : PyStr) (level : Nat) (text : PyStr) (marks : List Mark)
  | image (id : PyStr) (src : PyStr) (meta : Option ImageMeta)
  | table (id : PyStr) (data : TableData)
  | code (id : PyStr) (text : PyStr) (language : Option PyStr)
  | divider (id : PyStr)
deriving DecidableEq, Repr

/-! ## Chapter building (`ChapterBuilder`,
`app/services/docx_importer/chapter_builder.py`)

`uuid.uuid4()` chapter ids are modelled by the chapter's creation index
(they are only ever compared for identity through `parent_id`).  The final
`_recalculate_order_indices` pass rewrites `order_index` only and never
reorders the chapter list, so it is not modelled. -/

structure ChapterData where
  idx : Nat
  title : PyStr
  headingLevel : Nat
  parentIdx : Option Nat
  content : List Block
deriving DecidableEq, Repr

/-- `DocxImportConfig.is_chapter_heading` applied to a block
(`_is_chapter_heading`). -/
def isChapterHeading (maxLevel : Nat) : Block → Bool
  | .heading _ level _ _ => decide (1 ≤ level ∧ level ≤ maxLevel)
  | _ => false

/-- `_find_parent_id`: first stack entry, scanned from the top, with a
strictly smaller heading level. -/
def findParentIdx (level : Nat) (stack : List ChapterData) : Option Nat :=
  (stack.reverse.find? (fun c => decide (c.headingLevel < level))).map (·.idx)

/-- `_update_parent_stack`: pop levels `≥` the new chapter's, then push
(the stack's top is the list's last element, as in Python). -/
def updateParentStack (stack : List ChapterData) (c : ChapterData) : List ChapterData :=
  ((stack.reverse.dropWhile (fun p => decide (p.headingLevel ≥ c.headingLevel))).reverse)
    ++ [c]

/-- `_create_chapter` (the style-rule collection is not modelled: it does
not affect id, title, level or parent). -/
def mkChapter (idx : Nat) (curInfo : Option (PyStr × Nat)) (blocks : List Block)
    (stack : List ChapterData) (defaultTitle : PyStr) : ChapterData :=
  let title := (curInfo.map (·.1)).getD defaultTitle
  let hlevel := (curInfo.map (·.2)).getD 1
  { idx := idx, title := title, headingLevel := hlevel,
    parentIdx := findParentIdx hlevel stack, content := blocks }

/-- `_create_default_chapter`. -/
def defaultChapter (defaultTitle : PyStr) : ChapterData :=
  { idx := 0, title := defaultTitle, headingLevel := 1, parentIdx := none,
    content := [] }

/-- The `for block in self.blocks` loop of `ChapterBuilder.build`, plus the
trailing flush and the empty-document default. -/
def buildGo (maxLevel : Nat) (defaultTitle : PyStr) :
    List Block → List ChapterData → List Block → Option (PyStr × Nat) →
    List ChapterData → List ChapterData
  | [], chapters, cur, curInfo, stack =>
    if curInfo.isSome ∨ cur ≠ [] then
      chapters ++ [mkChapter chapters.length curInfo cur stack defaultTitle]
    else if chapters = [] then [defaultChapter defaultTitle]
    else chapters
  | b :: rest, chapters, cur, curInfo, stack =>
    if isChapterHeading maxLevel b then
      let hInfo : Option (PyStr × Nat) :=
        match b with
        | .heading _ level text _ => some (text, level)
        | _ => none
      if curInfo.isSome ∨ cur ≠ [] then
        let c := mkChapter chapters.length curInfo cur stack defaultTitle
        buildGo maxLevel defaultTitle rest (chapters ++ [c]) [] hInfo
          (updateParentStack stack c)
      else
        buildGo maxLevel defaultTitle rest chapters [] hInfo stack
    else
      buildGo maxLevel defaultTitle rest chapters (cur ++ [b]) curInfo stack

/-- `ChapterBuilder.build`. -/
def chapterBuild (maxLevel : Nat) (defaultTitle : PyStr) (blocks : List Block) :
    List ChapterData :=
  buildGo maxLevel defaultTitle blocks [] [] none []

/-- A chapter's (title, heading level) pair. -/
def chapterTL (c : ChapterData) : PyStr × Nat := (c.title, c.headingLevel)

/-- A chapter-heading block's (text, level) pair. -/
def headingTL : Block → PyStr × Nat
  | .heading _ level text _ => (text, level)
  | _ => ([], 0)

/-- A chapter's parent pointer is sound with respect to `lst`. -/
def parentGood (c : ChapterData) (lst : List ChapterData) : Prop :=
  ∀ pid, c.parentIdx = some pid →
    ∃ p ∈ lst, p.idx = pid ∧ p.headingLevel < c.headingLevel ∧ pid < c.idx

/-- `mkChapter`'s parent comes off the stack, strictly shallower. -/
theorem mkChapter_parent {idx : Nat} {curInfo : Option (PyStr × Nat)}
    {blocks : List Block} {stack : List ChapterData} {d : PyStr} {pid : Nat}
    (h : (mkChapter idx curInfo blocks stack d).parentIdx = some pid) :
    ∃ p ∈ stack, p.idx = pid
      ∧ p.headingLevel < (mkChapter idx curInfo blocks stack d).headingLevel := by
  unfold mkChapter findParentIdx at h ⊢
  simp only [Option.map_eq_some'] at h
  obtain ⟨p, hp, hpid⟩ := h
  refine ⟨p, ?_, hpid, ?_⟩
  · exact List.mem_reverse.mp (List.mem_of_find?_eq_some hp)
  · have := List.find?_some hp
    simpa using this

/-- The output of `buildGo` extends its chapter accumulator. -/
theorem buildGo_supset (maxLevel : Nat) (d : PyStr) :
    ∀ (blocks : List Block) (chapters : List ChapterData) (cur : List Block)
      (curInfo : Option (PyStr × Nat)) (stack : List ChapterData),
      ∀ c ∈ chapters, c ∈ buildGo maxLevel d blocks chapters cur curInfo stack := by
  intro blocks
  induction blocks with
  | nil =>
    intro chapters cur curInfo stack c hc
    simp only [buildGo]
    by_cases h : curInfo.isSome ∨ cur ≠ []
    · rw [if_pos h]
      exact List.mem_append_left _ hc
    · rw [if_neg h]
      by_cases h2 : chapters = []
      · rw [h2] at hc; simp at hc
      · rw [if_neg h2]
        exact hc
  | cons b rest ih =>
    intro chapters cur curInfo stack c hc
    simp only [buildGo]
    by_cases hb : isChapterHeading maxLevel b
    · rw [if_pos hb]
      by_cases h : curInfo.isSome ∨ cur ≠ []
      · rw [if_pos h]
        exact ih _ _ _ _ c (List.mem_append_left _ hc)
      · rw [if_neg h]
        exact ih _ _ _ _ c hc
    · rw [if_neg hb]
      exact ih _ _ _ _ c hc

/-- Parent soundness, by induction along the build loop. -/
theorem buildGo_parentGood (maxLevel : Nat) (d : PyStr) :
    ∀ (blocks : List Block) (chapters : List ChapterData) (cur : List Block)
      (curInfo : Option (PyStr × Nat)) (stack : List ChapterData),
      (∀ c ∈ stack, c ∈ chapters) →
      (∀ c ∈ chapters, c.idx < chapters.length) →
      (∀ c ∈ chapters, parentGood c chapters) →
      ∀ c ∈ buildGo maxLevel d blocks chapters cur curInfo stack,
        parentGood c (buildGo maxLevel d blocks chapters cur curInfo stack) := by
  intro blocks
  induction blocks with
  | nil =>
    intro chapters cur curInfo stack hstack hidx hgood c hc
    simp only [buildGo] at hc ⊢
    by_cases h : curInfo.isSome ∨ cur ≠ []
    · rw [if_pos h] at hc ⊢
      rcases List.mem_append.mp hc with hc | hc
      · intro pid hpid
        obtain ⟨p, hp, h'⟩ := hgood c hc pid hpid
        exact ⟨p, List.mem_append_left _ hp, h'⟩
      · simp only [List.mem_singleton] at hc
        subst hc
        intro pid hpid
        obtain ⟨p, hp, hpid', hlv⟩ := mkChapter_parent hpid
        refine ⟨p, List.mem_append_left _ (hstack p hp), hpid', hlv, ?_⟩
        have := hidx p (hstack p hp)
        simp only [mkChapter]
        omega
    · rw [if_neg h] at hc ⊢
      by_cases h2 : chapters = []
      · rw [if_pos h2] at hc ⊢
        simp only [List.mem_singleton] at hc
        subst hc
        intro pid hpid
        simp [defaultChapter] at hpid
      · rw [if_neg h2] at hc ⊢
        intro pid hpid
        exact hgood c hc pid hpid
  | cons b rest ih =>
    intro chapters cur curInfo stack hstack hidx hgood c hc
    simp only [buildGo] at hc ⊢
    by_cases hb : isChapterHeading maxLevel b
    · rw [if_pos hb] at hc ⊢
      by_cases h : curInfo.isSome ∨ cur ≠ []
      · rw [if_pos h] at hc ⊢
        refine ih _ _ _ _ ?_ ?_ ?_ c hc
        · -- the new stack's members are old stack members or the new chapter
          intro p hp
          unfold updateParentStack at hp
          rcases List.mem_append.mp hp with hp | hp
          · have : p ∈ stack.reverse.dropWhile
                (fun q => decide (q.headingLevel ≥ (mkChapter chapters.length curInfo cur stack d).headingLevel)) := by
              simpa using hp
            have hmem : p ∈ stack := by
              have := (List.dropWhile_sublist _ (l := stack.reverse)).subset this
              exact List.mem_reverse.mp this
            exact List.mem_append_left _ (hstack p hmem)
          · simp only [List.mem_singleton] at hp
            subst hp
            exact List.mem_append_right _ (List.mem_singleton.mpr rfl)
        · intro p hp
          rcases List.mem_append.mp hp with hp | hp
          · have := hidx p hp
            simp only [List.length_append, List.length_singleton]
            omega
          · simp only [List.mem_singleton] at hp
            subst hp
            simp [mkChapter]
        · intro p hp
          rcases List.mem_append.mp hp with hp | hp
          · intro pid hpid
            obtain ⟨q, hq, h'⟩ := hgood p hp pid hpid
            exact ⟨q, List.mem_append_left _ hq, h'⟩
          · simp only [List.mem_singleton] at hp
            subst hp
            intro pid hpid
            obtain ⟨q, hq, hpid', hlv⟩ := mkChapter_parent hpid
            refine ⟨q, List.mem_append_left _ (hstack q hq), hpid', hlv, ?_⟩
            have := hidx q (hstack q hq)
            simp only [mkChapter]
            omega
      · rw [if_neg h] at hc ⊢
        exact ih _ _ _ _ hstack hidx hgood c hc
    · rw [if_neg hb] at hc ⊢
      exact ih _ _ _ _ hstack hidx hgood c hc

/-- The first block exists and is not a chapter heading (so it will open a
default chapter). -/
def firstIsContent (maxLevel : Nat) : List Block → Bool
  | [] => false
  | b :: _ => ! isChapterHeading maxLevel b

/-- The (title, level) sequence produced by the build loop. -/
theorem buildGo_tl (maxLevel : Nat) (d : PyStr) :
    ∀ (blocks : List Block) (chapters : List ChapterData) (cur : List Block)
      (curInfo : Option (PyStr × Nat)) (stack : List ChapterData),
      (buildGo maxLevel d blocks chapters cur curInfo stack).map chapterTL
        = chapters.map chapterTL
          ++ (match curInfo with
              | some (t, l) => [(t, l)]
              | none =>
                if cur ≠ [] ∨ firstIsContent maxLevel blocks then [(d, 1)] else [])
          ++ (blocks.filter (isChapterHeading maxLevel)).map headingTL
          ++ (if chapters = [] ∧ curInfo = none ∧ cur = [] ∧ blocks = []
                then [(d, 1)] else []) := by
  intro blocks
  induction blocks with
  | nil =>
    intro chapters cur curInfo stack
    simp only [buildGo, List.filter_nil, List.map_nil, firstIsContent]
    by_cases h : curInfo.isSome ∨ cur ≠ []
    · rw [if_pos h]
      rcases hinfo : curInfo with _ | ⟨t, l⟩
      · have hcur : cur ≠ [] := by
          rcases h with h | h
          · rw [hinfo] at h; simp at h
          · exact h
        simp only [hinfo, List.map_append]
        rw [if_pos (Or.inl hcur)]
        simp [mkChapter, chapterTL, hcur]
      · simp only [hinfo, List.map_append]
        simp [mkChapter, chapterTL]
    · rw [if_neg h]
      have hinfo : curInfo = none := by
        rcases curInfo with _ | v
        · rfl
        · exact absurd (Or.inl rfl) h
      have hcur : cur = [] := by
        by_contra hc
        exact h (Or.inr hc)
      subst hinfo hcur
      by_cases h2 : chapters = []
      · rw [if_pos h2, h2]
        simp [defaultChapter, chapterTL]
      · rw [if_neg h2]
        simp [h2]
  | cons b rest ih =>
    intro chapters cur curInfo stack
    simp only [buildGo]
    by_cases hb : isChapterHeading maxLevel b
    · rw [if_pos hb]
      rcases b with ⟨_, _, _, _⟩ | ⟨bid, blevel, btext, bmarks⟩ | ⟨_, _, _⟩
        | ⟨_, _⟩ | ⟨_, _, _⟩ | _
      · simp [isChapterHeading] at hb
      · -- heading case
        simp only [List.filter_cons, hb, if_pos, List.map_cons]
        by_cases h : curInfo.isSome ∨ cur ≠ []
        · rw [if_pos h]
          rw [ih]
          rcases hinfo : curInfo with _ | ⟨t, l⟩
          · have hcur : cur ≠ [] := by
              rcases h with h | h
              · rw [hinfo] at h; simp at h
              · exact h
            simp only [hinfo, List.map_append]
            rw [if_pos (Or.inl hcur)]
            simp [mkChapter, chapterTL, headingTL, hcur]
          · simp only [hinfo, List.map_append]
            simp [mkChapter, chapterTL, headingTL]
        · rw [if_neg h]
          rw [ih]
          have hinfo : curInfo = none := by
            rcases curInfo with _ | v
            · rfl
            · exact absurd (Or.inl rfl) h
          have hcur : cur = [] := by
            by_contra hc
            exact h (Or.inr hc)
          subst hinfo hcur
          rw [if_neg (show ¬(([] : List Block) ≠ []
              ∨ firstIsContent maxLevel
                  (Block.heading bid blevel btext bmarks :: rest) = true) from by
            simp [firstIsContent, hb])]
          rw [if_neg (show ¬(chapters = [] ∧ (none : Option (PyStr × Nat)) = none
              ∧ ([] : List Block) = []
              ∧ Block.heading bid blevel btext bmarks :: rest = []) from by simp)]
          simp [headingTL]
      · simp [isChapterHeading] at hb
      · simp [isChapterHeading] at hb
      · simp [isChapterHeading] at hb
      · simp [isChapterHeading] at hb
    · rw [if_neg hb]
      rw [ih]
      simp only [List.filter_cons, if_neg hb]
      rcases hinfo : curInfo with _ | ⟨t, l⟩
      · rw [if_pos (show cur ++ [b] ≠ [] ∨ firstIsContent maxLevel rest = true from
            Or.inl (by simp))]
        rw [if_pos (show cur ≠ [] ∨ firstIsContent maxLevel (b :: rest) = true from
            Or.inr (by simp [firstIsContent, hb]))]
        rw [if_neg (show ¬(chapters = [] ∧ (none : Option (PyStr × Nat)) = none
            ∧ cur ++ [b] = [] ∧ rest = []) from by simp)]
        rw [if_neg (show ¬(chapters = [] ∧ (none : Option (PyStr × Nat)) = none
            ∧ cur = [] ∧ b :: rest = []) from by simp)]
      · simp

/-- **C6.** In the chapter builder's output, every chapter that has a
parent points at an earlier chapter whose heading level is strictly
smaller; and the chapters' (title, heading-level) sequence is exactly the
source sequence of chapter headings, preceded by the default chapter when
the document does not begin with a chapter heading — so chapters sharing a
parent appear in the same relative order as their headings do in the
source block sequence. -/
theorem c6_chapter_hierarchy (maxLevel : Nat) (d : PyStr) (blocks : List Block) :
    (∀ c ∈ chapterBuild maxLevel d blocks, ∀ pid, c.parentIdx = some pid →
      ∃ p ∈ chapterBuild maxLevel d blocks,
        p.idx = pid ∧ p.headingLevel < c.headingLevel ∧ pid < c.idx)
    ∧ (chapterBuild maxLevel d blocks).map chapterTL
        = (if blocks = [] ∨ firstIsContent maxLevel blocks then [(d, 1)] else [])
          ++ (blocks.filter (isChapterHeading maxLevel)).map headingTL := by
  constructor
  · intro c hc pid hpid
    exact buildGo_parentGood maxLevel d blocks [] [] none []
      (by simp) (by simp) (by simp) c hc pid hpid
  · unfold chapterBuild
    rw [buildGo_tl]
    rcases blocks with _ | ⟨b, rest⟩
    · simp [firstIsContent]
    · by_cases hb : isChapterHeading maxLevel b
      · simp [firstIsContent, hb]
      · simp [firstIsContent, hb]

/-- A concrete document for the C6 witness: H1 "A", a paragraph, H2 "B",
H2 "C", H3 "D" (below the `max_heading_level` of 2), H1 "E". -/
def c6DemoBlocks : List Block :=
  [Block.heading "h1".toList 1 "A".toList [],
   Block.paragraph "p1".toList "x".toList [] none,
   Block.heading "h2".toList 2 "B".toList [],
   Block.heading "h3".toList 2 "C".toList [],
   Block.heading "h4".toList 3 "D".toList [],
   Block.heading "h5".toList 1 "E".toList []]

/-- Witness for C6: chapter "B" (index 1, level 2) resolves its parent to
an earlier, strictly shallower chapter. -/
theorem c6_chapter_hierarchy_witness :
    ∃ p ∈ chapterBuild 2 "d".toList c6DemoBlocks,
      p.idx = 0
      ∧ p.headingLevel < ChapterData.headingLevel
          { idx := 1, title := "B".toList, headingLevel := 2,
            parentIdx := some 0, content := [] }
      ∧ 0 < ChapterData.idx
          { idx := 1, title := "B".toList, headingLevel := 2,
            parentIdx := some 0, content := [] } :=
  (c6_chapter_hierarchy 2 "d".toList c6DemoBlocks).1
    { idx := 1, title := "B".toList, headingLevel := 2,
      parentIdx := some 0, content := [] }
    (by decide) 0 (by decide)

/-! ## DOCX run building (`parsers/color_parser.py`,
`parsers/length_parser.py`, `parsers/text_formatter.py`,
`block_processors/paragraph.py`, `block_processors/heading.py`)

A `python-docx` run is modelled by the record of the properties the
exporter sets; `None` (property inherited from the style) is `none`. -/

def digitVal (c : Char) : Nat := c.toNat - '0'.toNat

def natOfDigits (l : PyStr) : Nat := l.foldl (fun acc c => acc * 10 + digitVal c) 0

def isHexDigit (c : Char) : Bool :=
  c.isDigit || ('a' ≤ c && c ≤ 'f') || ('A' ≤ c && c ≤ 'F')

def hexDigitVal (c : Char) : Nat :=
  if c.isDigit then digitVal c
  else if 'a' ≤ c && c ≤ 'f' then c.toNat - 'a'.toNat + 10
  else c.toNat - 'A'.toNat + 10

/-- `\d+` at the head of the string, with the remainder. -/
def parseNatPrefix (s : PyStr) : Option (Nat × PyStr) :=
  let d := s.takeWhile Char.isDigit
  if d = [] then none else some (natOfDigits d, s.drop d.length)

/-- The `(\d+),\s*(\d+),\s*(\d+)` argument triple of `rgb(`/`rgba(`. -/
def parseRgbArgs (s : PyStr) : Option (Nat × Nat × Nat × PyStr) :=
  match parseNatPrefix s with
  | none => none
  | some (r, s1) =>
    match s1 with
    | ',' :: s2 =>
      let s3 := s2.dropWhile pyIsSpace
      match parseNatPrefix s3 with
      | none => none
      | some (g, s4) =>
        match s4 with
        | ',' :: s5 =>
          let s6 := s5.dropWhile pyIsSpace
          match parseNatPrefix s6 with
          | none => none
          | some (b, s7) => some (r, g, b, s7)
        | _ => none
    | _ => none

/-- `re.match(r'rgba\((\d+),\s*(\d+),\s*(\d+),\s*[\d.]+\)', s)`. -/
def tryRgba (s : PyStr) : Option (Nat × Nat × Nat) :=
  if ("rgba(".toList).isPrefixOf s then
    match parseRgbArgs (s.drop 5) with
    | some (r, g, b, rest) =>
      match rest with
      | ',' :: s5 =>
        let s6 := s5.dropWhile pyIsSpace
        let a := s6.takeWhile (fun c => c.isDigit || c = '.')
        if a ≠ [] ∧ (s6.drop a.length).head? = some ')' then some (r, g, b)
        else none
      | _ => none
    | none => none
  else none

/-- `parse_color` (`color_parser.py`): anchored hex, `rgb()`, `rgba()`. -/
def parseColor (s : PyStr) : Option (Nat × Nat × Nat) :=
  if s = [] then none
  else
    match s with
    | '#' :: rest =>
      let h := rest.take 6
      if h.length = 6 ∧ h.all isHexDigit then
        some (16 * hexDigitVal (h.getD 0 '0') + hexDigitVal (h.getD 1 '0'),
              16 * hexDigitVal (h.getD 2 '0') + hexDigitVal (h.getD 3 '0'),
              16 * hexDigitVal (h.getD 4 '0') + hexDigitVal (h.getD 5 '0'))
      else none
    | _ =>
      if ("rgb(".toList).isPrefixOf s then
        match parseRgbArgs (s.drop 4) with
        | some (r, g, b, rest) =>
          match rest with
          | ')' :: _ => some (r, g, b)
          | _ => tryRgba s
        | none => tryRgba s
      else tryRgba s

/-- A Python float that arises as a decimal literal possibly scaled by
3/4, kept as an unreduced fraction `num / den` with `den > 0` by
construction (kernel-friendly, unlike normalised rationals). -/
structure PyNum where
  num : Nat
  den : Nat
deriving DecidableEq, Repr

/-- `re.search(r'(\d+(\.\d+)?)', t)`: the first number in the string. -/
def findNumber : PyStr → Option PyNum
  | [] => none
  | c :: rest =>
    if c.isDigit then
      let ip := (c :: rest).takeWhile Char.isDigit
      let after := (c :: rest).drop ip.length
      match after with
      | '.' :: frest =>
        let fp := frest.takeWhile Char.isDigit
        if fp = [] then some ⟨natOfDigits ip, 1⟩
        else some ⟨natOfDigits ip * 10 ^ fp.length + natOfDigits fp, 10 ^ fp.length⟩
      | _ => some ⟨natOfDigits ip, 1⟩
    else findNumber rest

/-- `parse_font_size` (`length_parser.py`) on a string value: lowercase,
strip, find the number, convert px (1px = 0.75pt). -/
def parseFontSize (s : PyStr) : Option PyNum :=
  if s = [] then none
  else
    let t := pyStrip (s.map Char.toLower)
    match findNumber t with
    | none => none
    | some q => if containsSub "px".toList t then some ⟨q.num * 3, q.den * 4⟩ else some q

/-- A `python-docx` run, restricted to the properties the exporter sets. -/
structure Run where
  text : PyStr
  fontName : Option PyStr := none
  eastAsia : Option PyStr := none
  size : Option PyNum := none
  bold : Option Bool := none
  italic : Option Bool := none
  underline : Option Bool := none
  strike : Option Bool := none
  superscript : Option Bool := none
  subscript : Option Bool := none
  color : Option (Nat × Nat × Nat) := none
  background : Option (Nat × Nat × Nat) := none
deriving DecidableEq, Repr

/-- The `default_style` dictionary of `apply_default_style_to_run`. -/
structure DefaultStyle where
  fontSize : Option PyNum := none
  color : Option PyStr := none
  fontFamily : Option PyStr := none
  fontWeight : Option String := none
deriving DecidableEq, Repr

/-- `get_default_font_family()` (`editor_defaults.py`). -/
def defaultFontFamily : PyStr := "Microsoft YaHei".toList

/-- `get_default_font_size_pt()`. -/
def defaultFontSizePt : PyNum := ⟨12, 1⟩

/-- `apply_default_style_to_run`: outside `inherit_paragraph_style` the
editor defaults are stamped; then the optional override style is applied
(a falsy value — `None`, `0`, `""` — is skipped, as by `.get(...)`
truthiness). -/
def applyDefaultStyleToRun (r : Run) (ds : Option DefaultStyle)
    (inherit : Bool) : Run :=
  let r1 :=
    if !inherit then
      { r with fontName := some defaultFontFamily, size := some defaultFontSizePt }
    else r
  match ds with
  | none => r1
  | some d =>
    let r2 :=
      match d.fontSize with
      | some v => if v.num ≠ 0 then { r1 with size := some v } else r1
      | none => r1
    let r3 :=
      match d.color with
      | some c =>
        if c ≠ [] then
          match parseColor c with
          | some rgb => { r2 with color := some rgb }
          | none => r2
        else r2
      | none => r2
    let r4 :=
      match d.fontFamily with
      | some f =>
        if f ≠ [] then { r3 with fontName := some f, eastAsia := some f }
        else r3
      | none => r3
    if d.fontWeight = some "bold" then { r4 with bold := some true } else r4

/-- `mark["type"]` normalised to a list (`raw_type if isinstance(raw_type,
list) else [raw_type]`). -/
def markTypes : Mark → List String
  | .simple n _ => [n]
  | .link _ _ => ["link"]
  | .value n _ _ => [n]
  | .composite ns _ => ns

/-- `mark.get("value", "")`. -/
def markValueStr : Mark → PyStr
  | .value _ v _ => v
  | _ => []

/-- Strip one kind of quote character from both ends (`str.strip(c)`). -/
def stripEnds (c : Char) (l : PyStr) : PyStr :=
  ((l.dropWhile (· = c)).reverse.dropWhile (· = c)).reverse

/-- One `mark_type` case of `apply_marks_to_run`'s inner loop. -/
def applyOneType (r : Run) (m : Mark) (t : String) : Run :=
  if t = "bold" then { r with bold := some true }
  else if t = "italic" then { r with italic := some true }
  else if t = "underline" then { r with underline := some true }
  else if t = "strike" then { r with strike := some true }
  else if t = "superscript" then { r with superscript := some true }
  else if t = "subscript" then { r with subscript := some true }
  else if t = "color" then
    match parseColor (markValueStr m) with
    | some rgb => { r with color := some rgb }
    | none => r
  else if t = "backgroundColor" then
    match parseColor (markValueStr m) with
    | some rgb => { r with background := some rgb }
    | none => r
  else if t = "fontSize" then
    match parseFontSize (markValueStr m) with
    | some sz => if sz.num ≠ 0 then { r with size := some sz } else r
    | none => r
  else if t = "fontFamily" then
    let family := markValueStr m
    if family ≠ [] then
      let f1 := stripEnds '\'' (stripEnds '"' (pyStrip family))
      let f2 :=
        if f1.contains ',' then
          stripEnds '\'' (stripEnds '"' (pyStrip (f1.takeWhile (· ≠ ','))))
        else f1
      { r with fontName := some f2, eastAsia := some f2 }
    else r
  else r

/-- `apply_marks_to_run`. -/
def applyMarksToRun (r : Run) (ms : List Mark) : Run :=
  ms.foldl (fun r m => (markTypes m).foldl (fun r t => applyOneType r m t) r) r

/-- `filter_mark_types` filtering (`m.get("type") not in filter_mark_types`;
a list-typed `type` is never `in` a list of strings). -/
def filterMarks (marks : List Mark) : Option (List String) → List Mark
  | none => marks
  | some fl =>
    marks.filter fun m =>
      match m with
      | .simple n _ => decide (n ∉ fl)
      | .link _ _ => decide ("link" ∉ fl)
      | .value n _ _ => decide (n ∉ fl)
      | .composite _ _ => true

/-- `add_text_with_marks`: one run per segment, default style first, marks
second.  `exporterSegments` already carries both early returns. -/
def addTextWithMarks (text : PyStr) (marks : List Mark) (ds : Option DefaultStyle)
    (filterTypes : Option (List String)) (inherit : Bool) : List Run :=
  (exporterSegments text (filterMarks marks filterTypes)).map fun s =>
    applyMarksToRun
      (applyDefaultStyleToRun { text := pySlice text s.1 s.2.1 } ds inherit)
      s.2.2

/-- The runs `add_heading` emits for the heading's own paragraph: an
optional literal numbering-prefix run, then the marked text with
`inherit_paragraph_style=True` and no default style. -/
def addHeadingRuns (level : Nat) (text : PyStr) (marks : List Mark)
    (gen : Option GenState) (autoNumberingId : Option Nat) : List Run :=
  match autoNumberingId with
  | some _ => addTextWithMarks text marks none none true
  | none =>
    match gen with
    | some g =>
      let numberPrefix := (getNumber g level).1
      (if numberPrefix ≠ "" then [{ text := numberPrefix.toList : Run }] else [])
        ++ addTextWithMarks text marks none none true
    | none => addTextWithMarks text marks none none true

/-- The runs `add_paragraph` emits: `add_text_with_marks(para, text, marks)`
with no default style and `inherit_paragraph_style=False`. -/
def addParagraphRuns (text : PyStr) (marks : List Mark) : List Run :=
  addTextWithMarks text marks none none false

/-- A mark that can touch a run's font name or size: a value mark named
`fontSize` or `fontFamily`. -/
def hasFontMark : Mark → Bool
  | .value n _ _ => n == "fontSize" || n == "fontFamily"
  | _ => false

theorem parseFontSize_nil : parseFontSize [] = none := rfl

theorem parseColor_nil : parseColor [] = none := rfl

/-- A single mark-type application by a non-font mark leaves the run's
font name, east-Asian font and size untouched. -/
theorem applyOneType_font (r : Run) (m : Mark) (t : String)
    (ht : t ∈ markTypes m) (hm : hasFontMark m = false) :
    (applyOneType r m t).fontName = r.fontName ∧
    (applyOneType r m t).size = r.size := by
  have hval : markValueStr m = [] ∨ (t ≠ "fontSize" ∧ t ≠ "fontFamily") := by
    cases m with
    | simple n rng => exact Or.inl rfl
    | link href rng => exact Or.inl rfl
    | composite ns rng => exact Or.inl rfl
    | value n v rng =>
      simp only [markTypes, List.mem_singleton] at ht
      subst ht
      simp only [hasFontMark, Bool.or_eq_false_iff, beq_eq_false_iff_ne] at hm
      exact Or.inr hm
  unfold applyOneType
  by_cases h1 : t = "bold"
  · rw [if_pos h1]; exact ⟨rfl, rfl⟩
  rw [if_neg h1]
  by_cases h2 : t = "italic"
  · rw [if_pos h2]; exact ⟨rfl, rfl⟩
  rw [if_neg h2]
  by_cases h3 : t = "underline"
  · rw [if_pos h3]; exact ⟨rfl, rfl⟩
  rw [if_neg h3]
  by_cases h4 : t = "strike"
  · rw [if_pos h4]; exact ⟨rfl, rfl⟩
  rw [if_neg h4]
  by_cases h5 : t = "superscript"
  · rw [if_pos h5]; exact ⟨rfl, rfl⟩
  rw [if_neg h5]
  by_cases h6 : t = "subscript"
  · rw [if_pos h6]; exact ⟨rfl, rfl⟩
  rw [if_neg h6]
  by_cases h7 : t = "color"
  · rw [if_pos h7]; cases parseColor (markValueStr m) <;> exact ⟨rfl, rfl⟩
  rw [if_neg h7]
  by_cases h8 : t = "backgroundColor"
  · rw [if_pos h8]; cases parseColor (markValueStr m) <;> exact ⟨rfl, rfl⟩
  rw [if_neg h8]
  by_cases h9 : t = "fontSize"
  · rw [if_pos h9]
    rcases hval with hval | hval
    · rw [hval, parseFontSize_nil]
      exact ⟨rfl, rfl⟩
    · exact absurd h9 hval.1
  rw [if_neg h9]
  by_cases h10 : t = "fontFamily"
  · rcases hval with hval | hval
    · rw [if_pos h10, hval]
      exact ⟨rfl, rfl⟩
    · exact absurd h10 hval.2
  rw [if_neg h10]
  exact ⟨rfl, rfl⟩

/-- The inner mark-type fold preserves font name and size for non-font
marks. -/
theorem applyTypes_font (m : Mark) (hm : hasFontMark m = false) :
    ∀ (ts : List String) (r : Run), (∀ t ∈ ts, t ∈ markTypes m) →
      (ts.foldl (fun r t => applyOneType r m t) r).fontName = r.fontName ∧
      (ts.foldl (fun r t => applyOneType r m t) r).size = r.size := by
  intro ts
  induction ts with
  | nil => intro r _; exact ⟨rfl, rfl⟩
  | cons t rest ih =>
    intro r hts
    simp only [List.foldl_cons]
    have h1 := applyOneType_font r m t (hts t (by simp)) hm
    have h2 := ih (applyOneType r m t) (fun u hu => hts u (by simp [hu]))
    exact ⟨h2.1.trans h1.1, h2.2.trans h1.2⟩

/-- `apply_marks_to_run` over non-font marks preserves font name and
size. -/
theorem applyMarksToRun_font (ms : List Mark)
    (h : ∀ m ∈ ms, hasFontMark m = false) :
    ∀ r : Run, (applyMarksToRun r ms).fontName = r.fontName ∧
      (applyMarksToRun r ms).size = r.size := by
  induction ms with
  | nil => intro r; exact ⟨rfl, rfl⟩
  | cons m rest ih =>
    intro r
    show ((m :: rest).foldl (fun r m => (markTypes m).foldl (fun r t => applyOneType r m t) r) r).fontName = _ ∧ _
    rw [List.foldl_cons]
    have h1 := applyTypes_font m (h m (by simp)) (markTypes m) r (fun t ht => ht)
    have h2 := ih (fun m hm => h m (by simp [hm]))
      ((markTypes m).foldl (fun r t => applyOneType r m t) r)
    exact ⟨h2.1.trans h1.1, h2.2.trans h1.2⟩

/-- A run's bold flag becomes `some true` only by an explicit `bold` mark
type. -/
theorem applyOneType_bold (r : Run) (m : Mark) (t : String)
    (h : (applyOneType r m t).bold = some true) :
    r.bold = some true ∨ t = "bold" := by
  unfold applyOneType at h
  by_cases h1 : t = "bold"
  · exact Or.inr h1
  rw [if_neg h1] at h
  by_cases h2 : t = "italic"
  · rw [if_pos h2] at h; exact Or.inl h
  rw [if_neg h2] at h
  by_cases h3 : t = "underline"
  · rw [if_pos h3] at h; exact Or.inl h
  rw [if_neg h3] at h
  by_cases h4 : t = "strike"
  · rw [if_pos h4] at h; exact Or.inl h
  rw [if_neg h4] at h
  by_cases h5 : t = "superscript"
  · rw [if_pos h5] at h; exact Or.inl h
  rw [if_neg h5] at h
  by_cases h6 : t = "subscript"
  · rw [if_pos h6] at h; exact Or.inl h
  rw [if_neg h6] at h
  by_cases h7 : t = "color"
  · rw [if_pos h7] at h
    revert h; cases parseColor (markValueStr m) <;> exact fun h => Or.inl h
  rw [if_neg h7] at h
  by_cases h8 : t = "backgroundColor"
  · rw [if_pos h8] at h
    revert h; cases parseColor (markValueStr m) <;> exact fun h => Or.inl h
  rw [if_neg h8] at h
  by_cases h9 : t = "fontSize"
  · rw [if_pos h9] at h
    rcases hps : parseFontSize (markValueStr m) with _ | sz
    · simp only [hps] at h; exact Or.inl h
    · simp only [hps] at h
      by_cases hz : sz.num ≠ 0
      · rw [if_pos hz] at h; exact Or.inl h
      · rw [if_neg hz] at h; exact Or.inl h
  rw [if_neg h9] at h
  by_cases h10 : t = "fontFamily"
  · rw [if_pos h10] at h
    revert h
    by_cases hf : markValueStr m ≠ []
    · rw [if_pos hf]; exact fun h => Or.inl h
    · rw [if_neg hf]; exact fun h => Or.inl h
  rw [if_neg h10] at h
  exact Or.inl h

/-- A run's colour becomes set only by an explicit `color` mark type. -/
theorem applyOneType_color (r : Run) (m : Mark) (t : String) (c : Nat × Nat × Nat)
    (h : (applyOneType r m t).color = some c) :
    r.color = some c ∨ t = "color" := by
  unfold applyOneType at h
  by_cases h1 : t = "bold"
  · rw [if_pos h1] at h; exact Or.inl h
  rw [if_neg h1] at h
  by_cases h2 : t = "italic"
  · rw [if_pos h2] at h; exact Or.inl h
  rw [if_neg h2] at h
  by_cases h3 : t = "underline"
  · rw [if_pos h3] at h; exact Or.inl h
  rw [if_neg h3] at h
  by_cases h4 : t = "strike"
  · rw [if_pos h4] at h; exact Or.inl h
  rw [if_neg h4] at h
  by_cases h5 : t = "superscript"
  · rw [if_pos h5] at h; exact Or.inl h
  rw [if_neg h5] at h
  by_cases h6 : t = "subscript"
  · rw [if_pos h6] at h; exact Or.inl h
  rw [if_neg h6] at h
  by_cases h7 : t = "color"
  · exact Or.inr h7
  rw [if_neg h7] at h
  by_cases h8 : t = "backgroundColor"
  · rw [if_pos h8] at h
    revert h; cases parseColor (markValueStr m) <;> exact fun h => Or.inl h
  rw [if_neg h8] at h
  by_cases h9 : t = "fontSize"
  · rw [if_pos h9] at h
    rcases hps : parseFontSize (markValueStr m) with _ | sz
    · simp only [hps] at h; exact Or.inl h
    · simp only [hps] at h
      by_cases hz : sz.num ≠ 0
      · rw [if_pos hz] at h; exact Or.inl h
      · rw [if_neg hz] at h; exact Or.inl h
  rw [if_neg h9] at h
  by_cases h10 : t = "fontFamily"
  · rw [if_pos h10] at h
    revert h
    by_cases hf : markValueStr m ≠ []
    · rw [if_pos hf]; exact fun h => Or.inl h
    · rw [if_neg hf]; exact fun h => Or.inl h
  rw [if_neg h10] at h
  exact Or.inl h

/-- Bold provenance through the inner mark-type fold. -/
theorem applyTypes_bold (m : Mark) :
    ∀ (ts : List String) (r : Run),
      (ts.foldl (fun r t => applyOneType r m t) r).bold = some true →
      r.bold = some true ∨ "bold" ∈ ts := by
  intro ts
  induction ts with
  | nil => intro r h; exact Or.inl h
  | cons t rest ih =>
    intro r h
    rw [List.foldl_cons] at h
    rcases ih (applyOneType r m t) h with h' | h'
    · rcases applyOneType_bold r m t h' with h'' | h''
      · exact Or.inl h''
      · exact Or.inr (by simp [h''])
    · exact Or.inr (by simp [h'])

/-- Colour provenance through the inner mark-type fold. -/
theorem applyTypes_color (m : Mark) (c : Nat × Nat × Nat) :
    ∀ (ts : List String) (r : Run),
      (ts.foldl (fun r t => applyOneType r m t) r).color = some c →
      r.color = some c ∨ "color" ∈ ts := by
  intro ts
  induction ts with
  | nil => intro r h; exact Or.inl h
  | cons t rest ih =>
    intro r h
    rw [List.foldl_cons] at h
    rcases ih (applyOneType r m t) h with h' | h'
    · rcases applyOneType_color r m t c h' with h'' | h''
      · exact Or.inl h''
      · exact Or.inr (by simp [h''])
    · exact Or.inr (by simp [h'])

/-- Bold provenance through `apply_marks_to_run`. -/
theorem applyMarksToRun_bold (ms : List Mark) :
    ∀ r : Run, (applyMarksToRun r ms).bold = some true →
      r.bold = some true ∨ ∃ m ∈ ms, "bold" ∈ markTypes m := by
  induction ms with
  | nil => intro r h; exact Or.inl h
  | cons m rest ih =>
    intro r h
    show _ ∨ _
    rw [show applyMarksToRun r (m :: rest) =
        applyMarksToRun ((markTypes m).foldl (fun r t => applyOneType r m t) r) rest
      from rfl] at h
    rcases ih _ h with h' | h'
    · rcases applyTypes_bold m (markTypes m) r h' with h'' | h''
      · exact Or.inl h''
      · exact Or.inr ⟨m, by simp, h''⟩
    · obtain ⟨m', hm', ht⟩ := h'
      exact Or.inr ⟨m', by simp [hm'], ht⟩

/-- Colour provenance through `apply_marks_to_run`. -/
theorem applyMarksToRun_color (ms : List Mark) (c : Nat × Nat × Nat) :
    ∀ r : Run, (applyMarksToRun r ms).color = some c →
      r.color = some c ∨ ∃ m ∈ ms, "color" ∈ markTypes m := by
  induction ms with
  | nil => intro r h; exact Or.inl h
  | cons m rest ih =>
    intro r h
    rw [show applyMarksToRun r (m :: rest) =
        applyMarksToRun ((markTypes m).foldl (fun r t => applyOneType r m t) r) rest
      from rfl] at h
    rcases ih _ h with h' | h'
    · rcases applyTypes_color m c (markTypes m) r h' with h'' | h''
      · exact Or.inl h''
      · exact Or.inr ⟨m, by simp, h''⟩
    · obtain ⟨m', hm', ht⟩ := h'
      exact Or.inr ⟨m', by simp [hm'], ht⟩

/-- Membership in `char_marks[j]` unpacked. -/
theorem charMarksAt_mem {marks : List Mark} {len j : Nat} {m : Mark}
    (h : m ∈ charMarksAt marks len j) :
    m ∈ marks ∧ m.rng.1 ≤ j ∧ j < m.rng.2 := by
  obtain ⟨h1, h2⟩ := List.mem_filter.mp h
  rw [decide_eq_true_eq] at h2
  exact ⟨h1, h2.1, lt_of_lt_of_le h2.2 (min_le_left _ _)⟩

theorem applyDefault_none_true (r : Run) :
    applyDefaultStyleToRun r none true = r := rfl

theorem applyDefault_none_false (r : Run) :
    applyDefaultStyleToRun r none false =
      { r with fontName := some defaultFontFamily, size := some defaultFontSizePt } := rfl

/-- Every mark recorded on a segment is an author mark covering every
position of that segment. -/
theorem segMarks_cover (text : PyStr) (marks : List Mark) :
    ∀ s ∈ exporterSegments text marks, ∀ m ∈ s.2.2,
      m ∈ marks ∧ ∀ j, s.1 ≤ j → j < s.2.1 → m.rng.1 ≤ j ∧ j < m.rng.2 := by
  intro s hs m hm
  have hprops := exporterSegments_props text marks
  have hlt : s.1 < s.2.1 := hprops.2.1 s hs
  have hj0 : charMarksAt marks text.length s.1 = s.2.2 :=
    hprops.2.2.2.2 s hs s.1 le_rfl hlt
  refine ⟨(charMarksAt_mem (by rw [hj0]; exact hm)).1, ?_⟩
  intro j h1 h2
  have hj : charMarksAt marks text.length j = s.2.2 := hprops.2.2.2.2 s hs j h1 h2
  exact (charMarksAt_mem (by rw [hj]; exact hm)).2

/-- The inherit-style text runs (no default style) carry no explicit font
name or size when no font mark is present. -/
theorem addTextWithMarks_inherit_font (text : PyStr) (marks : List Mark)
    (hfont : ∀ m ∈ marks, hasFontMark m = false) :
    ∀ r ∈ addTextWithMarks text marks none none true,
      r.fontName = none ∧ r.size = none := by
  intro r hr
  obtain ⟨s, hs, rfl⟩ := List.mem_map.mp hr
  have hs' : s ∈ exporterSegments text marks := hs
  have hmf : ∀ m ∈ s.2.2, hasFontMark m = false :=
    fun m hm => hfont m (segMarks_cover text marks s hs' m hm).1
  have hpres := applyMarksToRun_font s.2.2 hmf
    (applyDefaultStyleToRun { text := pySlice text s.1 s.2.1 } none true)
  exact ⟨hpres.1, hpres.2⟩

/-- **C7.** Exporting a Heading block produces runs with no explicit font
name and no explicit font size (they inherit the configured level's style
template), in every numbering mode, provided the author marks contain no
`fontSize`/`fontFamily` value mark; explicit run-level bold or colour
appears on a heading run only when an author mark with that type covers
every position of that run's sub-range; exporting a Paragraph block
instead stamps the explicit editor-default font name and size on every
run. -/
theorem c7_heading_paragraph_fonts (level : Nat) (text : PyStr) (marks : List Mark)
    (gen : Option GenState) (auto : Option Nat)
    (hfont : ∀ m ∈ marks, hasFontMark m = false) :
    (∀ r ∈ addHeadingRuns level text marks gen auto,
        r.fontName = none ∧ r.size = none)
    ∧ (∀ s ∈ exporterSegments text marks,
        ((applyMarksToRun
            (applyDefaultStyleToRun { text := pySlice text s.1 s.2.1 } none true)
            s.2.2).bold = some true →
          ∃ m ∈ marks, "bold" ∈ markTypes m ∧
            ∀ j, s.1 ≤ j → j < s.2.1 → m.rng.1 ≤ j ∧ j < m.rng.2)
        ∧ (∀ c, (applyMarksToRun
            (applyDefaultStyleToRun { text := pySlice text s.1 s.2.1 } none true)
            s.2.2).color = some c →
          ∃ m ∈ marks, "color" ∈ markTypes m ∧
            ∀ j, s.1 ≤ j → j < s.2.1 → m.rng.1 ≤ j ∧ j < m.rng.2))
    ∧ (∀ r ∈ addParagraphRuns text marks,
        r.fontName = some defaultFontFamily ∧ r.size = some defaultFontSizePt) := by
  refine ⟨?_, ?_, ?_⟩
  · intro r hr
    unfold addHeadingRuns at hr
    cases auto with
    | some a => exact addTextWithMarks_inherit_font text marks hfont r hr
    | none =>
      cases gen with
      | some g =>
        rcases List.mem_append.mp hr with hl | hrr
        · by_cases hp : (getNumber g level).1 ≠ ""
          · rw [if_pos hp] at hl
            rcases List.mem_singleton.mp hl with rfl
            exact ⟨rfl, rfl⟩
          · rw [if_neg hp] at hl
            exact absurd hl (List.not_mem_nil r)
        · exact addTextWithMarks_inherit_font text marks hfont r hrr
      | none => exact addTextWithMarks_inherit_font text marks hfont r hr
  · intro s hs
    have hbase_bold :
        (applyDefaultStyleToRun { text := pySlice text s.1 s.2.1 } none true : Run).bold
          = none := rfl
    have hbase_color :
        (applyDefaultStyleToRun { text := pySlice text s.1 s.2.1 } none true : Run).color
          = none := rfl
    constructor
    · intro hb
      rcases applyMarksToRun_bold s.2.2 _ hb with h | ⟨m, hm, ht⟩
      · rw [hbase_bold] at h
        exact Option.noConfusion h
      · obtain ⟨hmem, hcov⟩ := segMarks_cover text marks s hs m hm
        exact ⟨m, hmem, ht, hcov⟩
    · intro c hc
      rcases applyMarksToRun_color s.2.2 c _ hc with h | ⟨m, hm, ht⟩
      · rw [hbase_color] at h
        exact Option.noConfusion h
      · obtain ⟨hmem, hcov⟩ := segMarks_cover text marks s hs m hm
        exact ⟨m, hmem, ht, hcov⟩
  · intro r hr
    obtain ⟨s, hs, rfl⟩ := List.mem_map.mp hr
    have hs' : s ∈ exporterSegments text marks := hs
    have hmf : ∀ m ∈ s.2.2, hasFontMark m = false :=
      fun m hm => hfont m (segMarks_cover text marks s hs' m hm).1
    have hpres := applyMarksToRun_font s.2.2 hmf
      (applyDefaultStyleToRun { text := pySlice text s.1 s.2.1 } none false)
    exact ⟨hpres.1, hpres.2⟩

/-- Witness: a level-1 heading `"abcd"` with a bold mark and a red colour
mark on (0,2) satisfies the no-font-mark proviso, its runs carry no
explicit font name/size, and the concrete runs show explicit bold and red
only on the marked sub-range. -/
theorem c7_heading_paragraph_fonts_witness :
    (∀ m ∈ [Mark.simple "bold" (0, 2), Mark.value "color" "#ff0000".toList (0, 2)],
        hasFontMark m = false)
    ∧ (∀ r ∈ addHeadingRuns 1 "abcd".toList
          [Mark.simple "bold" (0, 2), Mark.value "color" "#ff0000".toList (0, 2)]
          none none,
        r.fontName = none ∧ r.size = none)
    ∧ addHeadingRuns 1 "abcd".toList
          [Mark.simple "bold" (0, 2), Mark.value "color" "#ff0000".toList (0, 2)]
          none none =
        [{ text := "ab".toList, bold := some true, color := some (255, 0, 0) },
         { text := "cd".toList }] :=
  ⟨by decide,
   (c7_heading_paragraph_fonts 1 "abcd".toList
      [Mark.simple "bold" (0, 2), Mark.value "color" "#ff0000".toList (0, 2)]
      none none (by decide)).1,
   by decide⟩

/-! ## DOCX export control flow (`docx_exporter/exporter.py`)

`DocxExporter.__init__` runs `apply_page_margins`, numbering setup and
`configure_heading_styles` with no exception handler, so an exception
there propagates to the caller; `export()` wraps the whole body in a
`try` that logs and re-raises, and wraps each `_process_block(block)`
in an inner `try` that logs and appends a red error-placeholder
paragraph instead.  Exceptions are modelled by `Except String`; the
per-block processor and the final `doc.save` are arbitrary fallible
functions of the initialised state. -/

/-- The fields of a block dictionary the export loop itself reads:
`block.get("type")` (the payload distinguishes blocks). -/
structure BlockJson where
  btype : Option String
  payload : Nat := 0
deriving DecidableEq, Repr

/-- An element appended to the Word document: a paragraph with an
optional font colour, or an opaque element produced by a processor. -/
inductive DocElem where
  | para (text : String) (color : Option (Nat × Nat × Nat))
  | elem (id : Nat)
deriving DecidableEq, Repr

/-- The error placeholder paragraph appended when one block fails:
red text of the form `[导出错误: <type>]` with `<type>` defaulting to
`unknown`. -/
def errorPlaceholder (b : BlockJson) : DocElem :=
  .para ("[导出错误: " ++ b.btype.getD "unknown" ++ "]") (some (255, 0, 0))

/-- The per-block loop of `export()`, with the document passed as an
explicit accumulator: a failing block contributes `errorPlaceholder`
and the loop continues. -/
def processBlocksLoop (proc : BlockJson → Except String (List DocElem)) :
    List BlockJson → List DocElem → List DocElem
  | [], doc => doc
  | b :: rest, doc =>
    match proc b with
    | .ok es => processBlocksLoop proc rest (doc ++ es)
    | .error _ => processBlocksLoop proc rest (doc ++ [errorPlaceholder b])

/-- The full construct-then-export pipeline: `__init__` (uncaught, so an
init error propagates), the per-block loop, then `doc.save` whose error
the outer handler re-raises unchanged. -/
def docxExport {St : Type} (init : Except String St)
    (proc : St → BlockJson → Except String (List DocElem))
    (save : St → List DocElem → Except String (List DocElem))
    (blocks : List BlockJson) : Except String (List DocElem) :=
  match init with
  | .error e => .error e
  | .ok st =>
    match save st (processBlocksLoop (proc st) blocks []) with
    | .ok out => .ok out
    | .error e => .error e

/-- The accumulator of the block loop factors out. -/
theorem processBlocksLoop_eq (proc : BlockJson → Except String (List DocElem)) :
    ∀ (blocks : List BlockJson) (doc : List DocElem),
      processBlocksLoop proc blocks doc =
        doc ++ blocks.flatMap fun b =>
          match proc b with
          | .ok es => es
          | .error _ => [errorPlaceholder b] := by
  intro blocks
  induction blocks with
  | nil => intro doc; simp [processBlocksLoop]
  | cons b rest ih =>
    intro doc
    rw [List.flatMap_cons]
    cases hp : proc b with
    | ok es =>
      have hstep : processBlocksLoop proc (b :: rest) doc =
          processBlocksLoop proc rest (doc ++ es) := by
        rw [processBlocksLoop, hp]
      rw [hstep, ih]
      simp [List.append_assoc]
    | error e =>
      have hstep : processBlocksLoop proc (b :: rest) doc =
          processBlocksLoop proc rest (doc ++ [errorPlaceholder b]) := by
        rw [processBlocksLoop, hp]
      rw [hstep, ih]
      simp [List.append_assoc]

/-- **C8.** An initialisation failure (before any block is processed)
propagates verbatim to the caller; with initialisation succeeded, the
export output is each block's own output with every failing block
replaced by the visible red error placeholder — in particular a failing
block in the middle still lets every remaining block be processed. -/
theorem c8_export_error_absorption {St : Type} (init : Except String St)
    (proc : St → BlockJson → Except String (List DocElem))
    (save : St → List DocElem → Except String (List DocElem))
    (blocks : List BlockJson) :
    (∀ e, init = .error e → docxExport init proc save blocks = .error e)
    ∧ (∀ st, init = .ok st →
        docxExport init proc save blocks =
          save st (blocks.flatMap fun b =>
            match proc st b with
            | .ok es => es
            | .error _ => [errorPlaceholder b]))
    ∧ (∀ st bs1 b bs2 e, proc st b = .error e →
        processBlocksLoop (proc st) (bs1 ++ b :: bs2) [] =
          processBlocksLoop (proc st) bs1 []
            ++ errorPlaceholder b :: processBlocksLoop (proc st) bs2 []) := by
  refine ⟨?_, ?_, ?_⟩
  · intro e he
    subst he
    rfl
  · intro st hst
    subst hst
    have h1 : processBlocksLoop (proc st) blocks [] =
        blocks.flatMap (fun b =>
          match proc st b with
          | .ok es => es
          | .error _ => [errorPlaceholder b]) := by
      rw [processBlocksLoop_eq]
      rfl
    show (match save st (processBlocksLoop (proc st) blocks []) with
          | .ok out => Except.ok out
          | .error e => Except.error e) = _
    rw [h1]
    cases hsave : save st (blocks.flatMap fun b =>
        match proc st b with
        | .ok es => es
        | .error _ => [errorPlaceholder b]) <;> rfl
  · intro st bs1 b bs2 e hpb
    rw [processBlocksLoop_eq, processBlocksLoop_eq, processBlocksLoop_eq,
      List.flatMap_append, List.flatMap_cons, hpb]
    simp

/-- A three-block demo content: a paragraph, an image whose processing
fails, and another paragraph. -/
def c8DemoBlocks : List BlockJson :=
  [⟨some "paragraph", 1⟩, ⟨some "image", 2⟩, ⟨some "paragraph", 3⟩]

/-- A demo processor that fails exactly on image blocks. -/
def c8DemoProc : Unit → BlockJson → Except String (List DocElem) :=
  fun _ b =>
    match b.btype with
    | some "image" => .error "cannot open image"
    | _ => .ok [DocElem.elem b.payload]

/-- A demo save that returns the accumulated document. -/
def c8DemoSave : Unit → List DocElem → Except String (List DocElem) :=
  fun _ es => .ok es

/-- Witness: a malformed-settings init error propagates verbatim, and
with init succeeded, the failing image block in position 2 becomes the
red placeholder while blocks 1 and 3 are still exported. -/
theorem c8_export_error_absorption_witness :
    docxExport (Except.error "malformed settings") c8DemoProc c8DemoSave c8DemoBlocks
        = Except.error "malformed settings"
    ∧ docxExport (Except.ok ()) c8DemoProc c8DemoSave c8DemoBlocks
        = Except.ok [DocElem.elem 1,
            DocElem.para "[导出错误: image]" (some (255, 0, 0)),
            DocElem.elem 3] :=
  ⟨(c8_export_error_absorption (Except.error "malformed settings")
      c8DemoProc c8DemoSave c8DemoBlocks).1 "malformed settings" rfl,
   ((c8_export_error_absorption (Except.ok ())
      c8DemoProc c8DemoSave c8DemoBlocks).2.1 () rfl).trans (by rfl)⟩

/-! ## Table rendering (`utils/table_renderer.py`)

String-level embedding of `TableRenderer._render_row` / `_render_cell`
and the helpers they call. -/

/-- `html.escape` with default quoting, character by character. -/
def htmlEscape (s : PyStr) : PyStr :=
  s.flatMap fun c =>
    if c = '&' then "&amp;".toList
    else if c = '<' then "&lt;".toList
    else if c = '>' then "&gt;".toList
    else if c = '"' then "&quot;".toList
    else if c = '\'' then "&#x27;".toList
    else [c]

/-- `sep.join(parts)`. -/
def joinSep (sep : PyStr) : List PyStr → PyStr
  | [] => []
  | [x] => x
  | x :: xs => x ++ sep ++ joinSep sep xs

/-- `self.cell_map.get((row, col))`: a dict comprehension keyed by
`cell.cell`, so a later duplicate overwrites an earlier one. -/
def cellMapGet (cells : List TableCellData) (pos : Nat × Nat) : Option TableCellData :=
  cells.reverse.find? fun c => decide (c.cell = pos)

/-- `(row, col) in self.merged_cells` (`_build_merged_cells_set`): inside
some region's inclusive start–end rectangle and not that region's master
cell. -/
def inMergedCells (regions : List MergeRegion) (p : Nat × Nat) : Bool :=
  regions.any fun reg =>
    decide (reg.start.1 ≤ p.1 ∧ p.1 ≤ reg.stop.1 ∧ reg.start.2 ≤ p.2 ∧ p.2 ≤ reg.stop.2
      ∧ (p.1 ≠ reg.masterCell.1 ∨ p.2 ≠ reg.masterCell.2))

/-- `_get_span`: the first region whose master cell is `(r, c)` gives the
spans, else `(1, 1)`. -/
def getSpan (regions : List MergeRegion) (r c : Nat) : Nat × Nat :=
  match regions.find? (fun reg => decide (reg.masterCell = (r, c))) with
  | some reg => (reg.stop.1 - reg.start.1 + 1, reg.stop.2 - reg.start.2 + 1)
  | none => (1, 1)

/-- The boundary points of the table renderer's `_apply_marks`: unlike
the wangeditor renderer it inserts raw mark ends without clipping. -/
def trBoundaryPoints (len : Nat) (marks : List Mark) : List Nat :=
  marks.foldl
    (fun acc m => insertSortedDedup m.rng.2 (insertSortedDedup m.rng.1 acc))
    (insertSortedDedup len [0])

def isSimpleMark : Mark → Bool
  | .simple _ _ => true
  | _ => false

def isValueMark : Mark → Bool
  | .value _ _ _ => true
  | _ => false

/-- One `SimpleMark` tag wrap of the table renderer's `_apply_marks`. -/
def simpleWrap (m : Mark) (cur : PyStr) : PyStr :=
  match m with
  | .simple n _ =>
    if n = "bold" then "<strong>".toList ++ cur ++ "</strong>".toList
    else if n = "italic" then "<em>".toList ++ cur ++ "</em>".toList
    else if n = "underline" then "<u>".toList ++ cur ++ "</u>".toList
    else if n = "strike" then "<s>".toList ++ cur ++ "</s>".toList
    else if n = "superscript" then "<sup>".toList ++ cur ++ "</sup>".toList
    else if n = "subscript" then "<sub>".toList ++ cur ++ "</sub>".toList
    else cur
  | _ => cur

/-- The CSS declaration a `ValueMark` contributes in the table renderer's
`_apply_marks`. -/
def valueStyleOf (m : Mark) : List PyStr :=
  match m with
  | .value n v _ =>
    if n = "color" then ["color: ".toList ++ v]
    else if n = "backgroundColor" then ["background-color: ".toList ++ v]
    else if n = "fontSize" then ["font-size: ".toList ++ v]
    else if n = "fontFamily" then ["font-family: ".toList ++ v]
    else []
  | _ => []

/-- One boundary segment of the table renderer's `_apply_marks`. -/
def trApplyMarksSegment (text : PyStr) (marks : List Mark) (se : Nat × Nat) : PyStr :=
  let segment := htmlEscape (pySlice text se.1 se.2)
  if segment = [] then []
  else
    let active := marks.filter fun m => decide (m.rng.1 ≤ se.1 ∧ se.2 ≤ m.rng.2)
    let simples := active.filter isSimpleMark
    let values := active.filter isValueMark
    let cur := simples.reverse.foldl (fun cur m => simpleWrap m cur) segment
    if values ≠ [] then
      let styles := values.flatMap valueStyleOf
      if styles ≠ [] then
        "<span style=\"".toList ++ joinSep "; ".toList styles ++ ";\">".toList
          ++ cur ++ "</span>".toList
      else cur
    else cur

/-- `TableRenderer._apply_marks`. -/
def trApplyMarks (text : PyStr) (marks : List Mark) : PyStr :=
  if marks = [] then htmlEscape text
  else
    ((adjPairs (trBoundaryPoints text.length marks)).map
      (trApplyMarksSegment text marks)).flatten

/-- The cell-style dictionary entries `_render_cell` reads (presence of a
key, not truthiness, is what the source tests). -/
structure CellStyles where
  textAlign : Option PyStr := none
  verticalAlign : Option PyStr := none
  fontFamily : Option PyStr := none
  fontSize : Option PyStr := none
  fontWeight : Option PyStr := none
  color : Option PyStr := none
  backgroundColor : Option PyStr := none
deriving DecidableEq, Repr

/-- `if cell_styles:` — a dict is truthy when it has at least one key. -/
def cellStylesNonempty (cs : CellStyles) : Bool :=
  cs.textAlign.isSome || cs.verticalAlign.isSome || cs.fontFamily.isSome
    || cs.fontSize.isSome || cs.fontWeight.isSome || cs.color.isSome
    || cs.backgroundColor.isSome

/-- The styleId-driven style parts, in source order. -/
def cellStyleParts (cs : CellStyles) : List PyStr :=
  (match cs.textAlign with
   | some v => ["text-align: ".toList ++ v]
   | none => [])
  ++ (match cs.verticalAlign with
      | some v => ["vertical-align: ".toList ++ v]
      | none => [])
  ++ (match cs.fontFamily with
      | some v => ["font-family: ".toList ++ v]
      | none => [])
  ++ (match cs.fontSize with
      | some v => ["font-size: ".toList ++ v ++ "px".toList]
      | none => [])
  ++ (match cs.fontWeight with
      | some v => ["font-weight: ".toList ++ v]
      | none => [])
  ++ (match cs.color with
      | some v => ["color: ".toList ++ v]
      | none => [])
  ++ (match cs.backgroundColor with
      | some v => ["background-color: ".toList ++ v]
      | none => [])

def lookupNat (l : List (Nat × PyStr)) (k : Nat) : Option PyStr :=
  (l.find? fun p => decide (p.1 = k)).map (·.2)

def lookupStyle (l : List (PyStr × CellStyles)) (k : PyStr) : Option CellStyles :=
  (l.find? fun p => decide (p.1 = k)).map (·.2)

/-- `TableRenderer._render_cell`: a coordinate with no cell entry renders
as the literal `<td></td>`; otherwise the full tag with span, width and
style attributes is built, `th` on row 0 and `td` elsewhere. -/
def renderCell (data : TableData) (colWidths : List (Nat × PyStr))
    (styleMap : List (PyStr × CellStyles)) (row col : Nat) : PyStr :=
  match cellMapGet data.cells (row, col) with
  | none => "<td></td>".toList
  | some cellData =>
    let formatted := trApplyMarks cellData.content.text cellData.content.marks
    let span := getSpan data.mergeRegions row col
    let attrs :=
      (if span.1 > 1 then
        ["rowSpan=\"".toList ++ (toString span.1).toList ++ "\"".toList]
       else [])
      ++ (if span.2 > 1 then
        ["colSpan=\"".toList ++ (toString span.2).toList ++ "\"".toList]
       else [])
      ++ [match lookupNat colWidths col with
          | some w => "width=\"".toList ++ w ++ "\"".toList
          | none => "width=\"auto\"".toList]
    let styleParts :=
      ["border: 1px solid #ddd".toList, "padding: 8px".toList]
      ++ (match cellData.styleId with
          | some sid =>
            if sid ≠ [] then
              match lookupStyle styleMap sid with
              | some cs => if cellStylesNonempty cs then cellStyleParts cs else []
              | none => []
            else []
          | none => [])
    let attrs' :=
      attrs ++ (if styleParts ≠ [] then
        ["style=\"".toList ++ joinSep "; ".toList styleParts ++ "\"".toList]
       else [])
    let tag := if row = 0 then "th".toList else "td".toList
    let attrsStr := if attrs' ≠ [] then ' ' :: joinSep " ".toList attrs' else []
    "<".toList ++ tag ++ attrsStr ++ ">".toList ++ formatted
      ++ "</".toList ++ tag ++ ">".toList

/-- The cell strings `_render_row` collects for one row: merged
coordinates are skipped, and a rendered cell is appended when non-empty
(`if cell_html:`). -/
def renderRowCells (data : TableData) (colWidths : List (Nat × PyStr))
    (styleMap : List (PyStr × CellStyles)) (row : Nat) : List PyStr :=
  (List.range data.cols).foldl
    (fun acc col =>
      if inMergedCells data.mergeRegions (row, col) then acc
      else if renderCell data colWidths styleMap row col ≠ [] then
        acc ++ [renderCell data colWidths styleMap row col]
      else acc)
    []

/-- `TableRenderer._render_row` joins the collected cells. -/
def renderRow (data : TableData) (colWidths : List (Nat × PyStr))
    (styleMap : List (PyStr × CellStyles)) (row : Nat) : PyStr :=
  joinSep "\n    ".toList (renderRowCells data colWidths styleMap row)

/-- `_render_cell` never produces the empty string. -/
theorem renderCell_ne_nil (data : TableData) (colWidths : List (Nat × PyStr))
    (styleMap : List (PyStr × CellStyles)) (row col : Nat) :
    renderCell data colWidths styleMap row col ≠ [] := by
  unfold renderCell
  cases cellMapGet data.cells (row, col) with
  | none => simp
  | some cd => exact List.cons_ne_nil _ _

/-- **C10.** Rendering a table row is total on arbitrary `TableData`,
including data violating the coverage invariant: `_render_cell` never
returns an empty string, the row's emitted cells are exactly one per
in-range column coordinate not claimed as a merged (non-master) cell, in
column order, and a coordinate with no entry in the cells list renders
as the literal empty `<td></td>`. -/
theorem c10_table_render_totality (data : TableData)
    (colWidths : List (Nat × PyStr)) (styleMap : List (PyStr × CellStyles))
    (row : Nat) :
    (∀ col, renderCell data colWidths styleMap row col ≠ [])
    ∧ renderRowCells data colWidths styleMap row
        = ((List.range data.cols).filter
            (fun c => !inMergedCells data.mergeRegions (row, c))).map
            (renderCell data colWidths styleMap row)
    ∧ (∀ col, cellMapGet data.cells (row, col) = none →
        renderCell data colWidths styleMap row col = "<td></td>".toList) := by
  refine ⟨fun col => renderCell_ne_nil data colWidths styleMap row col, ?_, ?_⟩
  · unfold renderRowCells
    suffices h : ∀ (l : List Nat) (acc : List PyStr),
        l.foldl
          (fun acc col =>
            if inMergedCells data.mergeRegions (row, col) then acc
            else if renderCell data colWidths styleMap row col ≠ [] then
              acc ++ [renderCell data colWidths styleMap row col]
            else acc)
          acc
          = acc ++ (l.filter fun c => !inMergedCells data.mergeRegions (row, c)).map
              (renderCell data colWidths styleMap row) by
      have := h (List.range data.cols) []
      simpa using this
    intro l
    induction l with
    | nil => intro acc; simp
    | cons c rest ih =>
      intro acc
      simp only [List.foldl_cons, List.filter_cons]
      by_cases hm : inMergedCells data.mergeRegions (row, c) = true
      · rw [if_pos hm, ih]
        simp [hm]
      · have hm' : inMergedCells data.mergeRegions (row, c) = false := by
          revert hm; cases inMergedCells data.mergeRegions (row, c) <;> simp
        rw [if_neg hm, if_pos (renderCell_ne_nil data colWidths styleMap row c), ih]
        simp [hm', List.append_assoc]
  · intro col hmiss
    unfold renderCell
    rw [hmiss]

/-- A 2×2 table whose cells list only contains the entry at `(0, 0)` —
the coverage invariant is violated at `(0, 1)`, `(1, 0)` and `(1, 1)`. -/
def c10DemoTable : TableData :=
  { rows := 2, cols := 2,
    cells := [⟨(0, 0), ⟨"A".toList, []⟩, none⟩],
    mergeRegions := [] }

/-- Witness: coordinate `(1, 1)` has no cell entry and renders as the
empty `<td></td>`, and row 1 emits exactly one cell per coordinate. -/
theorem c10_table_render_totality_witness :
    cellMapGet c10DemoTable.cells (1, 1) = none
    ∧ renderCell c10DemoTable [] [] 1 1 = "<td></td>".toList
    ∧ renderRowCells c10DemoTable [] [] 1
        = ["<td></td>".toList, "<td></td>".toList] :=
  ⟨by decide,
   (c10_table_render_totality c10DemoTable [] [] 1).2.2 1 (by decide),
   ((c10_table_render_totality c10DemoTable [] [] 1).2.1).trans (by decide)⟩

/-! ## Table parsing (`utils/table_parser.py`)

The HTML input is modelled at the level `TableParser` reads it: a list
of rows, each a list of cells carrying their `rowspan`/`colspan`
attributes (`int(cell.get(..., 1))`) and their extracted content.
The occupancy matrix is modelled by the list of claimed coordinates
(`occupancy[r][c] = True` is membership; re-claiming an already claimed
coordinate is idempotent in the matrix and harmless as membership).
The state additionally carries a ghost placement `log` and a ghost `ok`
flag used only for verification: `ok` records that no row was cut short
by the `col_idx >= self.cols` break, all spans were positive, and no
claimed footprint overlapped an already claimed coordinate. -/

structure HCell where
  rowspan : Nat := 1
  colspan : Nat := 1
  content : TableCellContent := ⟨[], []⟩
deriving DecidableEq, Repr

/-- One placement of `_parse_row` (ghost log entry). -/
structure PEntry where
  row : Nat
  col : Nat
  rs : Nat
  cs : Nat
  content : TableCellContent
deriving DecidableEq, Repr

structure PState where
  cells : List TableCellData
  regions : List MergeRegion
  occ : List (Nat × Nat)
  log : List PEntry
  ok : Bool
deriving DecidableEq, Repr

/-- `_calculate_dimensions`: the maximum over rows of the row's total
colspan. -/
def calcCols (rowsData : List (List HCell)) : Nat :=
  rowsData.foldl (fun m r => max m (r.foldl (fun s c => s + c.colspan) 0)) 0

/-- The grid coordinates a placement claims:
`range(row, min(row+rowspan, rows)) × range(col, min(col+colspan, cols))`. -/
def footprint (rows cols row col rs cs : Nat) : List (Nat × Nat) :=
  List.product (List.range' row (min (row + rs) rows - row))
    (List.range' col (min (col + cs) cols - col))

/-- `_get_merge_type`. -/
def mergeTypeOf (rs cs : Nat) : String :=
  if rs = 1 ∧ cs > 1 then "horizontal"
  else if rs > 1 ∧ cs = 1 then "vertical"
  else "rectangular"

/-- The `while col_idx < self.cols and occupancy[row_idx][col_idx]` skip,
with the remaining distance to `cols` as structural fuel. -/
def skipOccupied (occ : List (Nat × Nat)) (row : Nat) : Nat → Nat → Nat
  | 0, col => col
  | fuel + 1, col =>
    if (row, col) ∈ occ then skipOccupied occ row fuel (col + 1) else col

/-- The region emitted for a spanning placement: note the `end`
coordinate `(row+rowspan-1, col+colspan-1)` is not clipped to the grid. -/
def entryRegion (e : PEntry) : List MergeRegion :=
  if e.rs > 1 ∨ e.cs > 1 then
    [⟨("merge-" ++ toString e.row ++ "-" ++ toString e.col).toList,
      (e.row, e.col), (e.row + e.rs - 1, e.col + e.cs - 1), (e.row, e.col),
      mergeTypeOf e.rs e.cs⟩]
  else []

/-- The `TableCellData` a placement appends (`styleId` is not set). -/
def entryCell (e : PEntry) : TableCellData :=
  ⟨(e.row, e.col), e.content, none⟩

def entryFp (rows cols : Nat) (e : PEntry) : List (Nat × Nat) :=
  footprint rows cols e.row e.col e.rs e.cs

/-- The cell loop of `TableParser._parse_row`. -/
def parseRowGo (rows cols row : Nat) :
    List HCell → Nat → PState → PState
  | [], _, st => st
  | cell :: rest, col, st =>
    let col' := skipOccupied st.occ row (cols - col) col
    if cols ≤ col' then { st with ok := false }
    else
      let e : PEntry := ⟨row, col', cell.rowspan, cell.colspan, cell.content⟩
      let fp := entryFp rows cols e
      parseRowGo rows cols row rest (col' + 1)
        { cells := st.cells ++ [entryCell e]
          regions := st.regions ++ entryRegion e
          occ := st.occ ++ fp
          log := st.log ++ [e]
          ok := st.ok && decide (1 ≤ cell.rowspan) && decide (1 ≤ cell.colspan)
                 && decide (∀ p ∈ fp, p ∉ st.occ) }

/-- `TableParser.parse`, as the final parser state. -/
def tableParseSt (rowsData : List (List HCell)) : PState :=
  let rows := rowsData.length
  let cols := calcCols rowsData
  rowsData.enum.foldl (fun st rc => parseRowGo rows cols rc.1 rc.2 0 st)
    ⟨[], [], [], [], true⟩

/-- The `TableData` that `TableParser.parse` returns. -/
def tableParse (rowsData : List (List HCell)) : TableData :=
  ⟨rowsData.length, calcCols rowsData, (tableParseSt rowsData).cells,
    (tableParseSt rowsData).regions⟩

/-- The verification-side tiling check: all placements were clean and
the claimed coordinates fill the whole grid. -/
def tableParseOK (rowsData : List (List HCell)) : Bool :=
  (tableParseSt rowsData).ok
    && decide ((tableParseSt rowsData).occ.length
        = rowsData.length * calcCols rowsData)

/-- Whether a region's inclusive rectangle contains a coordinate. -/
def regionContains (reg : MergeRegion) (p : Nat × Nat) : Bool :=
  decide (reg.start.1 ≤ p.1 ∧ p.1 ≤ reg.stop.1
    ∧ reg.start.2 ≤ p.2 ∧ p.2 ≤ reg.stop.2)

/-- A placement with positive spans rooted inside the grid. -/
def goodEntry (rows cols : Nat) (e : PEntry) : Prop :=
  1 ≤ e.rs ∧ 1 ≤ e.cs ∧ e.row < rows ∧ e.col < cols

/-- Two placements with disjoint claimed footprints. -/
def disjFp (rows cols : Nat) (e1 e2 : PEntry) : Prop :=
  ∀ p, p ∈ entryFp rows cols e1 → p ∉ entryFp rows cols e2

/-- The parser state is the image of its placement log. -/
def Rep (rows cols : Nat) (st : PState) : Prop :=
  st.cells = st.log.map entryCell
  ∧ st.regions = st.log.flatMap entryRegion
  ∧ st.occ = st.log.flatMap (entryFp rows cols)

/-- A clean log: every placement good, all footprints disjoint. -/
def GoodLog (rows cols : Nat) (l : List PEntry) : Prop :=
  (∀ e ∈ l, goodEntry rows cols e) ∧ l.Pairwise (disjFp rows cols)

/-- The loop invariant: representation always, cleanliness if `ok`. -/
def PInv (rows cols : Nat) (st : PState) : Prop :=
  Rep rows cols st ∧ (st.ok = true → GoodLog rows cols st.log)

theorem mem_footprint {rows cols row col rs cs : Nat} {p : Nat × Nat} :
    p ∈ footprint rows cols row col rs cs ↔
      (row ≤ p.1 ∧ p.1 < min (row + rs) rows
        ∧ col ≤ p.2 ∧ p.2 < min (col + cs) cols) := by
  obtain ⟨a, b⟩ := p
  simp only [footprint, List.product, List.mem_flatMap, List.mem_map,
    List.mem_range'_1, Prod.mk.injEq]
  constructor
  · rintro ⟨x, hx, y, hy, rfl, rfl⟩
    omega
  · rintro ⟨h1, h2, h3, h4⟩
    exact ⟨a, by omega, b, by omega, rfl, rfl⟩

theorem footprint_nodup (rows cols row col rs cs : Nat) :
    (footprint rows cols row col rs cs).Nodup :=
  List.Nodup.product (List.nodup_range' _ _) (List.nodup_range' _ _)

/-- The footprint stays inside the grid. -/
theorem footprint_subgrid {rows cols row col rs cs : Nat} {p : Nat × Nat}
    (h : p ∈ footprint rows cols row col rs cs) : p.1 < rows ∧ p.2 < cols := by
  rw [mem_footprint] at h
  omega

/-- A good placement's own coordinate lies in its footprint. -/
theorem goodEntry_mem_fp {rows cols : Nat} {e : PEntry}
    (h : goodEntry rows cols e) : (e.row, e.col) ∈ entryFp rows cols e := by
  obtain ⟨h1, h2, h3, h4⟩ := h
  rw [entryFp, mem_footprint]
  dsimp only
  omega

/-- For an in-grid coordinate, membership in a good placement's
unclipped region rectangle coincides with membership in its clipped
footprint. -/
theorem rect_eq_fp {rows cols : Nat} {e : PEntry} (hg : goodEntry rows cols e)
    {p : Nat × Nat} (hr : p.1 < rows) (hc : p.2 < cols) :
    (e.row ≤ p.1 ∧ p.1 ≤ e.row + e.rs - 1 ∧ e.col ≤ p.2 ∧ p.2 ≤ e.col + e.cs - 1)
      ↔ p ∈ entryFp rows cols e := by
  obtain ⟨h1, h2, h3, h4⟩ := hg
  rw [entryFp, mem_footprint]
  omega

/-- One placement step preserves the invariant. -/
theorem parseRowGo_inv (rows cols row : Nat) (hrow : row < rows) :
    ∀ (cellsL : List HCell) (col : Nat) (st : PState),
      PInv rows cols st → PInv rows cols (parseRowGo rows cols row cellsL col st) := by
  intro cellsL
  induction cellsL with
  | nil => intro col st h; exact h
  | cons cell rest ih =>
    intro col st h
    rw [parseRowGo]
    by_cases hbreak : cols ≤ skipOccupied st.occ row (cols - col) col
    · rw [if_pos hbreak]
      exact ⟨h.1, fun hok => absurd hok (by simp)⟩
    · rw [if_neg hbreak]
      apply ih
      obtain ⟨⟨hc, hr, ho⟩, hgood⟩ := h
      refine ⟨⟨?_, ?_, ?_⟩, ?_⟩
      · simp [hc]
      · simp [hr]
      · simp [ho]
      · intro hok
        simp only [Bool.and_eq_true, decide_eq_true_eq] at hok
        obtain ⟨⟨⟨hok0, hrs⟩, hcs⟩, hdisj⟩ := hok
        obtain ⟨hgood1, hgood2⟩ := hgood hok0
        constructor
        · intro e he
          rcases List.mem_append.mp he with he | he
          · exact hgood1 e he
          · rcases List.mem_singleton.mp he with rfl
            refine ⟨hrs, hcs, hrow, ?_⟩
            dsimp only
            omega
        · rw [List.pairwise_append]
          refine ⟨hgood2, List.pairwise_singleton _ _, ?_⟩
          intro a ha b hb
          rcases List.mem_singleton.mp hb with rfl
          intro p hpa hpb
          exact hdisj p hpb (ho ▸ List.mem_flatMap.mpr ⟨a, ha, hpa⟩)

/-- The row fold preserves the invariant. -/
theorem foldRows_inv (rows cols : Nat) :
    ∀ (l : List (Nat × List HCell)) (st : PState),
      (∀ rc ∈ l, rc.1 < rows) → PInv rows cols st →
      PInv rows cols
        (l.foldl (fun st rc => parseRowGo rows cols rc.1 rc.2 0 st) st) := by
  intro l
  induction l with
  | nil => intro st _ h; exact h
  | cons rc rest ih =>
    intro st hmem h
    rw [List.foldl_cons]
    exact ih _ (fun x hx => hmem x (List.mem_cons_of_mem _ hx))
      (parseRowGo_inv rows cols rc.1 (hmem rc (List.mem_cons_self _ _)) rc.2 0 st h)

theorem tableParseSt_inv (rowsData : List (List HCell)) :
    PInv rowsData.length (calcCols rowsData) (tableParseSt rowsData) := by
  unfold tableParseSt
  exact foldRows_inv _ _ rowsData.enum _
    (fun rc hrc => List.fst_lt_of_mem_enum hrc)
    ⟨⟨rfl, rfl, rfl⟩,
     fun _ => ⟨fun e he => absurd he (List.not_mem_nil e), List.Pairwise.nil⟩⟩

/-- Disjointness of footprints is symmetric. -/
theorem disjFp_symm (rows cols : Nat) : Symmetric (disjFp rows cols) := by
  intro a b hab p hpb hpa
  exact hab p hpa hpb

/-- A flat map over entrywise-nodup, pairwise-disjoint footprints is
nodup. -/
theorem flatMap_fp_nodup {α β : Type} [DecidableEq β] (F : α → List β) :
    ∀ l : List α, (∀ e ∈ l, (F e).Nodup) →
      l.Pairwise (fun a b => ∀ p, p ∈ F a → p ∉ F b) →
      (l.flatMap F).Nodup := by
  intro l
  induction l with
  | nil => intro _ _; simp
  | cons e rest ih =>
    intro hn hp
    rw [List.flatMap_cons, List.nodup_append]
    rw [List.pairwise_cons] at hp
    refine ⟨hn e (by simp), ih (fun x hx => hn x (by simp [hx])) hp.2, ?_⟩
    intro p hpe hprest
    obtain ⟨e', he', hpe'⟩ := List.mem_flatMap.mp hprest
    exact hp.1 e' he' p hpe hpe'

/-- In a nodup flat map, a present element lies in exactly one entry's
image. -/
theorem countP_fp_unique (F : PEntry → List (Nat × Nat)) (p : Nat × Nat) :
    ∀ l : List PEntry, (l.flatMap F).Nodup → p ∈ l.flatMap F →
      l.countP (fun e => decide (p ∈ F e)) = 1 := by
  intro l
  induction l with
  | nil => intro _ h; simp at h
  | cons e rest ih =>
    intro hn hm
    rw [List.flatMap_cons] at hn hm
    rw [List.nodup_append] at hn
    rw [List.countP_cons]
    rcases List.mem_append.mp hm with hm | hm
    · have hzero : rest.countP (fun e => decide (p ∈ F e)) = 0 :=
        List.countP_eq_zero.mpr (fun e' he' => by
          simp only [decide_eq_true_eq]
          exact fun hc => hn.2.2 hm (List.mem_flatMap.mpr ⟨e', he', hc⟩))
      simp [hzero, hm]
    · have h0 : ¬ p ∈ F e := fun hc => hn.2.2 hc hm
      rw [ih hn.2.1 hm]
      simp [h0]

/-- Decompose the two coverage counts entry by entry. -/
theorem count_combine (rows cols : Nat) (q : Nat × Nat)
    (cellP : TableCellData → Bool) (regP : MergeRegion → Bool) :
    ∀ l : List PEntry,
      (∀ e ∈ l,
        (if cellP (entryCell e) then 1 else 0) + (entryRegion e).countP regP
          = (if q ∈ entryFp rows cols e then 1 else 0)) →
      (l.map entryCell).countP cellP + (l.flatMap entryRegion).countP regP
        = l.countP (fun e => decide (q ∈ entryFp rows cols e)) := by
  intro l
  induction l with
  | nil => intro _; rfl
  | cons e rest ih =>
    intro h
    rw [List.map_cons, List.flatMap_cons, List.countP_cons, List.countP_append,
      List.countP_cons]
    have hh := h e (by simp)
    have ht := ih (fun x hx => h x (by simp [hx]))
    simp only [decide_eq_true_eq]
    omega

/-- Per-entry coverage contribution: each placement contributes exactly
one covered unit at an in-grid coordinate inside its footprint — through
its region when it spans, through its cell entry otherwise. -/
theorem entry_contrib (rows cols : Nat) (l : List PEntry)
    (hgood : ∀ e ∈ l, goodEntry rows cols e)
    (hpw : l.Pairwise (disjFp rows cols))
    (q : Nat × Nat) (hr : q.1 < rows) (hc : q.2 < cols) :
    ∀ e ∈ l,
      (if (decide ((entryCell e).cell = q)
            && !((l.flatMap entryRegion).any fun reg =>
                  regionContains reg (entryCell e).cell)) then 1 else 0)
        + (entryRegion e).countP (fun reg => regionContains reg q)
        = (if q ∈ entryFp rows cols e then 1 else 0) := by
  intro e he
  obtain ⟨hrs1, hcs1, hrow, hcol⟩ := hgood e he
  by_cases hspan : e.rs > 1 ∨ e.cs > 1
  · have hregeq : entryRegion e =
        [⟨("merge-" ++ toString e.row ++ "-" ++ toString e.col).toList,
          (e.row, e.col), (e.row + e.rs - 1, e.col + e.cs - 1), (e.row, e.col),
          mergeTypeOf e.rs e.cs⟩] := by
      rw [entryRegion, if_pos hspan]
    rw [hregeq, List.countP_cons, List.countP_nil]
    have hrc : (regionContains
        ⟨("merge-" ++ toString e.row ++ "-" ++ toString e.col).toList,
          (e.row, e.col), (e.row + e.rs - 1, e.col + e.cs - 1), (e.row, e.col),
          mergeTypeOf e.rs e.cs⟩ q = true) ↔ q ∈ entryFp rows cols e := by
      rw [regionContains, decide_eq_true_eq]
      dsimp only
      exact rect_eq_fp ⟨hrs1, hcs1, hrow, hcol⟩ hr hc
    have hcell : (decide ((entryCell e).cell = q)
        && !((l.flatMap entryRegion).any fun reg =>
              regionContains reg (entryCell e).cell)) = false := by
      by_cases hcq : (entryCell e).cell = q
      · have hown : ((l.flatMap entryRegion).any fun reg =>
            regionContains reg (entryCell e).cell) = true := by
          rw [List.any_eq_true]
          refine ⟨⟨("merge-" ++ toString e.row ++ "-" ++ toString e.col).toList,
              (e.row, e.col), (e.row + e.rs - 1, e.col + e.cs - 1), (e.row, e.col),
              mergeTypeOf e.rs e.cs⟩,
            List.mem_flatMap.mpr ⟨e, he, by
              rw [hregeq]; exact List.mem_singleton_self _⟩, ?_⟩
          rw [regionContains, decide_eq_true_eq]
          dsimp only [entryCell]
          omega
        rw [hown]
        simp
      · simp [hcq]
    rw [hcell]
    by_cases hq : q ∈ entryFp rows cols e
    · rw [if_pos (hrc.mpr hq), if_pos hq]
      simp
    · rw [if_neg (fun hcon => hq (hrc.mp hcon)), if_neg hq]
      simp
  · have hrs : e.rs = 1 := by omega
    have hcs : e.cs = 1 := by omega
    rw [entryRegion, if_neg hspan, List.countP_nil]
    have hfp : q ∈ entryFp rows cols e ↔ (e.row, e.col) = q := by
      obtain ⟨a, b⟩ := q
      rw [entryFp, mem_footprint, Prod.mk.injEq]
      dsimp only
      omega
    by_cases hcq : (entryCell e).cell = q
    · have hnone : ((l.flatMap entryRegion).any fun reg =>
          regionContains reg (entryCell e).cell) = false := by
        rw [List.any_eq_false]
        intro reg hregmem
        obtain ⟨e', he', hregin⟩ := List.mem_flatMap.mp hregmem
        have hspan' : e'.rs > 1 ∨ e'.cs > 1 := by
          by_contra hcon
          rw [entryRegion, if_neg hcon] at hregin
          exact absurd hregin (List.not_mem_nil _)
        rw [entryRegion, if_pos hspan'] at hregin
        rcases List.mem_singleton.mp hregin with rfl
        rw [Bool.not_eq_true, regionContains, decide_eq_false_iff_not]
        intro hcontains
        have hq' : q ∈ entryFp rows cols e' := by
          rw [← rect_eq_fp (hgood e' he') hr hc]
          have hcq' : (entryCell e).cell = q := hcq
          rw [show (entryCell e).cell = (e.row, e.col) from rfl] at hcq'
          rw [← hcq']
          exact hcontains
        have hqe : q ∈ entryFp rows cols e := by
          rw [hfp]
          exact hcq
        have hne : e ≠ e' := by
          intro hEq
          rw [← hEq] at hspan'
          omega
        exact (List.Pairwise.forall (disjFp_symm rows cols) hpw he he' hne) q hqe hq'
      rw [hnone]
      have hqfp : q ∈ entryFp rows cols e := hfp.mpr hcq
      simp [hcq, hqfp]
    · have hqfp : ¬ q ∈ entryFp rows cols e := fun hcon => hcq (hfp.mp hcon)
      rw [if_neg hqfp]
      simp [hcq]

/-- **C3, amended coverage.** Whenever the placement simulation is clean
(positive spans, no footprint collisions, no row break) and the claimed
footprints fill the whole grid, every in-grid coordinate is covered
exactly once: the number of cell entries at that coordinate lying in no
region rectangle plus the number of regions whose rectangle contains it
is one. -/
theorem c3_exact_coverage_aux (rowsData : List (List HCell))
    (hOK : tableParseOK rowsData = true) (q : Nat × Nat)
    (hr : q.1 < rowsData.length) (hc : q.2 < calcCols rowsData) :
    ((tableParseSt rowsData).cells.countP fun cd =>
        decide (cd.cell = q)
          && !((tableParseSt rowsData).regions.any fun reg =>
                regionContains reg cd.cell))
      + (tableParseSt rowsData).regions.countP
          (fun reg => regionContains reg q) = 1 := by
  obtain ⟨⟨hcells, hregs, hocc⟩, hgood⟩ := tableParseSt_inv rowsData
  rw [tableParseOK, Bool.and_eq_true, decide_eq_true_eq] at hOK
  obtain ⟨hok, hlen⟩ := hOK
  obtain ⟨hg1, hg2⟩ := hgood hok
  have hnodup : ((tableParseSt rowsData).log.flatMap
      (entryFp rowsData.length (calcCols rowsData))).Nodup :=
    flatMap_fp_nodup _ _ (fun e _ => footprint_nodup _ _ _ _ _ _) hg2
  have hsub : ((tableParseSt rowsData).occ).toFinset
      ⊆ Finset.range rowsData.length ×ˢ Finset.range (calcCols rowsData) := by
    intro p hp
    rw [List.mem_toFinset] at hp
    rw [hocc] at hp
    obtain ⟨e, he, hpe⟩ := List.mem_flatMap.mp hp
    rw [entryFp] at hpe
    rw [Finset.mem_product, Finset.mem_range, Finset.mem_range]
    exact footprint_subgrid hpe
  have hcard1 : ((tableParseSt rowsData).occ).toFinset.card
      = rowsData.length * calcCols rowsData := by
    rw [List.toFinset_card_of_nodup (hocc ▸ hnodup)]
    exact hlen
  have hgrid : ((tableParseSt rowsData).occ).toFinset
      = Finset.range rowsData.length ×ˢ Finset.range (calcCols rowsData) :=
    Finset.eq_of_subset_of_card_le hsub
      (by rw [Finset.card_product, Finset.card_range, Finset.card_range, hcard1])
  have hqocc : q ∈ (tableParseSt rowsData).occ := by
    rw [← List.mem_toFinset, hgrid, Finset.mem_product, Finset.mem_range,
      Finset.mem_range]
    exact ⟨hr, hc⟩
  have hmem : q ∈ (tableParseSt rowsData).log.flatMap
      (entryFp rowsData.length (calcCols rowsData)) := hocc ▸ hqocc
  have hcount := countP_fp_unique
    (entryFp rowsData.length (calcCols rowsData)) q _ hnodup hmem
  rw [hcells, hregs]
  rw [count_combine rowsData.length (calcCols rowsData) q _ _ _
    (entry_contrib rowsData.length (calcCols rowsData) _ hg1 hg2 q hr hc)]
  exact hcount

/-- A ragged table: two cells in row 0 but only one in row 1. -/
def c3RaggedTable : List (List HCell) :=
  [[{ content := ⟨"a".toList, []⟩ }, { content := ⟨"b".toList, []⟩ }],
   [{ content := ⟨"c".toList, []⟩ }]]

/-- **C3, counterexample.** The coverage invariant does not hold for
every HTML table: the ragged 2×2 table leaves coordinate `(1, 1)`
covered by no cell entry and no merge region at all. -/
theorem c3_ragged_counterexample :
    (tableParse c3RaggedTable).rows = 2
    ∧ (tableParse c3RaggedTable).cols = 2
    ∧ ((tableParse c3RaggedTable).cells.countP fun cd =>
        decide (cd.cell = ((1 : Nat), (1 : Nat)))
          && !((tableParse c3RaggedTable).mergeRegions.any fun reg =>
                regionContains reg cd.cell))
      + (tableParse c3RaggedTable).mergeRegions.countP
          (fun reg => regionContains reg (1, 1)) = 0 := by
  decide

/-- **C3.** For every HTML table whose placement simulation is clean and
fills the grid (`tableParseOK`), the produced `TableData` covers every
in-grid coordinate exactly once: one region rectangle contains it, or it
is the coordinate of one cell entry lying in no region rectangle. -/
theorem c3_table_coverage (rowsData : List (List HCell))
    (hOK : tableParseOK rowsData = true) (q : Nat × Nat)
    (hr : q.1 < (tableParse rowsData).rows)
    (hc : q.2 < (tableParse rowsData).cols) :
    ((tableParse rowsData).cells.countP fun cd =>
        decide (cd.cell = q)
          && !((tableParse rowsData).mergeRegions.any fun reg =>
                regionContains reg cd.cell))
      + (tableParse rowsData).mergeRegions.countP
          (fun reg => regionContains reg q) = 1 :=
  c3_exact_coverage_aux rowsData hOK q hr hc

/-- The claim's 3×3 scenario: master cell at `(0, 0)` with `rowspan=2`
and `colspan=2`. -/
def c3DemoTable : List (List HCell) :=
  [[{ rowspan := 2, colspan := 2, content := ⟨"A".toList, []⟩ },
    { content := ⟨"B".toList, []⟩ }],
   [{ content := ⟨"C".toList, []⟩ }],
   [{ content := ⟨"D".toList, []⟩ }, { content := ⟨"E".toList, []⟩ },
    { content := ⟨"F".toList, []⟩ }]]

/-- Witness: the 3×3 scenario passes the tiling check, coordinate
`(1, 1)` is covered exactly once, exactly one `rectangular` region
`(0,0)→(1,1)` is produced, and no cell entry exists at `(0,1)`, `(1,0)`
or `(1,1)`. -/
theorem c3_table_coverage_witness :
    tableParseOK c3DemoTable = true
    ∧ ((tableParse c3DemoTable).cells.countP fun cd =>
        decide (cd.cell = ((1 : Nat), (1 : Nat)))
          && !((tableParse c3DemoTable).mergeRegions.any fun reg =>
                regionContains reg cd.cell))
      + (tableParse c3DemoTable).mergeRegions.countP
          (fun reg => regionContains reg (1, 1)) = 1
    ∧ (tableParse c3DemoTable).mergeRegions =
        [⟨"merge-0-0".toList, (0, 0), (1, 1), (0, 0), "rectangular"⟩]
    ∧ (tableParse c3DemoTable).cells.all
        (fun cd => decide (cd.cell ≠ (0, 1) ∧ cd.cell ≠ (1, 0) ∧ cd.cell ≠ (1, 1)))
        = true :=
  ⟨by decide,
   c3_table_coverage c3DemoTable (by decide) (1, 1) (by decide) (by decide),
   by decide,
   by decide⟩

/-! ## Round trip (`WangEditorRenderer.render` / `HtmlParser.parse`)

The renderer is embedded at the HTML-tree level (`HNode`): `html.escape`
and its inverse during re-parsing are the identity at this level, and
the `"\n".join` of block fragments becomes interleaved whitespace text
nodes, which the parser strips and skips.  Block ids (`generate_block_id`
uuids) are modelled as `[]` on the parse side — they are never compared.
The stylesheet enters only through the css string computed per block id
(`_build_style_map` + `_styles_to_css`); an empty `StyleSheet` yields the
constant empty function `emptyStyleCss`. -/

def isLinkMark : Mark → Bool
  | .link _ _ => true
  | _ => false

/-- One `SimpleMark` wrap of `_apply_marks` step 5 (wangeditor renderer:
includes `code`). -/
def wrapSimpleNode (m : Mark) (cur : List HNode) : List HNode :=
  match m with
  | .simple n _ =>
    if n = "bold" then [.elem "strong" [] cur]
    else if n = "italic" then [.elem "em" [] cur]
    else if n = "underline" then [.elem "u" [] cur]
    else if n = "strike" then [.elem "s" [] cur]
    else if n = "code" then [.elem "code" [] cur]
    else if n = "superscript" then [.elem "sup" [] cur]
    else if n = "subscript" then [.elem "sub" [] cur]
    else cur
  | _ => cur

/-- The css declaration a `ValueMark` contributes in `_apply_marks`
step 6. -/
def valueCssOf : Mark → List PyStr
  | .value n v _ =>
    if n = "color" then ["color: ".toList ++ v]
    else if n = "backgroundColor" then ["background-color: ".toList ++ v]
    else if n = "fontSize" then ["font-size: ".toList ++ v]
    else if n = "fontFamily" then ["font-family: ".toList ++ v]
    else []
  | _ => []

/-- One boundary segment of `_apply_marks` as nodes: the text leaf,
wrapped by the active simple marks (reversed), one style span for the
active value marks (`";".join(styles) + ";"`), then the active links. -/
def renderSegmentNodes (text : PyStr) (marks : List Mark) (se : Nat × Nat) :
    List HNode :=
  let seg := pySlice text se.1 se.2
  if seg = [] then []
  else
    let active := marks.filter fun m => decide (m.rng.1 ≤ se.1 ∧ se.2 ≤ m.rng.2)
    let simples := active.filter isSimpleMark
    let links := active.filter isLinkMark
    let values := active.filter isValueMark
    let cur1 := simples.reverse.foldl (fun cur m => wrapSimpleNode m cur)
      [HNode.text seg]
    let cur2 :=
      if values ≠ [] then
        let styles := values.flatMap valueCssOf
        if styles ≠ [] then
          [HNode.elem "span"
            [("style", joinSep ";".toList styles ++ ";".toList)] cur1]
        else cur1
      else cur1
    links.foldl
      (fun cur m =>
        match m with
        | .link h _ => [HNode.elem "a" [("href", h)] cur]
        | _ => cur)
      cur2

/-- `_apply_marks` at tree level. -/
def applyMarksNodes (text : PyStr) (marks : List Mark) : List HNode :=
  if marks = [] then [.text text]
  else
    (adjPairs (boundaryPoints text.length marks)).flatMap
      (renderSegmentNodes text marks)

/-- The css string of an empty stylesheet's style map, for every block. -/
def emptyStyleCss (_id : PyStr) : PyStr := []

/-- `self._attr(style_attr)`: a `style` attribute when the css is
non-empty. -/
def styleAttrOf (css : PyStr) : List (String × PyStr) :=
  if css = [] then [] else [("style", css)]

/-- `h{level}`. -/
def hTag (level : Nat) : String := "h" ++ toString level

/-- The grouping key of the renderer's list handling: a paragraph with a
truthy `listType` other than `none`, keyed by `(listType, listLevel or
0)`. -/
def listKey : Block → Option (String × Nat)
  | .paragraph _ _ _ (some a) =>
    match a.listType with
    | some t => if t ≠ "" ∧ t ≠ "none" then some (t, a.listLevel.getD 0) else none
    | none => none
  | _ => none

/-- `_render_list_group` (items are paragraphs by construction; the
catch-all arm is dead code). -/
def renderListGroup (styleCss : PyStr → PyStr) (items : List Block)
    (t : String) (lvl : Nat) : HNode :=
  .elem (if t = "bullet" then "ul" else "ol")
    (if lvl > 0 then
      [("style", "margin-left: ".toList ++ (toString (lvl * 2)).toList ++ "em".toList)]
     else [])
    (items.map fun b =>
      match b with
      | .paragraph id text marks _ =>
        .elem "li" (styleAttrOf (styleCss id)) (applyMarksNodes text marks)
      | _ => .elem "li" [] [])

/-- The table renderer's `_apply_marks` segment as nodes (no `code`, no
links, `"; ".join(styles) + ";"`). -/
def trSegmentNodes (text : PyStr) (marks : List Mark) (se : Nat × Nat) :
    List HNode :=
  let seg := pySlice text se.1 se.2
  if seg = [] then []
  else
    let active := marks.filter fun m => decide (m.rng.1 ≤ se.1 ∧ se.2 ≤ m.rng.2)
    let simples := active.filter isSimpleMark
    let values := active.filter isValueMark
    let cur1 := simples.reverse.foldl
      (fun cur m =>
        match m with
        | .simple n _ =>
          if n = "bold" then [HNode.elem "strong" [] cur]
          else if n = "italic" then [HNode.elem "em" [] cur]
          else if n = "underline" then [HNode.elem "u" [] cur]
          else if n = "strike" then [HNode.elem "s" [] cur]
          else if n = "superscript" then [HNode.elem "sup" [] cur]
          else if n = "subscript" then [HNode.elem "sub" [] cur]
          else cur
        | _ => cur)
      [HNode.text seg]
    if values ≠ [] then
      let styles := values.flatMap valueStyleOf
      if styles ≠ [] then
        [HNode.elem "span"
          [("style", joinSep "; ".toList styles ++ ";".toList)] cur1]
      else cur1
    else cur1

def trApplyMarksNodes (text : PyStr) (marks : List Mark) : List HNode :=
  if marks = [] then [.text text]
  else
    (adjPairs (trBoundaryPoints text.length marks)).flatMap
      (trSegmentNodes text marks)

/-- `_render_cell` at tree level, at the empty stylesheet / empty column
widths the wangeditor renderer passes for an empty `StyleSheet`
(`width="auto"`, default border/padding style only). -/
def renderCellNode (data : TableData) (row col : Nat) : HNode :=
  match cellMapGet data.cells (row, col) with
  | none => .elem "td" [] []
  | some cd =>
    let span := getSpan data.mergeRegions row col
    .elem (if row = 0 then "th" else "td")
      ((if span.1 > 1 then [("rowSpan", (toString span.1).toList)] else [])
        ++ (if span.2 > 1 then [("colSpan", (toString span.2).toList)] else [])
        ++ [("width", "auto".toList),
            ("style", "border: 1px solid #ddd; padding: 8px".toList)])
      (trApplyMarksNodes cd.content.text cd.content.marks)

/-- `TableRenderer.render` at tree level (empty stylesheet instance): the
inter-tag layout whitespace of the joined string is omitted. -/
def renderTableNode (data : TableData) : HNode :=
  .elem "table" [("style", "border-collapse: collapse".toList)]
    ((List.range data.rows).map fun r =>
      .elem "tr" []
        (((List.range data.cols).filter
            (fun c => !inMergedCells data.mergeRegions (r, c))).map
          (renderCellNode data r)))

/-- `str()` of an image dimension. -/
def sumStr : Sum Nat PyStr → PyStr
  | .inl n => (toString n).toList
  | .inr s => s

/-- `_render_image` (empty stylesheet: no style attribute; a falsy
dimension — `0` or `""` — is omitted, as in the source's truthiness
tests). -/
def renderImageNode (src : PyStr) (meta : Option ImageMeta) : HNode :=
  .elem "img"
    ([("src", src)]
      ++ (match meta with
          | none => []
          | some m =>
            (match m.alt with
             | some a => if a ≠ [] then [("alt", a)] else []
             | none => [])
            ++ (match m.width with
                | some w => if sumStr w ≠ [] ∧ w ≠ .inl 0 then [("width", sumStr w)] else []
                | none => [])
            ++ (match m.height with
                | some h => if sumStr h ≠ [] ∧ h ≠ .inl 0 then [("height", sumStr h)] else []
                | none => [])))
    []

/-- `_render_block` at tree level (one node per block). -/
def renderBlockNodes (styleCss : PyStr → PyStr) : Block → HNode
  | .paragraph id text marks _ =>
    .elem "p" (styleAttrOf (styleCss id)) (applyMarksNodes text marks)
  | .heading id level text marks =>
    .elem (hTag level) (styleAttrOf (styleCss id)) (applyMarksNodes text marks)
  | .table _ data => renderTableNode data
  | .image _ src meta => renderImageNode src meta
  | .code _ text lang =>
    if lang.getD [] ≠ [] then
      .elem "pre" []
        [.elem "code" [("class", "language-".toList ++ lang.getD [])] [.text text]]
    else
      .elem "pre" [] [.elem "code" [] [.text text]]
  | .divider _ => .elem "hr" [] []

/-- The `while` loop of `render()`: consecutive paragraphs sharing a list
key are grouped into one `ul`/`ol`; the pending group is carried
explicitly. -/
def renderLoop (styleCss : PyStr → PyStr) :
    Option (String × Nat × List Block) → List Block → List HNode
  | none, [] => []
  | some (t, lvl, items), [] => [renderListGroup styleCss items.reverse t lvl]
  | none, b :: rest =>
    (match listKey b with
     | some (t, lvl) => renderLoop styleCss (some (t, lvl, [b])) rest
     | none => renderBlockNodes styleCss b :: renderLoop styleCss none rest)
  | some (t, lvl, items), b :: rest =>
    (match listKey b with
     | some (t', lvl') =>
       if t' = t ∧ lvl' = lvl then
         renderLoop styleCss (some (t, lvl, b :: items)) rest
       else
         renderListGroup styleCss items.reverse t lvl
           :: renderLoop styleCss (some (t', lvl', [b])) rest
     | none =>
       renderListGroup styleCss items.reverse t lvl
         :: renderBlockNodes styleCss b :: renderLoop styleCss none rest)

/-- `WangEditorRenderer.render` at tree level: the block fragments with
the `"\n".join` separators as whitespace text nodes. -/
def renderContent (styleCss : PyStr → PyStr) (blocks : List Block) : List HNode :=
  (renderLoop styleCss none blocks).intersperse (HNode.text "\n".toList)

/-! ### The parse side (`HtmlParser._parse_body` / `_parse_element` and
the element parsers) -/

def isElemWithTag (names : List String) : HNode → Bool
  | .elem tag _ _ => names.contains tag
  | .text _ => false

mutual
/-- `find_all(names)`: matching descendants in document (preorder)
order. -/
def findTagsNode (names : List String) : HNode → List HNode
  | .text _ => []
  | .elem tag attrs children =>
    (if names.contains tag then [HNode.elem tag attrs children] else [])
      ++ findTagsList names children

def findTagsList (names : List String) : List HNode → List HNode
  | [] => []
  | c :: rest => findTagsNode names c ++ findTagsList names rest
end

/-- `element.get_text()`. -/
def getText (n : HNode) : PyStr := (extractGo n [] ([], [])).1

/-- Whitespace splitting (BeautifulSoup's multi-valued `class`
attribute). -/
def splitWsGo (cur : PyStr) : PyStr → List PyStr
  | [] => if cur = [] then [] else [cur.reverse]
  | c :: rest =>
    if pyIsSpace c then
      if cur = [] then splitWsGo [] rest else cur.reverse :: splitWsGo [] rest
    else splitWsGo (c :: cur) rest

def splitWs (s : PyStr) : List PyStr := splitWsGo [] s

/-- `str.replace(needle, "")`, with the string length as structural
fuel. -/
def replaceSubFuel (needle : PyStr) : Nat → PyStr → PyStr
  | 0, s => s
  | _ + 1, [] => []
  | fuel + 1, c :: rest =>
    if needle ≠ [] ∧ needle.isPrefixOf (c :: rest) then
      replaceSubFuel needle fuel ((c :: rest).drop needle.length)
    else c :: replaceSubFuel needle fuel rest

def replaceSub (needle s : PyStr) : PyStr := replaceSubFuel needle s.length s

/-- `str.find(needle)` (first index, `none` for not found). -/
def strFindGo (needle : PyStr) (idx : Nat) : PyStr → Option Nat
  | [] => if needle = [] then some idx else none
  | c :: rest =>
    if needle.isPrefixOf (c :: rest) then some idx
    else strFindGo needle (idx + 1) rest

def strFind (hay needle : PyStr) : Option Nat := strFindGo needle 0 hay

def getAttr (attrs : List (String × PyStr)) (name : String) : Option PyStr :=
  (attrs.find? (fun a => a.1 = name)).map (·.2)

/-- `parse_image`. -/
def parseImageBlock (attrs : List (String × PyStr)) : Block :=
  let src := getAttrD attrs "src" []
  let alt := getAttrD attrs "alt" []
  let dim : PyStr → Sum Nat PyStr := fun s =>
    if s ≠ [] ∧ s.all Char.isDigit then .inl (natOfDigits s) else .inr s
  let meta0 : Option ImageMeta := if alt ≠ [] then some ⟨none, none, some alt⟩ else none
  let meta1 : Option ImageMeta :=
    match getAttr attrs "width" with
    | some w =>
      if w ≠ [] then some { (meta0.getD ⟨none, none, none⟩) with width := some (dim w) }
      else meta0
    | none => meta0
  let meta2 : Option ImageMeta :=
    match getAttr attrs "height" with
    | some h =>
      if h ≠ [] then some { (meta1.getD ⟨none, none, none⟩) with height := some (dim h) }
      else meta1
    | none => meta1
  Block.image [] src meta2

/-- `parse_code_block` over the `pre` element's children. -/
def parseCodeBlock (children : List HNode) : Block :=
  match (findTagsList ["code"] children).head? with
  | some (.elem ctag cattrs cchildren) =>
    let classes := splitWs (getAttrD cattrs "class" [])
    let language :=
      (classes.find? (fun c => ("language-".toList).isPrefixOf c)).map
        (replaceSub "language-".toList)
    Block.code [] (getText (.elem ctag cattrs cchildren)) language
  | _ =>
    Block.code [] (getText (.elem "pre" [] children)) none

/-- `TableParser._get_text_range`. -/
def getTextRange (parentText : PyStr) (child : HNode) : Option (Nat × Nat) :=
  let ct := getText child
  if ct = [] then none
  else
    match strFind parentText ct with
    | some i => some (i, i + ct.length)
    | none => none

/-- The span branch of `TableParser._extract_cell_content` (note: the
colour regex here has no lookbehind, so it also fires inside
`background-color`). -/
def cellSpanMarks (parentText : PyStr) (span : HNode) : List Mark :=
  match span with
  | .elem _ sattrs _ =>
    let style := getAttrD sattrs "style" []
    match getTextRange parentText span with
    | none => []
    | some r =>
      (match findProp "color".toList style with
       | some v => [Mark.value "color" (pyStrip v) r]
       | none => [])
      ++ (match findBackground style with
          | some v => [Mark.value "backgroundColor" (pyStrip v) r]
          | none => [])
      ++ (match findProp "font-size".toList style with
          | some v => [Mark.value "fontSize" (pyStrip v) r]
          | none => [])
      ++ (match findProp "font-family".toList style with
          | some v => [Mark.value "fontFamily" (pyStrip v) r]
          | none => [])
  | .text _ => []

/-- `TableParser._extract_cell_content`: `get_text` plus find()-located
tag and span marks. -/
def extractCellContent (cell : HNode) : TableCellContent :=
  let text := getText cell
  let kids :=
    match cell with
    | .elem _ _ cs => cs
    | .text _ => []
  let mk : List String → String → List Mark := fun names mname =>
    (findTagsList names kids).filterMap fun ch =>
      (getTextRange text ch).map (fun r => Mark.simple mname r)
  ⟨text,
    mk ["strong", "b"] "bold" ++ mk ["em", "i"] "italic"
      ++ mk ["u"] "underline" ++ mk ["s", "strike", "del"] "strike"
      ++ (findTagsList ["span"] kids).flatMap (cellSpanMarks text)⟩

def hcellOfNode (n : HNode) : HCell :=
  match n with
  | .elem _ cattrs _ =>
    { rowspan :=
        match getAttr cattrs "rowspan" with
        | some s => natOfDigits s
        | none => 1
      colspan :=
        match getAttr cattrs "colspan" with
        | some s => natOfDigits s
        | none => 1
      content := extractCellContent n }
  | .text _ => { content := ⟨[], []⟩ }

/-- `parse_table`: the `TableParser` run on the element's `tr`
descendants. -/
def tableDataOfNode (children : List HNode) : TableData :=
  tableParse ((findTagsList ["tr"] children).map fun tr =>
    match tr with
    | .elem _ _ tchildren => (findTagsList ["td", "th"] tchildren).map hcellOfNode
    | .text _ => [])

def listTypeOf (tag : String) : String :=
  if tag = "ul" then "bullet" else "ordered"

/-- `parse_list_items`, with the node size as structural fuel for the
descent into nested lists found by `li.find(['ul','ol'],
recursive=False)`. -/
def parseListFuel : Nat → String → Nat → HNode → List Block
  | 0, _, _, _ => []
  | _ + 1, _, _, .text _ => []
  | fuel + 1, t, lvl, .elem _ attrs children =>
    let start : Int :=
      Int.ofNat (match getAttr attrs "start" with
        | some s => natOfDigits s
        | none => 1)
    children.flatMap fun c =>
      match c with
      | .elem ctag cattrs cchildren =>
        if ctag = "li" then
          let ex := extractTextAndMarks (.elem ctag cattrs cchildren)
          Block.paragraph [] ex.1 ex.2
            (some { listType := some t, listLevel := some lvl,
                    listStart := if t = "ordered" then some start else none })
            :: (match cchildren.find? (fun k => isElemWithTag ["ul", "ol"] k) with
                | some nested =>
                  parseListFuel fuel
                    (match nested with
                     | .elem ntag _ _ => listTypeOf ntag
                     | .text _ => "bullet")
                    (lvl + 1) nested
                | none => [])
        else []
      | .text _ => []

def blockTags : List String :=
  ["p", "h1", "h2", "h3", "h4", "h5", "h6", "table", "ul", "ol", "pre",
   "hr", "blockquote", "div", "section", "article"]

mutual
/-- Tree size, used as fuel for the nested-list descent. -/
def hsize : HNode → Nat
  | .text _ => 1
  | .elem _ _ cs => 1 + hsizeList cs

def hsizeList : List HNode → Nat
  | [] => 0
  | c :: rest => hsize c + hsizeList rest
end

/-- `int(element.name[1])`. -/
def headingLevelOf (tag : String) : Nat := digitVal (tag.toList.getD 1 '0')

mutual
/-- `HtmlParser._parse_element`, as the list of blocks the element
contributes (lists and unwrapped containers contribute several). -/
def parseElement : HNode → List Block
  | .text _ => []
  | .elem tag attrs children =>
    if tag = "p" then
      [Block.paragraph [] (extractTextAndMarks (.elem tag attrs children)).1
        (extractTextAndMarks (.elem tag attrs children)).2 none]
    else if tag = "h1" ∨ tag = "h2" ∨ tag = "h3" ∨ tag = "h4" ∨ tag = "h5"
        ∨ tag = "h6" then
      [Block.heading [] (headingLevelOf tag)
        (extractTextAndMarks (.elem tag attrs children)).1
        (extractTextAndMarks (.elem tag attrs children)).2]
    else if tag = "table" then
      [Block.table [] (tableDataOfNode children)]
    else if tag = "img" then
      [parseImageBlock attrs]
    else if tag = "ul" ∨ tag = "ol" then
      parseListFuel (hsize (HNode.elem tag attrs children)) (listTypeOf tag) 0
        (.elem tag attrs children)
    else if tag = "pre" then
      [parseCodeBlock children]
    else if tag = "hr" then
      [Block.divider []]
    else if tag = "div" ∨ tag = "section" ∨ tag = "article" then
      if (splitWs (getAttrD attrs "class" [])).contains "w-e-textarea-divider".toList
          ∨ children.any (fun k => isElemWithTag ["hr"] k) then
        [Block.divider []]
      else if children.any (fun c =>
          match c with
          | .elem ctag _ _ => blockTags.contains ctag
          | .text _ => false) then
        parseElements children
      else if !(findTagsList ["hr"] children).isEmpty then
        [Block.divider []]
      else
        [Block.paragraph [] (extractTextAndMarks (.elem tag attrs children)).1
          (extractTextAndMarks (.elem tag attrs children)).2 none]
    else []

/-- The `for element in body.children` loop (also the unwrap loop of the
`div` branch): tags via `_parse_element`, stray text as stripped
paragraphs. -/
def parseElements : List HNode → List Block
  | [] => []
  | c :: rest =>
    (match c with
     | .elem t a k => parseElement (.elem t a k)
     | .text s =>
       if pyStrip s ≠ [] then [Block.paragraph [] (pyStrip s) [] none] else [])
      ++ parseElements rest
end

/-- `HtmlParser.parse` over the rendered body's top-level nodes. -/
def parseHtml (body : List HNode) : List Block := parseElements body

/-! ### Scanner lemmas: the style-regexes on renderer-built css strings

The renderer builds `"prop: value"` declarations joined by `";"` with a
trailing `";"`.  For values free of `:` and `;`, every scanner occurrence
is confined to the concrete property prefixes, so the regex embeddings
recover exactly the rendered values. -/

/-- Characters that keep a css value inert for the scanners. -/
def cleanChars (v : PyStr) : Prop := ∀ c ∈ v, c ≠ ':' ∧ c ≠ ';'

/-- A colon-terminated, semicolon-free pattern cannot start inside a
clean value followed by `;`. -/
theorem noPrefix_clean (rest : PyStr) :
    ∀ (v pat : PyStr), cleanChars v → pat ≠ [] → (∀ c ∈ pat, c ≠ ';') →
      pat.getLast? = some ':' → ¬ pat <+: (v ++ ';' :: rest) := by
  intro v
  induction v with
  | nil =>
    intro pat _ hne hsemi _ hpre
    match pat, hpre with
    | p :: pat', hpre =>
      have := (List.cons_prefix_cons.mp hpre).1
      exact hsemi p (by simp) this
  | cons x v' ih =>
    intro pat hclean hne hsemi hlast hpre
    match pat, hpre with
    | p :: pat', hpre =>
      obtain ⟨hpx, hpre'⟩ := List.cons_prefix_cons.mp hpre
      cases pat' with
      | nil =>
        rw [List.getLast?_singleton] at hlast
        have : p = ':' := by injection hlast
        exact (hclean x (by simp)).1 (by rw [← hpx, this])
      | cons q qat =>
        exact ih (q :: qat) (fun c hc => hclean c (by simp [hc]))
          (by simp) (fun c hc => hsemi c (by simp [hc]))
          (by rw [← hlast, List.getLast?_cons_cons]) hpre'

/-- A colon-terminated, semicolon-free pattern matching at a position
inside `s ++ value ++ ";" ++ rest` is confined to `s`. -/
theorem pat_confined (rest : PyStr) :
    ∀ (s pat v : PyStr), cleanChars v → pat ≠ [] → (∀ c ∈ pat, c ≠ ';') →
      pat.getLast? = some ':' → pat <+: (s ++ (v ++ ';' :: rest)) → pat <+: s := by
  intro s
  induction s with
  | nil =>
    intro pat v hclean hne hsemi hlast hpre
    exact absurd hpre (noPrefix_clean rest v pat hclean hne hsemi hlast)
  | cons a s' ih =>
    intro pat v hclean hne hsemi hlast hpre
    match pat, hpre with
    | p :: pat', hpre =>
      obtain ⟨hpx, hpre'⟩ := List.cons_prefix_cons.mp hpre
      cases pat' with
      | nil => simp [hpx]
      | cons q qat =>
        have := ih (q :: qat) v hclean (by simp)
          (fun c hc => hsemi c (by simp [hc]))
          (by rw [← hlast, List.getLast?_cons_cons]) hpre'
        exact List.cons_prefix_cons.mpr ⟨hpx, this⟩

theorem takeWhile_clean (rest : PyStr) :
    ∀ (v : PyStr), cleanChars v →
      (v ++ ';' :: rest).takeWhile (fun c => decide (c ≠ ';')) = v := by
  intro v
  induction v with
  | nil => simp
  | cons x v' ih =>
    intro hclean
    have h1 : decide (x ≠ ';') = true := decide_eq_true ((hclean x (by simp)).2)
    rw [List.cons_append, List.takeWhile_cons, h1, if_pos rfl,
      ih (fun c hc => hclean c (by simp [hc]))]

/-- A non-empty strip-stable string starts with a non-space. -/
theorem strip_stable_head {c : Char} {v' : PyStr}
    (h : pyStrip (c :: v') = c :: v') : pyIsSpace c = false := by
  by_contra hc
  rw [Bool.not_eq_false] at hc
  have hlen : (pyStrip (c :: v')).length ≤ v'.length := by
    unfold pyStrip
    rw [List.dropWhile_cons, if_pos hc]
    calc ((v'.dropWhile pyIsSpace).reverse.dropWhile pyIsSpace).reverse.length
        ≤ (v'.dropWhile pyIsSpace).reverse.length := by
          rw [List.length_reverse]
          exact (List.dropWhile_suffix _).length_le
      _ ≤ v'.length := by
          rw [List.length_reverse]
          exact (List.dropWhile_suffix _).length_le
  rw [h] at hlen
  simp at hlen

/-- `captureValue` after a single space followed by a non-space,
non-semicolon character. -/
theorem captureValue_space_cons (c : Char) (tail : PyStr)
    (hc : pyIsSpace c = false) (hcs : ¬ c = ';') :
    captureValue (' ' :: c :: tail)
      = some ((c :: tail).takeWhile (fun x => decide (x ≠ ';'))) := by
  have hw : (' ' :: c :: tail).takeWhile pyIsSpace = [' '] := by
    rw [List.takeWhile_cons, show pyIsSpace ' ' = true from rfl, if_pos rfl,
      List.takeWhile_cons, hc]
    rfl
  unfold captureValue
  rw [hw]
  show (if c = ';' then
      (if ([' '] : PyStr).isEmpty = true then none
       else some [([' '] : PyStr).getLastD ' '])
    else some ((c :: tail).takeWhile fun x => decide (x ≠ ';'))) = _
  rw [if_neg hcs]

/-- `captureValue` on the renderer-built tail `" value;..."`. -/
theorem captureValue_hit (rest : PyStr) (v : PyStr) (hne : v ≠ [])
    (hclean : cleanChars v) (hstrip : pyStrip v = v) :
    captureValue (' ' :: v ++ ';' :: rest) = some v := by
  match v, hne with
  | c :: v', _ =>
    have hc : pyIsSpace c = false := strip_stable_head hstrip
    have hcs : ¬ c = ';' := (hclean c (by simp)).2
    rw [show ' ' :: (c :: v') ++ ';' :: rest = ' ' :: c :: (v' ++ ';' :: rest) from rfl]
    rw [captureValue_space_cons c _ hc hcs]
    rw [show c :: (v' ++ ';' :: rest) = (c :: v') ++ ';' :: rest from rfl]
    rw [takeWhile_clean rest (c :: v') hclean]


theorem isPrefixOf_eq_false {l1 l2 : PyStr} (h : ¬ l1 <+: l2) :
    l1.isPrefixOf l2 = false := by
  cases hb : l1.isPrefixOf l2
  · rfl
  · exact absurd (List.isPrefixOf_iff_prefix.mp hb) h

theorem prop_pat_semifree (prop : PyStr) (hsemi : ∀ c ∈ prop, c ≠ ';') :
    ∀ c ∈ prop ++ [':'], c ≠ ';' := by
  intro c hc
  rcases List.mem_append.mp hc with h | h
  · exact hsemi c h
  · rw [List.mem_singleton] at h; subst h; decide

theorem findColorGo_step (pre : PyStr) (c : Char) (s : PyStr)
    (h : (("color:".toList).isPrefixOf (c :: s)
        && !(("-dnuorgkcab".toList).isPrefixOf pre)) = false) :
    findColorGo pre (c :: s) = findColorGo (c :: pre) s := by
  have hnc : ¬ ((("color:".toList).isPrefixOf (c :: s)
      && !(("-dnuorgkcab".toList).isPrefixOf pre)) = true) := by
    rw [h]; exact Bool.false_ne_true
  rw [findColorGo, if_neg hnc]

theorem findProp_step (prop : PyStr) (c : Char) (s : PyStr)
    (h : ((prop ++ [':']).isPrefixOf (c :: s)) = false) :
    findProp prop (c :: s) = findProp prop s := by
  have hnc : ¬ (((prop ++ [':']).isPrefixOf (c :: s)) = true) := by
    rw [h]; exact Bool.false_ne_true
  rw [findProp, if_neg hnc]

theorem findBackground_step (c : Char) (s : PyStr)
    (h1 : ("background-color:".toList).isPrefixOf (c :: s) = false)
    (h2 : ("background:".toList).isPrefixOf (c :: s) = false) :
    findBackground (c :: s) = findBackground s := by
  have hnc1 : ¬ (("background-color:".toList).isPrefixOf (c :: s) = true) := by
    rw [h1]; exact Bool.false_ne_true
  have hnc2 : ¬ (("background:".toList).isPrefixOf (c :: s) = true) := by
    rw [h2]; exact Bool.false_ne_true
  rw [findBackground, if_neg hnc1, if_neg hnc2]

theorem findColorGo_skip_bg (pre v rest : PyStr) :
    findColorGo pre ("background-color: ".toList ++ (v ++ ';' :: rest))
      = findColorGo (" :roloc-dnuorgkcab".toList ++ pre) (v ++ ';' :: rest) := by
  show findColorGo ("-dnuorgkcab".toList ++ pre) ("color: ".toList ++ (v ++ ';' :: rest)) = _
  refine Eq.trans (findColorGo_step ("-dnuorgkcab".toList ++ pre) 'c'
      ("olor: ".toList ++ (v ++ ';' :: rest)) ?_) ?_
  · have h2 : ("-dnuorgkcab".toList).isPrefixOf ("-dnuorgkcab".toList ++ pre) = true := by
      rw [List.isPrefixOf_iff_prefix]; exact List.prefix_append _ _
    simp [h2]
  · rfl

theorem findProp_skip_clean (prop rest : PyStr) (hsemi : ∀ c ∈ prop, c ≠ ';') :
    ∀ v : PyStr, cleanChars v → findProp prop (v ++ ';' :: rest) = findProp prop rest := by
  intro v
  induction v with
  | nil =>
    intro _
    rw [List.nil_append]
    refine findProp_step prop ';' rest (isPrefixOf_eq_false ?_)
    have := noPrefix_clean rest [] (prop ++ [':']) (by intro c hc; simp at hc)
      (by simp) (prop_pat_semifree prop hsemi) (List.getLast?_concat _)
    simpa using this
  | cons x v' ih =>
    intro hclean
    rw [List.cons_append]
    rw [findProp_step prop x (v' ++ ';' :: rest) (isPrefixOf_eq_false ?_)]
    · exact ih (fun c hc => hclean c (List.mem_cons_of_mem _ hc))
    · have := noPrefix_clean rest (x :: v') (prop ++ [':']) hclean
        (by simp) (prop_pat_semifree prop hsemi) (List.getLast?_concat _)
      simpa using this

theorem findBackground_skip_clean (rest : PyStr) :
    ∀ v : PyStr, cleanChars v → findBackground (v ++ ';' :: rest) = findBackground rest := by
  intro v
  induction v with
  | nil =>
    intro _
    rw [List.nil_append]
    exact findBackground_step ';' rest rfl rfl
  | cons x v' ih =>
    intro hclean
    rw [List.cons_append]
    rw [findBackground_step x (v' ++ ';' :: rest)
      (isPrefixOf_eq_false ?_) (isPrefixOf_eq_false ?_)]
    · exact ih (fun c hc => hclean c (List.mem_cons_of_mem _ hc))
    · have := noPrefix_clean rest (x :: v') ("background-color:".toList) hclean
        (by simp) (by decide) (by decide)
      simpa using this
    · have := noPrefix_clean rest (x :: v') ("background:".toList) hclean
        (by simp) (by decide) (by decide)
      simpa using this

theorem findColorGo_skip_clean (rest : PyStr) :
    ∀ v : PyStr, cleanChars v → ∀ pre : PyStr,
      findColorGo pre (v ++ ';' :: rest) = findColorGo (';' :: (v.reverse ++ pre)) rest := by
  intro v
  induction v with
  | nil =>
    intro _ pre
    rw [List.nil_append]
    rw [findColorGo_step pre ';' rest rfl]
    simp
  | cons x v' ih =>
    intro hclean pre
    rw [List.cons_append]
    rw [findColorGo_step pre x (v' ++ ';' :: rest) ?_]
    · rw [ih (fun c hc => hclean c (List.mem_cons_of_mem _ hc)) (x :: pre)]
      congr 1
      simp
    · have hp : ("color:".toList).isPrefixOf (x :: (v' ++ ';' :: rest)) = false := by
        apply isPrefixOf_eq_false
        have := noPrefix_clean rest (x :: v') ("color:".toList) hclean
          (by simp) (by decide) (by decide)
        simpa using this
      rw [hp, Bool.false_and]

theorem lookbehind_false {pre : PyStr} (h : pre = [] ∨ ∃ t, pre = ';' :: t) :
    ("-dnuorgkcab".toList).isPrefixOf pre = false := by
  rcases h with rfl | ⟨t, rfl⟩
  · rfl
  · rfl


theorem findBackground_skip_colorPre (X : PyStr) :
    findBackground ("color: ".toList ++ X) = findBackground X := rfl
theorem findBackground_skip_fsPre (X : PyStr) :
    findBackground ("font-size: ".toList ++ X) = findBackground X := rfl
theorem findBackground_skip_ffPre (X : PyStr) :
    findBackground ("font-family: ".toList ++ X) = findBackground X := rfl

theorem findProp_fs_skip_colorPre (X : PyStr) :
    findProp "font-size".toList ("color: ".toList ++ X)
      = findProp "font-size".toList X := rfl
theorem findProp_fs_skip_bgPre (X : PyStr) :
    findProp "font-size".toList ("background-color: ".toList ++ X)
      = findProp "font-size".toList X := rfl
theorem findProp_fs_skip_ffPre (X : PyStr) :
    findProp "font-size".toList ("font-family: ".toList ++ X)
      = findProp "font-size".toList X := rfl

theorem findProp_ff_skip_colorPre (X : PyStr) :
    findProp "font-family".toList ("color: ".toList ++ X)
      = findProp "font-family".toList X := rfl
theorem findProp_ff_skip_bgPre (X : PyStr) :
    findProp "font-family".toList ("background-color: ".toList ++ X)
      = findProp "font-family".toList X := rfl
theorem findProp_ff_skip_fsPre (X : PyStr) :
    findProp "font-family".toList ("font-size: ".toList ++ X)
      = findProp "font-family".toList X := rfl

theorem findProp_td_skip_colorPre (X : PyStr) :
    findProp "text-decoration".toList ("color: ".toList ++ X)
      = findProp "text-decoration".toList X := rfl
theorem findProp_td_skip_bgPre (X : PyStr) :
    findProp "text-decoration".toList ("background-color: ".toList ++ X)
      = findProp "text-decoration".toList X := rfl
theorem findProp_td_skip_fsPre (X : PyStr) :
    findProp "text-decoration".toList ("font-size: ".toList ++ X)
      = findProp "text-decoration".toList X := rfl
theorem findProp_td_skip_ffPre (X : PyStr) :
    findProp "text-decoration".toList ("font-family: ".toList ++ X)
      = findProp "text-decoration".toList X := rfl

theorem findColorGo_skip_fsPre (pre X : PyStr) :
    findColorGo pre ("font-size: ".toList ++ X)
      = findColorGo (("font-size: ".toList).reverse ++ pre) X := rfl
theorem findColorGo_skip_ffPre (pre X : PyStr) :
    findColorGo pre ("font-family: ".toList ++ X)
      = findColorGo (("font-family: ".toList).reverse ++ pre) X := rfl

theorem findBackground_hit (v rest w : PyStr)
    (hv : captureValue (' ' :: (v ++ ';' :: rest)) = some w) :
    findBackground ("background-color: ".toList ++ (v ++ ';' :: rest)) = some w := by
  show findBackground ('b' :: ("ackground-color: ".toList ++ (v ++ ';' :: rest))) = some w
  rw [findBackground]
  have h1 : ("background-color:".toList).isPrefixOf
      ('b' :: ("ackground-color: ".toList ++ (v ++ ';' :: rest))) = true := by
    rw [List.isPrefixOf_iff_prefix]
    exact ⟨' ' :: (v ++ ';' :: rest), rfl⟩
  rw [if_pos h1]
  show (match captureValue (' ' :: (v ++ ';' :: rest)) with
        | some u => some u
        | none => findBackground ("ackground-color: ".toList ++ (v ++ ';' :: rest))) = some w
  rw [hv]

theorem findProp_fs_hit (v rest w : PyStr)
    (hv : captureValue (' ' :: (v ++ ';' :: rest)) = some w) :
    findProp "font-size".toList ("font-size: ".toList ++ (v ++ ';' :: rest)) = some w := by
  show findProp "font-size".toList ('f' :: ("ont-size: ".toList ++ (v ++ ';' :: rest))) = some w
  rw [findProp]
  have h1 : ("font-size".toList ++ [':']).isPrefixOf
      ('f' :: ("ont-size: ".toList ++ (v ++ ';' :: rest))) = true := by
    rw [List.isPrefixOf_iff_prefix]
    exact ⟨' ' :: (v ++ ';' :: rest), rfl⟩
  rw [if_pos h1]
  show (match captureValue (' ' :: (v ++ ';' :: rest)) with
        | some u => some u
        | none => findProp "font-size".toList ("ont-size: ".toList ++ (v ++ ';' :: rest))) = some w
  rw [hv]

theorem findProp_ff_hit (v rest w : PyStr)
    (hv : captureValue (' ' :: (v ++ ';' :: rest)) = some w) :
    findProp "font-family".toList ("font-family: ".toList ++ (v ++ ';' :: rest)) = some w := by
  show findProp "font-family".toList
    ('f' :: ("ont-family: ".toList ++ (v ++ ';' :: rest))) = some w
  rw [findProp]
  have h1 : ("font-family".toList ++ [':']).isPrefixOf
      ('f' :: ("ont-family: ".toList ++ (v ++ ';' :: rest))) = true := by
    rw [List.isPrefixOf_iff_prefix]
    exact ⟨' ' :: (v ++ ';' :: rest), rfl⟩
  rw [if_pos h1]
  show (match captureValue (' ' :: (v ++ ';' :: rest)) with
        | some u => some u
        | none => findProp "font-family".toList ("ont-family: ".toList ++ (v ++ ';' :: rest))) = some w
  rw [hv]

theorem findColorGo_hit (pre v rest w : PyStr)
    (hpre : ("-dnuorgkcab".toList).isPrefixOf pre = false)
    (hv : captureValue (' ' :: (v ++ ';' :: rest)) = some w) :
    findColorGo pre ("color: ".toList ++ (v ++ ';' :: rest)) = some w := by
  show findColorGo pre ('c' :: ("olor: ".toList ++ (v ++ ';' :: rest))) = some w
  rw [findColorGo]
  have h1 : (("color:".toList).isPrefixOf ('c' :: ("olor: ".toList ++ (v ++ ';' :: rest)))
      && !(("-dnuorgkcab".toList).isPrefixOf pre)) = true := by
    rw [hpre]
    have h2 : ("color:".toList).isPrefixOf
        ('c' :: ("olor: ".toList ++ (v ++ ';' :: rest))) = true := by
      rw [List.isPrefixOf_iff_prefix]
      exact ⟨' ' :: (v ++ ';' :: rest), rfl⟩
    rw [h2]
    rfl
  rw [if_pos h1]
  show (match captureValue (' ' :: (v ++ ';' :: rest)) with
        | some u => some u
        | none => findColorGo ('c' :: pre) ("olor: ".toList ++ (v ++ ';' :: rest))) = some w
  rw [hv]


def simpleNames : List String :=
  ["bold", "italic", "underline", "strike", "code", "superscript", "subscript"]

def valueNames : List String := ["color", "backgroundColor", "fontSize", "fontFamily"]

def cssPrefixOf (n : String) : PyStr :=
  if n = "color" then "color: ".toList
  else if n = "backgroundColor" then "background-color: ".toList
  else if n = "fontSize" then "font-size: ".toList
  else "font-family: ".toList

def goodNV (nv : String × PyStr) : Prop :=
  nv.1 ∈ valueNames ∧ nv.2 ≠ [] ∧ cleanChars nv.2 ∧ pyStrip nv.2 = nv.2

def vchunk (nv : String × PyStr) : PyStr := cssPrefixOf nv.1 ++ nv.2

def flattenChunks : List PyStr → PyStr
  | [] => []
  | s :: rest => s ++ ';' :: flattenChunks rest

def firstVal (L : List (String × PyStr)) (n : String) : Option PyStr :=
  (L.find? (fun nv => nv.1 == n)).map (·.2)

theorem joinSep_semi_flatten (L : List PyStr) (h : L ≠ []) :
    joinSep ";".toList L ++ ";".toList = flattenChunks L := by
  induction L with
  | nil => exact absurd rfl h
  | cons x xs ih =>
    cases xs with
    | nil => rfl
    | cons y ys =>
      have hih := ih (by simp)
      show (x ++ ";".toList ++ joinSep ";".toList (y :: ys)) ++ ";".toList
        = x ++ ';' :: flattenChunks (y :: ys)
      rw [← hih]
      simp

theorem scanChunks (L : List (String × PyStr)) (hL : ∀ nv ∈ L, goodNV nv) :
    findBackground (flattenChunks (L.map vchunk)) = firstVal L "backgroundColor"
    ∧ (∀ pre : PyStr, (pre = [] ∨ ∃ t, pre = ';' :: t) →
        findColorGo pre (flattenChunks (L.map vchunk)) = firstVal L "color")
    ∧ findProp "font-size".toList (flattenChunks (L.map vchunk)) = firstVal L "fontSize"
    ∧ findProp "font-family".toList (flattenChunks (L.map vchunk)) = firstVal L "fontFamily"
    ∧ findProp "text-decoration".toList (flattenChunks (L.map vchunk)) = none := by
  induction L with
  | nil =>
    exact ⟨rfl, fun pre _ => rfl, rfl, rfl, rfl⟩
  | cons nv L' ih =>
    obtain ⟨hname, hne, hclean, hstrip⟩ := hL nv (List.mem_cons_self _ _)
    obtain ⟨ihbg, ihc, ihfs, ihff, ihtd⟩ := ih (fun x hx => hL x (List.mem_cons_of_mem _ hx))
    obtain ⟨n, v⟩ := nv
    have hcap : captureValue (' ' :: (v ++ ';' :: flattenChunks (L'.map vchunk))) = some v :=
      captureValue_hit _ v hne hclean hstrip
    rcases (by simpa [valueNames] using hname :
        n = "color" ∨ n = "backgroundColor" ∨ n = "fontSize" ∨ n = "fontFamily")
      with rfl | rfl | rfl | rfl
    · have hflat : flattenChunks ((("color", v) :: L').map vchunk)
          = "color: ".toList ++ (v ++ ';' :: flattenChunks (L'.map vchunk)) := by
        show ("color: ".toList ++ v) ++ ';' :: flattenChunks (L'.map vchunk) = _
        rw [List.append_assoc]
      refine ⟨?_, ?_, ?_, ?_, ?_⟩
      · rw [hflat, findBackground_skip_colorPre,
          findBackground_skip_clean _ v hclean, ihbg]
        rfl
      · intro pre hpre
        rw [hflat, findColorGo_hit pre v _ v (lookbehind_false hpre) hcap]
        rfl
      · rw [hflat, findProp_fs_skip_colorPre,
          findProp_skip_clean "font-size".toList _ (by decide) v hclean, ihfs]
        rfl
      · rw [hflat, findProp_ff_skip_colorPre,
          findProp_skip_clean "font-family".toList _ (by decide) v hclean, ihff]
        rfl
      · rw [hflat, findProp_td_skip_colorPre,
          findProp_skip_clean "text-decoration".toList _ (by decide) v hclean, ihtd]
    · have hflat : flattenChunks ((("backgroundColor", v) :: L').map vchunk)
          = "background-color: ".toList ++ (v ++ ';' :: flattenChunks (L'.map vchunk)) := by
        show ("background-color: ".toList ++ v) ++ ';' :: flattenChunks (L'.map vchunk) = _
        rw [List.append_assoc]
      refine ⟨?_, ?_, ?_, ?_, ?_⟩
      · rw [hflat, findBackground_hit v _ v hcap]
        rfl
      · intro pre hpre
        rw [hflat, findColorGo_skip_bg,
          findColorGo_skip_clean _ v hclean _]
        exact Eq.trans (ihc _ (Or.inr ⟨_, rfl⟩)) rfl
      · rw [hflat, findProp_fs_skip_bgPre,
          findProp_skip_clean "font-size".toList _ (by decide) v hclean, ihfs]
        rfl
      · rw [hflat, findProp_ff_skip_bgPre,
          findProp_skip_clean "font-family".toList _ (by decide) v hclean, ihff]
        rfl
      · rw [hflat, findProp_td_skip_bgPre,
          findProp_skip_clean "text-decoration".toList _ (by decide) v hclean, ihtd]
    · have hflat : flattenChunks ((("fontSize", v) :: L').map vchunk)
          = "font-size: ".toList ++ (v ++ ';' :: flattenChunks (L'.map vchunk)) := by
        show ("font-size: ".toList ++ v) ++ ';' :: flattenChunks (L'.map vchunk) = _
        rw [List.append_assoc]
      refine ⟨?_, ?_, ?_, ?_, ?_⟩
      · rw [hflat, findBackground_skip_fsPre,
          findBackground_skip_clean _ v hclean, ihbg]
        rfl
      · intro pre hpre
        rw [hflat, findColorGo_skip_fsPre,
          findColorGo_skip_clean _ v hclean _]
        exact Eq.trans (ihc _ (Or.inr ⟨_, rfl⟩)) rfl
      · rw [hflat, findProp_fs_hit v _ v hcap]
        rfl
      · rw [hflat, findProp_ff_skip_fsPre,
          findProp_skip_clean "font-family".toList _ (by decide) v hclean, ihff]
        rfl
      · rw [hflat, findProp_td_skip_fsPre,
          findProp_skip_clean "text-decoration".toList _ (by decide) v hclean, ihtd]
    · have hflat : flattenChunks ((("fontFamily", v) :: L').map vchunk)
          = "font-family: ".toList ++ (v ++ ';' :: flattenChunks (L'.map vchunk)) := by
        show ("font-family: ".toList ++ v) ++ ';' :: flattenChunks (L'.map vchunk) = _
        rw [List.append_assoc]
      refine ⟨?_, ?_, ?_, ?_, ?_⟩
      · rw [hflat, findBackground_skip_ffPre,
          findBackground_skip_clean _ v hclean, ihbg]
        rfl
      · intro pre hpre
        rw [hflat, findColorGo_skip_ffPre,
          findColorGo_skip_clean _ v hclean _]
        exact Eq.trans (ihc _ (Or.inr ⟨_, rfl⟩)) rfl
      · rw [hflat, findProp_fs_skip_ffPre,
          findProp_skip_clean "font-size".toList _ (by decide) v hclean, ihfs]
        rfl
      · rw [hflat, findProp_ff_hit v _ v hcap]
        rfl
      · rw [hflat, findProp_td_skip_ffPre,
          findProp_skip_clean "text-decoration".toList _ (by decide) v hclean, ihtd]


def chunkDescs (L : List (String × PyStr)) : List Desc :=
  (match firstVal L "backgroundColor" with
   | some v => [Desc.valueD "backgroundColor" v]
   | none => []) ++
  (match firstVal L "color" with
   | some v => [Desc.valueD "color" v]
   | none => []) ++
  (match firstVal L "fontSize" with
   | some v => [Desc.valueD "fontSize" v]
   | none => []) ++
  (match firstVal L "fontFamily" with
   | some v => [Desc.valueD "fontFamily" v]
   | none => [])

theorem firstVal_strip (L : List (String × PyStr)) (hL : ∀ nv ∈ L, goodNV nv)
    (n : String) (v : PyStr) (h : firstVal L n = some v) : pyStrip v = v := by
  unfold firstVal at h
  rcases hf : L.find? (fun nv => nv.1 == n) with _ | nv
  · rw [hf] at h; simp at h
  · rw [hf] at h
    simp only [Option.map_some', Option.some.injEq] at h
    subst h
    exact (hL nv (List.mem_of_find?_eq_some hf)).2.2.2

theorem nodeDescs_span_style (css : PyStr) (hcss : css ≠ []) :
    nodeDescs "span" [("style", css)]
      = (match findBackground css with
         | some v => [Desc.valueD "backgroundColor" (pyStrip v)]
         | none => []) ++
        (match findColor css with
         | some v => [Desc.valueD "color" (pyStrip v)]
         | none => []) ++
        (match findProp "font-size".toList css with
         | some v => [Desc.valueD "fontSize" (pyStrip v)]
         | none => []) ++
        (match findProp "font-family".toList css with
         | some v => [Desc.valueD "fontFamily" (pyStrip v)]
         | none => []) ++
        (match findProp "text-decoration".toList css with
         | some v =>
           let dv := (pyStrip v).map Char.toLower
           (if containsSub "underline".toList dv then [Desc.simpleD "underline"] else [])
           ++ (if containsSub "line-through".toList dv then [Desc.simpleD "strike"] else [])
         | none => []) := by
  have h1 : nodeDescs "span" [("style", css)]
      = if css = [] then ([] : List Desc)
        else (match findBackground css with
              | some v => [Desc.valueD "backgroundColor" (pyStrip v)]
              | none => []) ++
             (match findColor css with
              | some v => [Desc.valueD "color" (pyStrip v)]
              | none => []) ++
             (match findProp "font-size".toList css with
              | some v => [Desc.valueD "fontSize" (pyStrip v)]
              | none => []) ++
             (match findProp "font-family".toList css with
              | some v => [Desc.valueD "fontFamily" (pyStrip v)]
              | none => []) ++
             (match findProp "text-decoration".toList css with
              | some v =>
                let dv := (pyStrip v).map Char.toLower
                (if containsSub "underline".toList dv then [Desc.simpleD "underline"] else [])
                ++ (if containsSub "line-through".toList dv then [Desc.simpleD "strike"] else [])
              | none => []) := rfl
  rw [h1, if_neg hcss]

theorem nodeDescs_span_chunks (L : List (String × PyStr)) (hL : ∀ nv ∈ L, goodNV nv)
    (hne : L ≠ []) :
    nodeDescs "span" [("style", joinSep ";".toList (L.map vchunk) ++ ";".toList)]
      = chunkDescs L := by
  obtain ⟨hbg, hc, hfs, hff, htd⟩ := scanChunks L hL
  have hmap : L.map vchunk ≠ [] := by simpa using hne
  have hcss : joinSep ";".toList (L.map vchunk) ++ ";".toList ≠ [] := by simp
  rw [nodeDescs_span_style _ hcss, joinSep_semi_flatten _ hmap]
  have hc' : findColor (flattenChunks (L.map vchunk)) = firstVal L "color" :=
    hc [] (Or.inl rfl)
  rw [hbg, hc', hfs, hff, htd]
  unfold chunkDescs
  have e1 : (match firstVal L "backgroundColor" with
             | some v => [Desc.valueD "backgroundColor" (pyStrip v)]
             | none => ([] : List Desc))
          = (match firstVal L "backgroundColor" with
             | some v => [Desc.valueD "backgroundColor" v]
             | none => []) := by
    rcases h : firstVal L "backgroundColor" with _ | v
    · rfl
    · show [Desc.valueD "backgroundColor" (pyStrip v)] = [Desc.valueD "backgroundColor" v]
      rw [firstVal_strip L hL _ _ h]
  have e2 : (match firstVal L "color" with
             | some v => [Desc.valueD "color" (pyStrip v)]
             | none => ([] : List Desc))
          = (match firstVal L "color" with
             | some v => [Desc.valueD "color" v]
             | none => []) := by
    rcases h : firstVal L "color" with _ | v
    · rfl
    · show [Desc.valueD "color" (pyStrip v)] = [Desc.valueD "color" v]
      rw [firstVal_strip L hL _ _ h]
  have e3 : (match firstVal L "fontSize" with
             | some v => [Desc.valueD "fontSize" (pyStrip v)]
             | none => ([] : List Desc))
          = (match firstVal L "fontSize" with
             | some v => [Desc.valueD "fontSize" v]
             | none => []) := by
    rcases h : firstVal L "fontSize" with _ | v
    · rfl
    · show [Desc.valueD "fontSize" (pyStrip v)] = [Desc.valueD "fontSize" v]
      rw [firstVal_strip L hL _ _ h]
  have e4 : (match firstVal L "fontFamily" with
             | some v => [Desc.valueD "fontFamily" (pyStrip v)]
             | none => ([] : List Desc))
          = (match firstVal L "fontFamily" with
             | some v => [Desc.valueD "fontFamily" v]
             | none => []) := by
    rcases h : firstVal L "fontFamily" with _ | v
    · rfl
    · show [Desc.valueD "fontFamily" (pyStrip v)] = [Desc.valueD "fontFamily" v]
      rw [firstVal_strip L hL _ _ h]
  rw [e1, e2, e3, e4]
  simp


/-! ### Extraction over rendered segment nodes -/

theorem extractChildren_append (l1 l2 : List HNode) (active : List Desc)
    (st : PyStr × List Mark) :
    extractChildren (l1 ++ l2) active st
      = extractChildren l2 active (extractChildren l1 active st) := by
  induction l1 generalizing st with
  | nil => rfl
  | cons c rest ih =>
    show extractChildren (rest ++ l2) active (extractGo c active st) = _
    rw [ih]
    rfl

def simpleDesc : Mark → List Desc
  | .simple n _ => [Desc.simpleD n]
  | _ => []

def linkDesc : Mark → List Desc
  | .link h _ => [Desc.linkD h]
  | _ => []

def markNV : Mark → String × PyStr
  | .value n v _ => (n, v)
  | _ => ("", [])

def goodMark (len : Nat) : Mark → Prop
  | .simple n r => n ∈ simpleNames ∧ r.1 ≤ r.2 ∧ r.2 ≤ len
  | .link _ r => r.1 ≤ r.2 ∧ r.2 ≤ len
  | .value n v r => n ∈ valueNames ∧ v ≠ [] ∧ cleanChars v ∧ pyStrip v = v
      ∧ r.1 ≤ r.2 ∧ r.2 ≤ len
  | .composite _ _ => False

instance (v : PyStr) : Decidable (cleanChars v) := by
  unfold cleanChars; infer_instance

instance (len : Nat) (m : Mark) : Decidable (goodMark len m) := by
  cases m <;> simp only [goodMark] <;> infer_instance

def consistentPair : Mark → Mark → Prop
  | .value n v _, .value n' v' _ => n = n' → v = v'
  | _, _ => True

instance (a b : Mark) : Decidable (consistentPair a b) := by
  cases a <;> cases b <;> simp only [consistentPair] <;> infer_instance

def marksConsistent (marks : List Mark) : Prop :=
  ∀ m1 ∈ marks, ∀ m2 ∈ marks, consistentPair m1 m2

instance (marks : List Mark) : Decidable (marksConsistent marks) := by
  unfold marksConsistent; infer_instance

theorem isLinkMark_shape {m : Mark} (h : isLinkMark m = true) :
    ∃ hr r, m = Mark.link hr r := by
  cases m with
  | link hr r => exact ⟨hr, r, rfl⟩
  | simple n r => simp [isLinkMark] at h
  | value n v r => simp [isLinkMark] at h
  | composite ns r => simp [isLinkMark] at h

theorem isSimpleMark_shape {m : Mark} (h : isSimpleMark m = true) :
    ∃ n r, m = Mark.simple n r := by
  cases m with
  | simple n r => exact ⟨n, r, rfl⟩
  | link hr r => simp [isSimpleMark] at h
  | value n v r => simp [isSimpleMark] at h
  | composite ns r => simp [isSimpleMark] at h

theorem isValueMark_shape {m : Mark} (h : isValueMark m = true) :
    ∃ n v r, m = Mark.value n v r := by
  cases m with
  | value n v r => exact ⟨n, v, r, rfl⟩
  | link hr r => simp [isValueMark] at h
  | simple n r => simp [isValueMark] at h
  | composite ns r => simp [isValueMark] at h

theorem extract_wrapSimple (n : String) (r : Nat × Nat)
    (hn : n ∈ simpleNames) (cur : List HNode)
    (active : List Desc) (st : PyStr × List Mark) :
    extractChildren (wrapSimpleNode (Mark.simple n r) cur) active st
      = extractChildren cur (active ++ [Desc.simpleD n]) st := by
  rcases (by simpa [simpleNames] using hn :
      n = "bold" ∨ n = "italic" ∨ n = "underline" ∨ n = "strike" ∨ n = "code"
        ∨ n = "superscript" ∨ n = "subscript")
    with rfl | rfl | rfl | rfl | rfl | rfl | rfl <;> rfl

theorem extract_simplesFold (ss : List Mark)
    (hss : ∀ m ∈ ss, ∃ n r, m = Mark.simple n r ∧ n ∈ simpleNames) :
    ∀ (base : List HNode) (active : List Desc) (st : PyStr × List Mark),
    extractChildren (ss.reverse.foldl (fun cur m => wrapSimpleNode m cur) base) active st
      = extractChildren base (active ++ ss.flatMap simpleDesc) st := by
  induction ss with
  | nil => intro base active st; simp
  | cons m ss' ih =>
    intro base active st
    obtain ⟨n, r, rfl, hn⟩ := hss m (List.mem_cons_self _ _)
    rw [List.reverse_cons, List.foldl_append]
    simp only [List.foldl_cons, List.foldl_nil]
    rw [extract_wrapSimple n r hn]
    rw [ih (fun x hx => hss x (List.mem_cons_of_mem _ hx))]
    simp [simpleDesc, List.append_assoc]

theorem extract_wrapLink (h : PyStr) (cur : List HNode) (active : List Desc)
    (st : PyStr × List Mark) :
    extractChildren [HNode.elem "a" [("href", h)] cur] active st
      = extractChildren cur (active ++ [Desc.linkD h]) st := rfl

theorem extract_linksFold (f : List HNode → Mark → List HNode)
    (hf : ∀ cur h r, f cur (Mark.link h r) = [HNode.elem "a" [("href", h)] cur])
    (ls : List Mark) (hls : ∀ m ∈ ls, ∃ h r, m = Mark.link h r) :
    ∀ (base : List HNode) (active : List Desc) (st : PyStr × List Mark),
    extractChildren (ls.foldl f base) active st
      = extractChildren base (active ++ ls.reverse.flatMap linkDesc) st := by
  induction ls with
  | nil => intro base active st; simp
  | cons m ls' ih =>
    intro base active st
    obtain ⟨h, r, rfl⟩ := hls m (List.mem_cons_self _ _)
    rw [List.foldl_cons, hf base h r]
    rw [ih (fun x hx => hls x (List.mem_cons_of_mem _ hx))]
    rw [extract_wrapLink h base (active ++ ls'.reverse.flatMap linkDesc) st]
    simp [linkDesc, List.append_assoc]

theorem extract_wrapSpan (css : PyStr) (cur : List HNode) (active : List Desc)
    (st : PyStr × List Mark) :
    extractChildren [HNode.elem "span" [("style", css)] cur] active st
      = extractChildren cur (active ++ nodeDescs "span" [("style", css)]) st := rfl

theorem extractGo_text (seg : PyStr) (hseg : seg ≠ []) (active : List Desc)
    (acc : PyStr) (ms : List Mark) :
    extractGo (HNode.text seg) active (acc, ms)
      = (acc ++ seg, ms ++ active.map (descToMark (acc.length, acc.length + seg.length))) := by
  show (if seg = [] then (acc, ms) else _) = _
  rw [if_neg hseg]

theorem valueCss_chunks (values : List Mark)
    (hv : ∀ m ∈ values, ∃ n v r, m = Mark.value n v r ∧ n ∈ valueNames) :
    values.flatMap valueCssOf = (values.map markNV).map vchunk := by
  induction values with
  | nil => rfl
  | cons m vs ih =>
    obtain ⟨n, v, r, rfl, hn⟩ := hv m (List.mem_cons_self _ _)
    rw [List.flatMap_cons, List.map_cons, List.map_cons,
      ih (fun x hx => hv x (List.mem_cons_of_mem _ hx))]
    congr 1
    rcases (by simpa [valueNames] using hn :
        n = "color" ∨ n = "backgroundColor" ∨ n = "fontSize" ∨ n = "fontFamily")
      with rfl | rfl | rfl | rfl <;> rfl

theorem markNV_good {len : Nat} {m : Mark} (hg : goodMark len m)
    (hv : isValueMark m = true) : goodNV (markNV m) := by
  cases m with
  | value n v r => exact ⟨hg.1, hg.2.1, hg.2.2.1, hg.2.2.2.1⟩
  | link hr r => simp [isValueMark] at hv
  | simple n r => simp [isValueMark] at hv
  | composite ns r => simp [isValueMark] at hv


def segDescs (marks : List Mark) (se : Nat × Nat) : List Desc :=
  let active := marks.filter fun m => decide (m.rng.1 ≤ se.1 ∧ se.2 ≤ m.rng.2)
  let simples := active.filter isSimpleMark
  let links := active.filter isLinkMark
  let values := active.filter isValueMark
  links.reverse.flatMap linkDesc
    ++ (if values = [] then [] else chunkDescs (values.map markNV))
    ++ simples.flatMap simpleDesc

theorem extractChildren_singleton (n : HNode) (active : List Desc)
    (st : PyStr × List Mark) :
    extractChildren [n] active st = extractGo n active st := rfl

theorem extract_segment (text : PyStr) (marks : List Mark) (s e : Nat)
    (hgood : ∀ m ∈ marks, goodMark text.length m)
    (acc : PyStr) (ms : List Mark)
    (hacc : acc.length = s) (hse : s < e) (he : e ≤ text.length) :
    extractChildren (renderSegmentNodes text marks (s, e)) [] (acc, ms)
      = (acc ++ pySlice text s e,
         ms ++ (segDescs marks (s, e)).map (descToMark (s, e))) := by
  have hseg : pySlice text s e ≠ [] := pySlice_ne_nil.mpr ⟨by omega, hse⟩
  have hlen : acc.length + (pySlice text s e).length = e := by
    unfold pySlice
    rw [List.length_take, List.length_drop]
    omega
  have hactive : ∀ m ∈ marks.filter (fun m => decide (m.rng.1 ≤ s ∧ e ≤ m.rng.2)),
      goodMark text.length m := fun m hm => hgood m (List.mem_of_mem_filter hm)
  have hsimps : ∀ m ∈ (marks.filter
        (fun m => decide (m.rng.1 ≤ s ∧ e ≤ m.rng.2))).filter isSimpleMark,
      ∃ n r, m = Mark.simple n r ∧ n ∈ simpleNames := by
    intro m hm
    obtain ⟨n, r, rfl⟩ := isSimpleMark_shape (List.of_mem_filter hm)
    exact ⟨n, r, rfl, (hactive _ (List.mem_of_mem_filter hm)).1⟩
  have hlinks : ∀ m ∈ (marks.filter
        (fun m => decide (m.rng.1 ≤ s ∧ e ≤ m.rng.2))).filter isLinkMark,
      ∃ h r, m = Mark.link h r :=
    fun m hm => isLinkMark_shape (List.of_mem_filter hm)
  have hvals : ∀ m ∈ (marks.filter
        (fun m => decide (m.rng.1 ≤ s ∧ e ≤ m.rng.2))).filter isValueMark,
      ∃ n v r, m = Mark.value n v r ∧ n ∈ valueNames := by
    intro m hm
    obtain ⟨n, v, r, rfl⟩ := isValueMark_shape (List.of_mem_filter hm)
    exact ⟨n, v, r, rfl, (hactive _ (List.mem_of_mem_filter hm)).1⟩
  have hvgood : ∀ nv ∈ ((marks.filter
        (fun m => decide (m.rng.1 ≤ s ∧ e ≤ m.rng.2))).filter isValueMark).map markNV,
      goodNV nv := by
    intro nv hnv
    obtain ⟨m, hm, rfl⟩ := List.mem_map.mp hnv
    exact markNV_good (hactive _ (List.mem_of_mem_filter hm)) (List.of_mem_filter hm)
  simp only [renderSegmentNodes]
  rw [if_neg hseg]
  rw [extract_linksFold _ (fun cur h r => rfl) _ hlinks]
  by_cases hv : (marks.filter
      (fun m => decide (m.rng.1 ≤ s ∧ e ≤ m.rng.2))).filter isValueMark = []
  · rw [if_neg (not_not_intro hv)]
    rw [extract_simplesFold _ hsimps]
    rw [extractChildren_singleton, extractGo_text _ hseg]
    rw [hlen, hacc]
    simp only [segDescs]
    rw [if_pos hv]
    simp
  · have hstyles : ((marks.filter
        (fun m => decide (m.rng.1 ≤ s ∧ e ≤ m.rng.2))).filter isValueMark).flatMap valueCssOf
        = (((marks.filter
            (fun m => decide (m.rng.1 ≤ s ∧ e ≤ m.rng.2))).filter isValueMark).map markNV).map
            vchunk :=
      valueCss_chunks _ hvals
    have hmapne : (((marks.filter
        (fun m => decide (m.rng.1 ≤ s ∧ e ≤ m.rng.2))).filter isValueMark).map markNV) ≠ [] := by
      simpa using hv
    rw [if_pos hv, hstyles]
    rw [if_pos (by simpa using hv :
      ((((marks.filter (fun m => decide (m.rng.1 ≤ s ∧ e ≤ m.rng.2))).filter
          isValueMark).map markNV).map vchunk) ≠ [])]
    rw [extract_wrapSpan]
    rw [nodeDescs_span_chunks _ hvgood hmapne]
    rw [extract_simplesFold _ hsimps]
    rw [extractChildren_singleton, extractGo_text _ hseg]
    rw [hlen, hacc]
    simp only [segDescs]
    rw [if_neg hv]
    simp


theorem mem_chunkDescs {L : List (String × PyStr)} {d : Desc} :
    d ∈ chunkDescs L ↔
      (∃ w, firstVal L "backgroundColor" = some w ∧ d = Desc.valueD "backgroundColor" w)
      ∨ (∃ w, firstVal L "color" = some w ∧ d = Desc.valueD "color" w)
      ∨ (∃ w, firstVal L "fontSize" = some w ∧ d = Desc.valueD "fontSize" w)
      ∨ (∃ w, firstVal L "fontFamily" = some w ∧ d = Desc.valueD "fontFamily" w) := by
  unfold chunkDescs
  rcases h1 : firstVal L "backgroundColor" with _ | w1 <;>
    rcases h2 : firstVal L "color" with _ | w2 <;>
      rcases h3 : firstVal L "fontSize" with _ | w3 <;>
        rcases h4 : firstVal L "fontFamily" with _ | w4 <;>
          simp

theorem firstVal_some_mem {L : List (String × PyStr)} {n : String} {w : PyStr}
    (h : firstVal L n = some w) : (n, w) ∈ L := by
  unfold firstVal at h
  rcases hf : L.find? (fun nv => nv.1 == n) with _ | nv
  · rw [hf] at h; simp at h
  · rw [hf] at h
    simp only [Option.map_some', Option.some.injEq] at h
    have hmem := List.mem_of_find?_eq_some hf
    have hp := List.find?_some hf
    obtain ⟨a, b⟩ := nv
    simp at hp h
    subst hp
    subst h
    exact hmem

theorem firstVal_some_of_mem {L : List (String × PyStr)} {n : String} {v : PyStr}
    (h : (n, v) ∈ L) : ∃ w, firstVal L n = some w ∧ (n, w) ∈ L := by
  have hs : (L.find? (fun nv => nv.1 == n)).isSome := by
    rw [List.find?_isSome]
    exact ⟨(n, v), h, by simp⟩
  rcases hf : L.find? (fun nv => nv.1 == n) with _ | nv
  · rw [hf] at hs; simp at hs
  · refine ⟨nv.2, by simp [firstVal, hf], ?_⟩
    have hp := List.find?_some hf
    have hmem := List.mem_of_find?_eq_some hf
    obtain ⟨a, b⟩ := nv
    simp at hp
    subst hp
    exact hmem

theorem mem_segDescs {len : Nat} {marks : List Mark} {s e : Nat} {d : Desc}
    (hgood : ∀ m ∈ marks, goodMark len m) (hcons : marksConsistent marks) :
    d ∈ segDescs marks (s, e) ↔
      (∃ h r, Mark.link h r ∈ marks ∧ r.1 ≤ s ∧ e ≤ r.2 ∧ d = Desc.linkD h)
      ∨ (∃ n v r, Mark.value n v r ∈ marks ∧ r.1 ≤ s ∧ e ≤ r.2 ∧ d = Desc.valueD n v)
      ∨ (∃ n r, Mark.simple n r ∈ marks ∧ r.1 ≤ s ∧ e ≤ r.2 ∧ d = Desc.simpleD n) := by
  simp only [segDescs, List.mem_append]
  constructor
  · rintro ((hd | hd) | hd)
    · -- link part
      rcases List.mem_flatMap.mp hd with ⟨x, hx, hdx⟩
      have hx' := List.mem_reverse.mp hx
      obtain ⟨h, r, rfl⟩ := isLinkMark_shape (List.of_mem_filter hx')
      simp only [linkDesc, List.mem_singleton] at hdx
      subst hdx
      have hxm := List.mem_of_mem_filter hx'
      have hpred := List.of_mem_filter hxm
      simp only [Mark.rng, decide_eq_true_eq] at hpred
      exact Or.inl ⟨h, r, List.mem_of_mem_filter hxm, hpred.1, hpred.2, rfl⟩
    · -- value part
      by_cases hv : (marks.filter
          (fun m => decide (m.rng.1 ≤ s ∧ e ≤ m.rng.2))).filter isValueMark = []
      · rw [if_pos hv] at hd
        simp at hd
      · rw [if_neg hv] at hd
        have hmain : ∀ (name : String) (w : PyStr),
            firstVal (((marks.filter
              (fun m => decide (m.rng.1 ≤ s ∧ e ≤ m.rng.2))).filter isValueMark).map markNV)
              name = some w →
            ∃ r, Mark.value name w r ∈ marks ∧ r.1 ≤ s ∧ e ≤ r.2 := by
          intro name w hfv
          have hmem := firstVal_some_mem hfv
          rcases List.mem_map.mp hmem with ⟨x, hx, hnx⟩
          obtain ⟨n2, v2, r, rfl⟩ := isValueMark_shape (List.of_mem_filter hx)
          simp only [markNV, Prod.mk.injEq] at hnx
          obtain ⟨rfl, rfl⟩ := hnx
          have hxm := List.mem_of_mem_filter hx
          have hpred := List.of_mem_filter hxm
          simp only [Mark.rng, decide_eq_true_eq] at hpred
          exact ⟨r, List.mem_of_mem_filter hxm, hpred.1, hpred.2⟩
        rcases mem_chunkDescs.mp hd with ⟨w, hw, rfl⟩ | ⟨w, hw, rfl⟩ | ⟨w, hw, rfl⟩ | ⟨w, hw, rfl⟩ <;>
          · obtain ⟨r, hmem, h1, h2⟩ := hmain _ w hw
            exact Or.inr (Or.inl ⟨_, w, r, hmem, h1, h2, rfl⟩)

    · -- simple part
      rcases List.mem_flatMap.mp hd with ⟨x, hx, hdx⟩
      obtain ⟨n, r, rfl⟩ := isSimpleMark_shape (List.of_mem_filter hx)
      simp only [simpleDesc, List.mem_singleton] at hdx
      subst hdx
      have hxm := List.mem_of_mem_filter hx
      have hpred := List.of_mem_filter hxm
      simp only [Mark.rng, decide_eq_true_eq] at hpred
      exact Or.inr (Or.inr ⟨n, r, List.mem_of_mem_filter hxm, hpred.1, hpred.2, rfl⟩)
  · rintro (⟨h, r, hmem, h1, h2, rfl⟩ | ⟨n, v, r, hmem, h1, h2, rfl⟩ | ⟨n, r, hmem, h1, h2, rfl⟩)
    · -- link
      refine Or.inl (Or.inl (List.mem_flatMap.mpr ⟨Mark.link h r, ?_,
        show Desc.linkD h ∈ [Desc.linkD h] from List.mem_singleton_self _⟩))
      rw [List.mem_reverse]
      refine List.mem_filter.mpr ⟨List.mem_filter.mpr ⟨hmem, ?_⟩, rfl⟩
      simp only [Mark.rng, decide_eq_true_eq]
      exact ⟨h1, h2⟩
    · -- value
      have hxval : Mark.value n v r ∈ (marks.filter
          (fun m => decide (m.rng.1 ≤ s ∧ e ≤ m.rng.2))).filter isValueMark := by
        refine List.mem_filter.mpr ⟨List.mem_filter.mpr ⟨hmem, ?_⟩, rfl⟩
        simp only [Mark.rng, decide_eq_true_eq]
        exact ⟨h1, h2⟩
      have hvne : (marks.filter
          (fun m => decide (m.rng.1 ≤ s ∧ e ≤ m.rng.2))).filter isValueMark ≠ [] :=
        List.ne_nil_of_mem hxval
      have hnvmem : (n, v) ∈ ((marks.filter
          (fun m => decide (m.rng.1 ≤ s ∧ e ≤ m.rng.2))).filter isValueMark).map markNV :=
        List.mem_map.mpr ⟨Mark.value n v r, hxval, rfl⟩
      obtain ⟨w, hfv, hwmem⟩ := firstVal_some_of_mem hnvmem
      have hweq : w = v := by
        rcases List.mem_map.mp hwmem with ⟨y, hy, hny⟩
        obtain ⟨n3, v3, r3, rfl⟩ := isValueMark_shape (List.of_mem_filter hy)
        simp only [markNV, Prod.mk.injEq] at hny
        obtain ⟨rfl, rfl⟩ := hny
        have hymem := List.mem_of_mem_filter (List.mem_of_mem_filter hy)
        have := hcons (Mark.value n3 v3 r3) hymem (Mark.value n3 v r) hmem
        exact this rfl
      subst hweq
      refine Or.inl (Or.inr ?_)
      rw [if_neg hvne]
      have hnv : n ∈ valueNames := (hgood _ hmem).1
      rw [mem_chunkDescs]
      rcases (by simpa [valueNames] using hnv :
          n = "color" ∨ n = "backgroundColor" ∨ n = "fontSize" ∨ n = "fontFamily")
        with rfl | rfl | rfl | rfl
      · exact Or.inr (Or.inl ⟨w, hfv, rfl⟩)
      · exact Or.inl ⟨w, hfv, rfl⟩
      · exact Or.inr (Or.inr (Or.inl ⟨w, hfv, rfl⟩))
      · exact Or.inr (Or.inr (Or.inr ⟨w, hfv, rfl⟩))
    · -- simple
      refine Or.inr (List.mem_flatMap.mpr
        ⟨Mark.simple n r, ?_,
         show Desc.simpleD n ∈ [Desc.simpleD n] from List.mem_singleton_self _⟩)
      refine List.mem_filter.mpr ⟨List.mem_filter.mpr ⟨hmem, ?_⟩, rfl⟩
      simp only [Mark.rng, decide_eq_true_eq]
      exact ⟨h1, h2⟩


theorem adjPairs_snd_mem {l : List Nat} {se : Nat × Nat} (h : se ∈ adjPairs l) :
    se.2 ∈ l := by
  match l with
  | [] => simp [adjPairs] at h
  | [a] => simp [adjPairs] at h
  | a :: b :: rest =>
    rcases List.mem_cons.mp h with rfl | h'
    · exact List.mem_cons_of_mem _ (List.mem_cons_self _ _)
    · exact List.mem_cons_of_mem _ (adjPairs_snd_mem h')

theorem adjPairs_no_between {l : List Nat} (hs : l.Pairwise (· < ·)) :
    ∀ se ∈ adjPairs l, ∀ x ∈ l, x ≤ se.1 ∨ se.2 ≤ x := by
  match l with
  | [] => simp [adjPairs]
  | [a] => simp [adjPairs]
  | a :: b1 :: rest =>
    intro se hse x hx
    rcases List.mem_cons.mp hse with rfl | hse'
    · rcases List.mem_cons.mp hx with rfl | hx'
      · exact Or.inl (le_refl x)
      · exact Or.inr (pairwise_lt_head (List.pairwise_cons.mp hs).2 x hx')
    · rcases List.mem_cons.mp hx with rfl | hx'
      · have h1 : se.1 ∈ b1 :: rest := adjPairs_fst_mem hse'
        exact Or.inl (le_of_lt ((List.pairwise_cons.mp hs).1 se.1 h1))
      · exact adjPairs_no_between (List.pairwise_cons.mp hs).2 se hse' x hx'

theorem adjPairs_straddle {l : List Nat} (p : Nat) :
    ∀ a : Nat, l.head? = some a → a ≤ p → (∃ b ∈ l, p < b) →
      ∃ se ∈ adjPairs l, se.1 ≤ p ∧ p < se.2 := by
  match l with
  | [] => intro a ha; simp at ha
  | [x] =>
    intro a ha hap hex
    obtain ⟨b, hb, hpb⟩ := hex
    simp only [List.head?_cons, Option.some.injEq] at ha
    simp only [List.mem_singleton] at hb
    subst ha; subst hb
    omega
  | x :: y :: rest =>
    intro a ha hap hex
    simp only [List.head?_cons, Option.some.injEq] at ha
    subst ha
    by_cases hpy : p < y
    · exact ⟨(x, y), List.mem_cons_self _ _, hap, hpy⟩
    · push_neg at hpy
      obtain ⟨b, hb, hpb⟩ := hex
      have hbtail : b ∈ y :: rest := by
        rcases List.mem_cons.mp hb with rfl | h
        · omega
        · exact h
      obtain ⟨se, hse, h1, h2⟩ := @adjPairs_straddle (y :: rest) p y rfl hpy ⟨b, hbtail, hpb⟩
      exact ⟨se, List.mem_cons_of_mem _ hse, h1, h2⟩

theorem adjPairs_head {l : List Nat} {se : Nat × Nat}
    (h : (adjPairs l).head? = some se) : l.head? = some se.1 := by
  match l with
  | [] => simp [adjPairs] at h
  | [a] => simp [adjPairs] at h
  | a :: b :: rest =>
    simp only [adjPairs, List.head?_cons, Option.some.injEq] at h
    subst h
    rfl

theorem goodMark_bounds {len : Nat} {m : Mark} (h : goodMark len m) :
    m.rng.1 ≤ m.rng.2 ∧ m.rng.2 ≤ len := by
  cases m with
  | simple n r => exact ⟨h.2.1, h.2.2⟩
  | link hr r => exact h
  | value n v r => exact ⟨h.2.2.2.2.1, h.2.2.2.2.2⟩
  | composite ns r => exact h.elim

theorem boundaryPoints_le {len : Nat} {marks : List Mark}
    (hgood : ∀ m ∈ marks, goodMark len m) :
    ∀ b ∈ boundaryPoints len marks, b ≤ len := by
  intro b hb
  rcases (mem_boundaryPoints len marks b).mp hb with rfl | rfl | ⟨m, hm, rfl | rfl⟩
  · omega
  · omega
  · have := goodMark_bounds (hgood m hm)
    omega
  · omega

theorem mark_start_mem_boundary {len : Nat} {marks : List Mark} {x : Mark}
    (hx : x ∈ marks) : x.rng.1 ∈ boundaryPoints len marks := by
  rw [mem_boundaryPoints]
  exact Or.inr (Or.inr ⟨x, hx, Or.inl rfl⟩)

theorem mark_end_mem_boundary {len : Nat} {marks : List Mark} {x : Mark}
    (hx : x ∈ marks) (hle : x.rng.2 ≤ len) : x.rng.2 ∈ boundaryPoints len marks := by
  rw [mem_boundaryPoints]
  refine Or.inr (Or.inr ⟨x, hx, Or.inr ?_⟩)
  omega

theorem extract_segments_fold (text : PyStr) (marks : List Mark)
    (hgood : ∀ m ∈ marks, goodMark text.length m) :
    ∀ (L : List (Nat × Nat)) (acc : PyStr) (ms : List Mark),
      List.Chain' segAbuts L →
      (∀ se ∈ L, se.1 < se.2 ∧ se.2 ≤ text.length) →
      (∀ se, L.head? = some se → se.1 = acc.length) →
      extractChildren (L.flatMap (renderSegmentNodes text marks)) [] (acc, ms)
        = (acc ++ (L.map fun se => pySlice text se.1 se.2).flatten,
           ms ++ L.flatMap fun se => (segDescs marks se).map (descToMark se)) := by
  intro L
  induction L with
  | nil =>
    intro acc ms _ _ _
    simp
    rfl
  | cons se L' ih =>
    intro acc ms hchain hbnd hhead
    obtain ⟨s, e⟩ := se
    have hse := hbnd (s, e) (List.mem_cons_self _ _)
    have hacc : acc.length = s := ((hhead (s, e) rfl)).symm
    have hlenacc : (acc ++ pySlice text s e).length = e := by
      rw [List.length_append, hacc]
      unfold pySlice
      rw [List.length_take, List.length_drop]
      have := hse.1
      have := hse.2
      simp only at this ⊢
      omega
    have hhead' : ∀ u, L'.head? = some u → u.1 = (acc ++ pySlice text s e).length := by
      intro u hu
      have habut := (List.chain'_cons'.mp hchain).1 u hu
      rw [hlenacc]
      exact habut.symm
    rw [List.flatMap_cons, extractChildren_append]
    rw [extract_segment text marks s e hgood acc ms hacc hse.1 hse.2]
    rw [ih (acc ++ pySlice text s e) _ (List.chain'_cons'.mp hchain).2
        (fun u hu => hbnd u (List.mem_cons_of_mem _ hu)) hhead']
    simp [List.append_assoc]

theorem adjPairs_eq_segments (text : PyStr) (marks : List Mark)
    (hgood : ∀ m ∈ marks, goodMark text.length m) :
    adjPairs (boundaryPoints text.length marks) = rendererSegments text marks := by
  rw [rendererSegments_eq]
  symm
  apply List.filter_eq_self.mpr
  intro se hse
  have h1 := adjPairs_lt (boundaryPoints_pairwise text.length marks) se hse
  have h2 := boundaryPoints_le hgood se.2 (adjPairs_snd_mem hse)
  simp only [decide_eq_true_eq]
  omega

theorem extract_applyMarks (text : PyStr) (marks : List Mark)
    (hgood : ∀ m ∈ marks, goodMark text.length m) :
    extractChildren (applyMarksNodes text marks) [] ([], [])
      = (text, (adjPairs (boundaryPoints text.length marks)).flatMap
          fun se => (segDescs marks se).map (descToMark se)) := by
  have hprops := rendererSegments_props text marks
  by_cases hm : marks = []
  · subst hm
    have hflat : ((adjPairs (boundaryPoints text.length ([] : List Mark))).flatMap
        fun se => (segDescs [] se).map (descToMark se)) = [] := by
      apply List.flatMap_eq_nil_iff.mpr
      intro se _
      rfl
    rw [hflat, applyMarksNodes, if_pos rfl]
    cases htext : text with
    | nil => rfl
    | cons c t =>
      rw [extractChildren_singleton]
      show (if (c :: t) = [] then (([] : PyStr), ([] : List Mark)) else _) = _
      rw [if_neg (by simp)]
      simp
  · rw [applyMarksNodes, if_neg hm]
    rw [extract_segments_fold text marks hgood _ [] []
        (by rw [adjPairs_eq_segments text marks hgood]; exact hprops.1)
        (by rw [adjPairs_eq_segments text marks hgood]; exact hprops.2.1)
        ?_]
    · rw [adjPairs_eq_segments text marks hgood]
      rw [hprops.2.2.1]
      simp
    · intro se hse
      have hbp := adjPairs_head hse
      have hd0 : (boundaryPoints text.length marks).headD 0 = 0 :=
        headD_eq_zero (boundaryPoints_pairwise _ _) (mem_boundaryPoints_zero _ _)
      rw [List.headD_eq_head?_getD, hbp] at hd0
      simpa using hd0


theorem applyMarks_coverage (text : PyStr) (marks : List Mark)
    (hgood : ∀ m ∈ marks, goodMark text.length m) (hcons : marksConsistent marks)
    (m : Mark) (p : Nat) :
    (∃ x ∈ (adjPairs (boundaryPoints text.length marks)).flatMap
        fun se => (segDescs marks se).map (descToMark se),
      sameMergeKey m x ∧ x.covers p)
      ↔ ∃ x ∈ marks, sameMergeKey m x ∧ x.covers p := by
  constructor
  · rintro ⟨x, hx, hk, hcov⟩
    rcases List.mem_flatMap.mp hx with ⟨se, hse, hxm⟩
    rcases List.mem_map.mp hxm with ⟨d, hd, rfl⟩
    rcases (mem_segDescs hgood hcons).mp hd with
      ⟨h, r, hmem, h1, h2, rfl⟩ | ⟨n, v, r, hmem, h1, h2, rfl⟩ | ⟨n, r, hmem, h1, h2, rfl⟩
    · obtain ⟨hc1, hc2⟩ : se.1 ≤ p ∧ p < se.2 := by
        simpa [descToMark, Mark.covers, Mark.rng] using hcov
      refine ⟨Mark.link h r, hmem, ?_, ⟨show r.1 ≤ p by omega, show p < r.2 by omega⟩⟩
      cases m <;> simp_all [sameMergeKey, descToMark]
    · obtain ⟨hc1, hc2⟩ : se.1 ≤ p ∧ p < se.2 := by
        simpa [descToMark, Mark.covers, Mark.rng] using hcov
      refine ⟨Mark.value n v r, hmem, ?_,
        ⟨show r.1 ≤ p by omega, show p < r.2 by omega⟩⟩
      cases m <;> simp_all [sameMergeKey, descToMark]
    · obtain ⟨hc1, hc2⟩ : se.1 ≤ p ∧ p < se.2 := by
        simpa [descToMark, Mark.covers, Mark.rng] using hcov
      refine ⟨Mark.simple n r, hmem, ?_,
        ⟨show r.1 ≤ p by omega, show p < r.2 by omega⟩⟩
      cases m <;> simp_all [sameMergeKey, descToMark]
  · rintro ⟨y, hy, hk, hcov⟩
    have hgy := hgood y hy
    have hbnds := goodMark_bounds hgy
    obtain ⟨hc1, hc2⟩ : y.rng.1 ≤ p ∧ p < y.rng.2 := hcov
    have hne : (boundaryPoints text.length marks) ≠ [] :=
      List.ne_nil_of_mem (mem_boundaryPoints_zero _ _)
    rcases hhd : (boundaryPoints text.length marks).head? with _ | h0
    · exact absurd (List.head?_eq_none_iff.mp hhd) hne
    have hh0 : h0 = 0 := by
      have hD := headD_eq_zero (boundaryPoints_pairwise text.length marks)
        (mem_boundaryPoints_zero _ _)
      rw [List.headD_eq_head?_getD, hhd] at hD
      simpa using hD
    subst hh0
    obtain ⟨se, hse, hs1, hs2⟩ := adjPairs_straddle p 0 hhd (by omega)
      ⟨y.rng.2, mark_end_mem_boundary hy hbnds.2, hc2⟩
    have hnb1 := adjPairs_no_between (boundaryPoints_pairwise _ _) se hse
      y.rng.1 (mark_start_mem_boundary hy)
    have hnb2 := adjPairs_no_between (boundaryPoints_pairwise _ _) se hse
      y.rng.2 (mark_end_mem_boundary hy hbnds.2)
    have hact1 : y.rng.1 ≤ se.1 := by
      rcases hnb1 with h | h
      · exact h
      · exfalso; omega
    have hact2 : se.2 ≤ y.rng.2 := by
      rcases hnb2 with h | h
      · exfalso; omega
      · exact h
    cases y with
    | simple n r =>
      refine ⟨Mark.simple n se, List.mem_flatMap.mpr ⟨se, hse, List.mem_map.mpr
        ⟨Desc.simpleD n, (mem_segDescs hgood hcons).mpr (Or.inr (Or.inr
          ⟨n, r, hy, hact1, hact2, rfl⟩)), rfl⟩⟩, ?_, ⟨hs1, hs2⟩⟩
      cases m <;> simp_all [sameMergeKey]
    | link h r =>
      refine ⟨Mark.link h se, List.mem_flatMap.mpr ⟨se, hse, List.mem_map.mpr
        ⟨Desc.linkD h, (mem_segDescs hgood hcons).mpr (Or.inl
          ⟨h, r, hy, hact1, hact2, rfl⟩), rfl⟩⟩, ?_, ⟨hs1, hs2⟩⟩
      cases m <;> simp_all [sameMergeKey]
    | value n v r =>
      refine ⟨Mark.value n v se, List.mem_flatMap.mpr ⟨se, hse, List.mem_map.mpr
        ⟨Desc.valueD n v, (mem_segDescs hgood hcons).mpr (Or.inr (Or.inl
          ⟨n, v, r, hy, hact1, hact2, rfl⟩)), rfl⟩⟩, ?_, ⟨hs1, hs2⟩⟩
      cases m <;> simp_all [sameMergeKey]
    | composite ns r => exact hgy.elim


def keyCovered (marks : List Mark) (m : Mark) (p : Nat) : Prop :=
  ∃ x ∈ marks, sameMergeKey m x ∧ x.covers p

instance (marks : List Mark) (m : Mark) (p : Nat) : Decidable (keyCovered marks m p) := by
  unfold keyCovered; infer_instance

theorem extract_block (tag : String) (attrs : List (String × PyStr))
    (text : PyStr) (marks : List Mark)
    (htag : nodeDescs tag attrs = [])
    (hgood : ∀ m ∈ marks, goodMark text.length m) (hcons : marksConsistent marks) :
    (extractTextAndMarks (HNode.elem tag attrs (applyMarksNodes text marks))).1 = text
    ∧ ∀ m p, keyCovered (extractTextAndMarks (HNode.elem tag attrs
        (applyMarksNodes text marks))).2 m p ↔ keyCovered marks m p := by
  have hgo : extractGo (HNode.elem tag attrs (applyMarksNodes text marks)) [] ([], [])
      = extractChildren (applyMarksNodes text marks) [] ([], []) := by
    show extractChildren (applyMarksNodes text marks) ([] ++ nodeDescs tag attrs) ([], []) = _
    rw [htag]
    rfl
  have hext := extract_applyMarks text marks hgood
  constructor
  · show (extractGo (HNode.elem tag attrs (applyMarksNodes text marks)) [] ([], [])).1 = text
    rw [hgo, hext]
  · intro m p
    show keyCovered (mergeAdjacentMarks
      (extractGo (HNode.elem tag attrs (applyMarksNodes text marks)) [] ([], [])).2) m p ↔ _
    rw [hgo, hext]
    unfold keyCovered
    rw [mergeAdjacentMarks_covers]
    exact applyMarks_coverage text marks hgood hcons m p

def blockSig : Block → String × PyStr
  | .paragraph _ text _ _ => ("paragraph", text)
  | .heading _ level text _ => ("heading" ++ toString level, text)
  | .table _ _ => ("table", [])
  | .image _ src _ => ("image", src)
  | .code _ text _ => ("code", text)
  | .divider _ => ("divider", [])

def marksOf : Block → List Mark
  | .paragraph _ _ marks _ => marks
  | .heading _ _ _ marks => marks
  | _ => []

def rtEquiv (b b' : Block) : Prop :=
  blockSig b' = blockSig b
  ∧ ∀ m p, keyCovered (marksOf b') m p ↔ keyCovered (marksOf b) m p

def goodMarks (text : PyStr) (marks : List Mark) : Prop :=
  (∀ m ∈ marks, goodMark text.length m) ∧ marksConsistent marks

def goodBlock : Block → Prop
  | .paragraph _ text marks _ => goodMarks text marks
  | .heading _ level text marks => 1 ≤ level ∧ level ≤ 6 ∧ goodMarks text marks
  | .table _ _ => False
  | .image _ _ _ => True
  | .code _ _ _ => True
  | .divider _ => True

instance (text : PyStr) (marks : List Mark) : Decidable (goodMarks text marks) := by
  unfold goodMarks; infer_instance

instance (b : Block) : Decidable (goodBlock b) := by
  cases b <;> simp only [goodBlock] <;> infer_instance

theorem getText_textChild (tag : String) (cattrs : List (String × PyStr)) (text : PyStr) :
    getText (HNode.elem tag cattrs [HNode.text text]) = text := by
  cases text with
  | nil => rfl
  | cons c t => rfl

theorem parse_block_nonlist (b : Block) (hb : goodBlock b) :
    ∃ b', parseElement (renderBlockNodes emptyStyleCss b) = [b'] ∧ rtEquiv b b' := by
  cases b with
  | paragraph id text marks attrs =>
    obtain ⟨hg, hc⟩ := hb
    obtain ⟨ht, hm⟩ := extract_block "p" [] text marks rfl hg hc
    refine ⟨_, rfl, ?_, ?_⟩
    · show ("paragraph",
        (extractTextAndMarks (HNode.elem "p" [] (applyMarksNodes text marks))).1)
        = ("paragraph", text)
      rw [ht]

    · intro m p
      exact hm m p
  | heading id level text marks =>
    obtain ⟨h1, h2, hg, hc⟩ := hb
    interval_cases level
    · obtain ⟨ht, hm⟩ := extract_block "h1" [] text marks rfl hg hc
      refine ⟨_, rfl, ?_, fun m p => hm m p⟩
      show ("heading" ++ toString (1 : Nat),
        (extractTextAndMarks (HNode.elem "h1" [] (applyMarksNodes text marks))).1) = _
      rw [ht]
      rfl
    · obtain ⟨ht, hm⟩ := extract_block "h2" [] text marks rfl hg hc
      refine ⟨_, rfl, ?_, fun m p => hm m p⟩
      show ("heading" ++ toString (2 : Nat),
        (extractTextAndMarks (HNode.elem "h2" [] (applyMarksNodes text marks))).1) = _
      rw [ht]
      rfl
    · obtain ⟨ht, hm⟩ := extract_block "h3" [] text marks rfl hg hc
      refine ⟨_, rfl, ?_, fun m p => hm m p⟩
      show ("heading" ++ toString (3 : Nat),
        (extractTextAndMarks (HNode.elem "h3" [] (applyMarksNodes text marks))).1) = _
      rw [ht]
      rfl
    · obtain ⟨ht, hm⟩ := extract_block "h4" [] text marks rfl hg hc
      refine ⟨_, rfl, ?_, fun m p => hm m p⟩
      show ("heading" ++ toString (4 : Nat),
        (extractTextAndMarks (HNode.elem "h4" [] (applyMarksNodes text marks))).1) = _
      rw [ht]
      rfl
    · obtain ⟨ht, hm⟩ := extract_block "h5" [] text marks rfl hg hc
      refine ⟨_, rfl, ?_, fun m p => hm m p⟩
      show ("heading" ++ toString (5 : Nat),
        (extractTextAndMarks (HNode.elem "h5" [] (applyMarksNodes text marks))).1) = _
      rw [ht]
      rfl
    · obtain ⟨ht, hm⟩ := extract_block "h6" [] text marks rfl hg hc
      refine ⟨_, rfl, ?_, fun m p => hm m p⟩
      show ("heading" ++ toString (6 : Nat),
        (extractTextAndMarks (HNode.elem "h6" [] (applyMarksNodes text marks))).1) = _
      rw [ht]
      rfl
  | image id src meta =>
    exact ⟨_, rfl, rfl, fun m p => Iff.rfl⟩
  | table id data => exact hb.elim
  | code id text lang =>
    by_cases hl : lang.getD [] ≠ []
    · rw [renderBlockNodes, if_pos hl]
      refine ⟨_, rfl, ?_, fun m p => Iff.rfl⟩
      show ("code", getText (HNode.elem "code"
          [("class", "language-".toList ++ lang.getD [])] [HNode.text text])) = ("code", text)
      rw [getText_textChild]
    · rw [renderBlockNodes, if_neg hl]
      refine ⟨_, rfl, ?_, fun m p => Iff.rfl⟩
      show ("code", getText (HNode.elem "code" [] [HNode.text text])) = ("code", text)
      rw [getText_textChild]
  | divider id =>
    exact ⟨_, rfl, rfl, fun m p => Iff.rfl⟩


theorem mem_links_foldl {ls : List Mark} {base : List HNode} {n : HNode}
    (hmem : n ∈ ls.foldl (fun cur m =>
        match m with
        | Mark.link h _ => [HNode.elem "a" [("href", h)] cur]
        | _ => cur) base) :
    n ∈ base ∨ ∃ h cur, n = HNode.elem "a" [("href", h)] cur := by
  induction ls generalizing base with
  | nil => exact Or.inl hmem
  | cons m ls' ih =>
    rw [List.foldl_cons] at hmem
    rcases ih hmem with hbase | hex
    · cases m with
      | link h r =>
        simp only [List.mem_singleton] at hbase
        exact Or.inr ⟨h, base, hbase⟩
      | simple nm r => exact Or.inl hbase
      | value nm v r => exact Or.inl hbase
      | composite ns r => exact Or.inl hbase
    · exact Or.inr hex

theorem mem_simples_foldl {ss : List Mark} {base : List HNode} {n : HNode}
    (hmem : n ∈ ss.foldl (fun cur m => wrapSimpleNode m cur) base) :
    n ∈ base ∨ ∃ t a c, n = HNode.elem t a c
      ∧ t ∈ ["strong", "em", "u", "s", "code", "sup", "sub"] := by
  induction ss generalizing base with
  | nil => exact Or.inl hmem
  | cons m ss' ih =>
    rw [List.foldl_cons] at hmem
    rcases ih hmem with hbase | hex
    · cases m with
      | simple nm r =>
        simp only [wrapSimpleNode] at hbase
        split at hbase
        · rcases List.mem_singleton.mp hbase with rfl
          exact Or.inr ⟨_, _, _, rfl, by simp⟩
        · split at hbase
          · rcases List.mem_singleton.mp hbase with rfl
            exact Or.inr ⟨_, _, _, rfl, by simp⟩
          · split at hbase
            · rcases List.mem_singleton.mp hbase with rfl
              exact Or.inr ⟨_, _, _, rfl, by simp⟩
            · split at hbase
              · rcases List.mem_singleton.mp hbase with rfl
                exact Or.inr ⟨_, _, _, rfl, by simp⟩
              · split at hbase
                · rcases List.mem_singleton.mp hbase with rfl
                  exact Or.inr ⟨_, _, _, rfl, by simp⟩
                · split at hbase
                  · rcases List.mem_singleton.mp hbase with rfl
                    exact Or.inr ⟨_, _, _, rfl, by simp⟩
                  · split at hbase
                    · rcases List.mem_singleton.mp hbase with rfl
                      exact Or.inr ⟨_, _, _, rfl, by simp⟩
                    · exact Or.inl hbase
      | link h r => exact Or.inl hbase
      | value nm v r => exact Or.inl hbase
      | composite ns r => exact Or.inl hbase
    · exact Or.inr hex

theorem applyMarks_no_list (text : PyStr) (marks : List Mark) :
    (applyMarksNodes text marks).find? (fun k => isElemWithTag ["ul", "ol"] k) = none := by
  rw [List.find?_eq_none]
  intro n hn
  suffices h : isElemWithTag ["ul", "ol"] n = false by simp [h]
  unfold applyMarksNodes at hn
  split at hn
  · simp only [List.mem_singleton] at hn
    subst hn
    rfl
  · rcases List.mem_flatMap.mp hn with ⟨se, _, hn2⟩
    unfold renderSegmentNodes at hn2
    dsimp only at hn2
    split at hn2
    · simp at hn2
    · rcases mem_links_foldl hn2 with hcur | ⟨h, cur, rfl⟩
      · -- in cur2: split the two ifs
        split at hcur
        · split at hcur
          · simp only [List.mem_singleton] at hcur
            subst hcur
            rfl
          · rcases mem_simples_foldl hcur with hbase | ⟨t, a, c, rfl, ht⟩
            · simp only [List.mem_singleton] at hbase
              subst hbase
              rfl
            · rcases (by simpa using ht :
                  t = "strong" ∨ t = "em" ∨ t = "u" ∨ t = "s" ∨ t = "code"
                    ∨ t = "sup" ∨ t = "sub")
                with rfl | rfl | rfl | rfl | rfl | rfl | rfl <;> rfl
        · rcases mem_simples_foldl hcur with hbase | ⟨t, a, c, rfl, ht⟩
          · simp only [List.mem_singleton] at hbase
            subst hbase
            rfl
          · rcases (by simpa using ht :
              t = "strong" ∨ t = "em" ∨ t = "u" ∨ t = "s" ∨ t = "code"
                ∨ t = "sup" ∨ t = "sub")
              with rfl | rfl | rfl | rfl | rfl | rfl | rfl <;> rfl
      · rfl


/-- The `li` node `_render_list_group` emits for one item (empty
stylesheet). -/
def liOf : Block → HNode
  | .paragraph id text marks _ =>
    HNode.elem "li" (styleAttrOf (emptyStyleCss id)) (applyMarksNodes text marks)
  | _ => HNode.elem "li" [] []

/-- The paragraph attributes `parse_list_items` stamps on an item. -/
def liAttrs (t0 : String) (lvl : Nat) (attrs : List (String × PyStr)) :
    Option ParagraphAttrs :=
  some { listType := some t0, listLevel := some lvl,
         listStart :=
           if t0 = "ordered" then
             some (Int.ofNat (match getAttr attrs "start" with
               | some s => natOfDigits s
               | none => 1))
           else none }

def listGroupAttrs (lvl : Nat) : List (String × PyStr) :=
  if lvl > 0 then
    [("style", "margin-left: ".toList ++ (toString (lvl * 2)).toList ++ "em".toList)]
  else []

theorem parseListFuel_nil (fuel : Nat) (t0 : String) (lvl : Nat) (tag : String)
    (attrs : List (String × PyStr)) :
    parseListFuel (fuel + 1) t0 lvl (HNode.elem tag attrs []) = [] := rfl

theorem parseListFuel_cons (fuel : Nat) (t0 : String) (lvl : Nat) (tag : String)
    (attrs : List (String × PyStr)) (id : PyStr) (text : PyStr) (marks : List Mark)
    (a : Option ParagraphAttrs) (rest : List Block)
    (hnone : (applyMarksNodes text marks).find?
      (fun k => isElemWithTag ["ul", "ol"] k) = none) :
    parseListFuel (fuel + 1) t0 lvl (HNode.elem tag attrs
        ((Block.paragraph id text marks a :: rest).map liOf))
      = Block.paragraph []
          (extractTextAndMarks (HNode.elem "li" [] (applyMarksNodes text marks))).1
          (extractTextAndMarks (HNode.elem "li" [] (applyMarksNodes text marks))).2
          (liAttrs t0 lvl attrs)
        :: parseListFuel (fuel + 1) t0 lvl (HNode.elem tag attrs (rest.map liOf)) := by
  show (Block.paragraph []
          (extractTextAndMarks (HNode.elem "li" [] (applyMarksNodes text marks))).1
          (extractTextAndMarks (HNode.elem "li" [] (applyMarksNodes text marks))).2
          (liAttrs t0 lvl attrs)
        :: (match (applyMarksNodes text marks).find?
              (fun k => isElemWithTag ["ul", "ol"] k) with
            | some nested =>
              parseListFuel fuel
                (match nested with
                 | HNode.elem ntag _ _ => listTypeOf ntag
                 | HNode.text _ => "bullet")
                (lvl + 1) nested
            | none => []))
      ++ parseListFuel (fuel + 1) t0 lvl (HNode.elem tag attrs (rest.map liOf)) = _
  rw [hnone]
  simp

theorem parseListFuel_lis (t0 : String) (plvl : Nat) (tag : String)
    (attrs : List (String × PyStr)) (fuel : Nat) :
    ∀ items : List Block,
      (∀ b ∈ items, goodBlock b ∧ ∃ id text marks a, b = Block.paragraph id text marks a) →
      List.Forall₂ rtEquiv items
        (parseListFuel (fuel + 1) t0 plvl (HNode.elem tag attrs (items.map liOf))) := by
  intro items
  induction items with
  | nil =>
    intro _
    rw [List.map_nil, parseListFuel_nil]
    exact List.Forall₂.nil
  | cons b rest ih =>
    intro hitems
    obtain ⟨hgb, id, text, marks, a, rfl⟩ := hitems b (List.mem_cons_self _ _)
    rw [parseListFuel_cons fuel t0 plvl tag attrs id text marks a rest
      (applyMarks_no_list text marks)]
    refine List.Forall₂.cons ?_ (ih fun x hx => hitems x (List.mem_cons_of_mem _ hx))
    obtain ⟨hg, hc⟩ := hgb
    obtain ⟨ht, hm⟩ := extract_block "li" [] text marks rfl hg hc
    refine ⟨?_, fun m p => hm m p⟩
    show ("paragraph",
      (extractTextAndMarks (HNode.elem "li" [] (applyMarksNodes text marks))).1) = _
    rw [ht]
    rfl

theorem parse_listGroup (t : String) (lvl : Nat) (items : List Block)
    (hitems : ∀ b ∈ items, goodBlock b
      ∧ ∃ id text marks a, b = Block.paragraph id text marks a) :
    List.Forall₂ rtEquiv items
      (parseElement (renderListGroup emptyStyleCss items t lvl)) := by
  have hmain : ∀ tag t0 : String, tag = "ul" ∧ t0 = "bullet" ∨ tag = "ol" ∧ t0 = "ordered" →
      List.Forall₂ rtEquiv items
        (parseElement (HNode.elem tag (listGroupAttrs lvl) (items.map liOf))) := by
    intro tag t0 htag
    rcases htag with ⟨rfl, rfl⟩ | ⟨rfl, rfl⟩
    · have heq : parseElement (HNode.elem "ul" (listGroupAttrs lvl) (items.map liOf))
          = parseListFuel (hsizeList (items.map liOf) + 1) "bullet" 0
              (HNode.elem "ul" (listGroupAttrs lvl) (items.map liOf)) := by
        show parseListFuel (hsize (HNode.elem "ul" (listGroupAttrs lvl) (items.map liOf)))
            "bullet" 0 (HNode.elem "ul" (listGroupAttrs lvl) (items.map liOf)) = _
        rw [show hsize (HNode.elem "ul" (listGroupAttrs lvl) (items.map liOf))
            = hsizeList (items.map liOf) + 1 from Nat.add_comm 1 _]
      rw [heq]
      exact parseListFuel_lis "bullet" 0 "ul" (listGroupAttrs lvl)
        (hsizeList (items.map liOf)) items hitems
    · have heq : parseElement (HNode.elem "ol" (listGroupAttrs lvl) (items.map liOf))
          = parseListFuel (hsizeList (items.map liOf) + 1) "ordered" 0
              (HNode.elem "ol" (listGroupAttrs lvl) (items.map liOf)) := by
        show parseListFuel (hsize (HNode.elem "ol" (listGroupAttrs lvl) (items.map liOf)))
            "ordered" 0 (HNode.elem "ol" (listGroupAttrs lvl) (items.map liOf)) = _
        rw [show hsize (HNode.elem "ol" (listGroupAttrs lvl) (items.map liOf))
            = hsizeList (items.map liOf) + 1 from Nat.add_comm 1 _]
      rw [heq]
      exact parseListFuel_lis "ordered" 0 "ol" (listGroupAttrs lvl)
        (hsizeList (items.map liOf)) items hitems
  by_cases hbt : t = "bullet"
  · subst hbt
    exact hmain "ul" "bullet" (Or.inl ⟨rfl, rfl⟩)
  · have heq : renderListGroup emptyStyleCss items t lvl
        = HNode.elem "ol" (listGroupAttrs lvl) (items.map liOf) := by
      rw [renderListGroup, if_neg hbt]
      rfl
    rw [heq]
    exact hmain "ol" "ordered" (Or.inr ⟨rfl, rfl⟩)


theorem parseElements_text_cons (s : PyStr) (rest : List HNode) :
    parseElements (HNode.text s :: rest)
      = (if pyStrip s ≠ [] then [Block.paragraph [] (pyStrip s) [] none] else [])
        ++ parseElements rest := rfl

theorem parseElements_elem_cons (t : String) (a : List (String × PyStr))
    (k : List HNode) (rest : List HNode) :
    parseElements (HNode.elem t a k :: rest)
      = parseElement (HNode.elem t a k) ++ parseElements rest := rfl

theorem parseElements_newline_cons (rest : List HNode) :
    parseElements (HNode.text "\n".toList :: rest) = parseElements rest := by
  rw [parseElements_text_cons, if_neg (by decide)]
  rfl

theorem parseElements_intersperse (l : List HNode) :
    parseElements (l.intersperse (HNode.text "\n".toList)) = parseElements l := by
  induction l with
  | nil => rfl
  | cons a rest ih =>
    cases rest with
    | nil => rfl
    | cons b rest' =>
      rw [List.intersperse_cons_cons]
      cases a with
      | elem t a2 k =>
        rw [parseElements_elem_cons, parseElements_newline_cons, ih,
          ← parseElements_elem_cons]
      | text s =>
        rw [parseElements_text_cons, parseElements_newline_cons, ih,
          ← parseElements_text_cons]

theorem listKey_some_shape {b : Block} {tl : String × Nat} (h : listKey b = some tl) :
    goodBlock b → goodBlock b ∧ ∃ id text marks a, b = Block.paragraph id text marks a := by
  intro hgb
  refine ⟨hgb, ?_⟩
  cases b with
  | paragraph id text marks attrs => exact ⟨id, text, marks, attrs, rfl⟩
  | heading id level text marks => simp [listKey] at h
  | image id src meta => simp [listKey] at h
  | table id data => simp [listKey] at h
  | code id text lang => simp [listKey] at h
  | divider id => simp [listKey] at h

theorem renderBlockNodes_elem (b : Block) :
    ∃ t a c, renderBlockNodes emptyStyleCss b = HNode.elem t a c := by
  cases b with
  | paragraph id text marks attrs => exact ⟨_, _, _, rfl⟩
  | heading id level text marks => exact ⟨_, _, _, rfl⟩
  | image id src meta => exact ⟨_, _, _, rfl⟩
  | table id data => exact ⟨_, _, _, rfl⟩
  | code id text lang =>
    by_cases hl : lang.getD [] ≠ []
    · rw [renderBlockNodes, if_pos hl]
      exact ⟨_, _, _, rfl⟩
    · rw [renderBlockNodes, if_neg hl]
      exact ⟨_, _, _, rfl⟩
  | divider id => exact ⟨_, _, _, rfl⟩

theorem renderListGroup_elem (items : List Block) (t : String) (lvl : Nat) :
    renderListGroup emptyStyleCss items t lvl
      = HNode.elem (if t = "bullet" then "ul" else "ol") (listGroupAttrs lvl)
          (items.map liOf) := by
  rw [renderListGroup]
  rfl

def pendingItems : Option (String × Nat × List Block) → List Block
  | none => []
  | some (_, _, items) => items.reverse

def pendingOK : Option (String × Nat × List Block) → Prop
  | none => True
  | some (_, _, items) => ∀ b ∈ items, goodBlock b
      ∧ ∃ id text marks a, b = Block.paragraph id text marks a

theorem parse_group_node (items : List Block) (t : String) (lvl : Nat) (rest : List HNode)
    (hitems : ∀ b ∈ items, goodBlock b
      ∧ ∃ id text marks a, b = Block.paragraph id text marks a) :
    parseElements (renderListGroup emptyStyleCss items t lvl :: rest)
      = parseElement (renderListGroup emptyStyleCss items t lvl) ++ parseElements rest := by
  rw [renderListGroup_elem, parseElements_elem_cons, ← renderListGroup_elem]

theorem parse_renderLoop (blocks : List Block) (hg : ∀ b ∈ blocks, goodBlock b) :
    ∀ pending, pendingOK pending →
      List.Forall₂ rtEquiv (pendingItems pending ++ blocks)
        (parseElements (renderLoop emptyStyleCss pending blocks)) := by
  induction blocks with
  | nil =>
    intro pending hp
    cases pending with
    | none => exact List.Forall₂.nil
    | some p =>
      obtain ⟨t, lvl, items⟩ := p
      show List.Forall₂ rtEquiv (items.reverse ++ [])
        (parseElements [renderListGroup emptyStyleCss items.reverse t lvl])
      rw [List.append_nil, parse_group_node _ _ _ _
        (fun b hb => hp b (List.mem_reverse.mp hb))]
      have h1 := parse_listGroup t lvl items.reverse
        (fun b hb => hp b (List.mem_reverse.mp hb))
      rw [show parseElements ([] : List HNode) = [] from rfl, List.append_nil]
      exact h1
  | cons b rest ih =>
    intro pending hp
    have hgb := hg b (List.mem_cons_self _ _)
    have hg' : ∀ x ∈ rest, goodBlock x := fun x hx => hg x (List.mem_cons_of_mem _ hx)
    cases pending with
    | none =>
      rcases hlk : listKey b with _ | tl
      · -- plain block
        rw [renderLoop, hlk]
        obtain ⟨t, a, c, hel⟩ := renderBlockNodes_elem b
        rw [hel, parseElements_elem_cons, ← hel]
        obtain ⟨b', hpb, hequiv⟩ := parse_block_nonlist b hgb
        rw [hpb]
        exact List.Forall₂.cons hequiv (ih hg' none trivial)
      · -- open a group
        obtain ⟨t, lvl⟩ := tl
        rw [renderLoop, hlk]
        have := ih hg' (some (t, lvl, [b]))
          (by intro x hx
              simp only [List.mem_singleton] at hx
              subst hx
              exact listKey_some_shape hlk hgb)
        simpa using this
    | some p =>
      obtain ⟨t, lvl, items⟩ := p
      rcases hlk : listKey b with _ | tl
      · -- close the group, then a plain block
        rw [renderLoop, hlk]
        rw [parse_group_node _ _ _ _ (fun x hx => hp x (List.mem_reverse.mp hx))]
        obtain ⟨t2, a2, c2, hel⟩ := renderBlockNodes_elem b
        rw [hel, parseElements_elem_cons, ← hel]
        obtain ⟨b', hpb, hequiv⟩ := parse_block_nonlist b hgb
        rw [hpb]
        have hgrp := parse_listGroup t lvl items.reverse
          (fun x hx => hp x (List.mem_reverse.mp hx))
        have htail := ih hg' none trivial
        show List.Forall₂ rtEquiv (items.reverse ++ b :: rest) _
        have hcomb := List.rel_append hgrp
          (List.Forall₂.cons hequiv htail)
        simpa using hcomb
      · obtain ⟨t', lvl'⟩ := tl
        rw [renderLoop, hlk]
        dsimp only
        by_cases hsame : t' = t ∧ lvl' = lvl
        · rw [if_pos hsame]
          have := ih hg' (some (t, lvl, b :: items))
            (by intro x hx
                rcases List.mem_cons.mp hx with rfl | hx'
                · exact listKey_some_shape hlk hgb
                · exact hp x hx')
          show List.Forall₂ rtEquiv (items.reverse ++ b :: rest) _
          have hl : items.reverse ++ b :: rest = (b :: items).reverse ++ rest := by
            simp
          rw [hl]
          exact this
        · rw [if_neg hsame]
          rw [parse_group_node _ _ _ _ (fun x hx => hp x (List.mem_reverse.mp hx))]
          have hgrp := parse_listGroup t lvl items.reverse
            (fun x hx => hp x (List.mem_reverse.mp hx))
          have htail := ih hg' (some (t', lvl', [b]))
            (by intro x hx
                simp only [List.mem_singleton] at hx
                subst hx
                exact listKey_some_shape hlk hgb)
          show List.Forall₂ rtEquiv (items.reverse ++ b :: rest) _
          have hcomb := List.rel_append hgrp htail
          simpa using hcomb

theorem parse_renderContent (blocks : List Block) (hg : ∀ b ∈ blocks, goodBlock b) :
    List.Forall₂ rtEquiv blocks (parseHtml (renderContent emptyStyleCss blocks)) := by
  unfold renderContent parseHtml
  rw [parseElements_intersperse]
  have := parse_renderLoop blocks hg none trivial
  simpa using this


/-- The wangeditor round-trip scenario blocks for the C1 witness. -/
def c1DemoBlocks : List Block :=
  [Block.heading [] 2 "ab".toList [Mark.simple "bold" (0, 1)],
   Block.paragraph [] "cd".toList
     [Mark.value "color" "red".toList (0, 2), Mark.link "u".toList (1, 2)] none,
   Block.paragraph [] "x".toList [] (some ⟨some "bullet", some 1, none⟩),
   Block.divider []]

/-- Overlapping same-name value marks are clipped at the first mark's end by
the round trip: the renderer resolves each boundary segment to the first
active colour, so `blue (2,4)` comes back as `blue (3,4)` and position 2 is
no longer covered by the `blue` key. -/
theorem c1_roundtrip_counterexample :
    (parseHtml (renderContent emptyStyleCss
        [Block.paragraph [] "abcd".toList
          [Mark.value "color" "red".toList (0, 3),
           Mark.value "color" "blue".toList (2, 4)] none])).map marksOf
      = [[Mark.value "color" "red".toList (0, 3),
          Mark.value "color" "blue".toList (3, 4)]]
    ∧ keyCovered
        [Mark.value "color" "red".toList (0, 3), Mark.value "color" "blue".toList (2, 4)]
        (Mark.value "color" "blue".toList (0, 0)) 2
    ∧ ¬ keyCovered
        [Mark.value "color" "red".toList (0, 3), Mark.value "color" "blue".toList (3, 4)]
        (Mark.value "color" "blue".toList (0, 0)) 2 := by
  refine ⟨?_, ?_, ?_⟩ <;> decide

theorem forall₂_rtEquiv_map_sig :
    ∀ {l1 l2 : List Block}, List.Forall₂ rtEquiv l1 l2 →
      l2.map blockSig = l1.map blockSig := by
  intro l1 l2 h
  induction h with
  | nil => rfl
  | cons hab hrest ih => simp [List.map_cons, ih, hab.1]

/-- **C1.** (corrected) Round trip `parse(render(Content, StyleSheet))` at the
empty stylesheet: for blocks within the editor's vocabulary — no tables,
heading levels 1-6, marks drawn from the seven simple names, links and the
four value names with clean (no `:`/`;`, strip-stable, non-empty) values,
in-bounds ranges, and same-name value marks sharing one value per block —
parsing the rendered HTML yields blocks in the same order related one-to-one
to the input blocks: same signature (block type, heading level, text, image
src) and, after mark normalization, the same effective formatting ranges
(per merge key, every character position is covered by the same keys before
and after the round trip). -/
theorem c1_round_trip (blocks : List Block) (hg : ∀ b ∈ blocks, goodBlock b) :
    List.Forall₂ rtEquiv blocks (parseHtml (renderContent emptyStyleCss blocks))
    ∧ (parseHtml (renderContent emptyStyleCss blocks)).map blockSig
        = blocks.map blockSig := by
  have h := parse_renderContent blocks hg
  exact ⟨h, forall₂_rtEquiv_map_sig h⟩

/-- The C1 theorem applied to a concrete document: a heading with a bold
mark, a coloured/linked paragraph, a bullet list item and a divider. -/
theorem c1_round_trip_witness :
    (∀ b ∈ c1DemoBlocks, goodBlock b)
    ∧ (List.Forall₂ rtEquiv c1DemoBlocks
        (parseHtml (renderContent emptyStyleCss c1DemoBlocks))
      ∧ (parseHtml (renderContent emptyStyleCss c1DemoBlocks)).map blockSig
          = c1DemoBlocks.map blockSig) :=
  ⟨by decide, c1_round_trip c1DemoBlocks (by decide)⟩

end WordOnline
